import Mathlib

/-!
Shallow embedding of the fuguex-core state model and interpreter, together
with proofs settling the frozen claims about the natural-language spec.

Sources embedded (paths relative to the repository root):
  * `fugue-state/src/flat.rs` — `FlatState`, `Permissions`, `DirtyBacking`
  * `fugue-state/src/chunked.rs` — `ChunkList`, `ChunkState`
  * `fuguex-state/src/paged.rs` — `Segment`, `PagedState`
  * `fuguex-state/src/pcode.rs` — `PCodeState`, operand access
  * `fuguex-machine/src/types.rs` — `Branch`, `StepState`
  * `fuguex-concrete/src/interpreter.rs` — operand I/O, hook fan-out,
    the CBranch micro-op and the integer micro-ops

Machine bytes are modelled as `Nat` values (u8 contents), `u64` bitmap words
as `Nat` values; all masking is explicit.  Addresses live in a single address
space and are plain offsets (`Nat`).  Fallible operations on a state `s` are
modelled Rust-style as `(Except Error α) × State`: the second component is
the (possibly mutated) receiver, so "a failing call leaves the state
unchanged" is a real statement about the embedding.
-/

deriving instance DecidableEq for Except

set_option maxRecDepth 8192

namespace FuguexSpec

/-! ## List helpers used to model byte buffers and slices -/

/-- Copy of a slice `s[start .. start+n)` (out-of-range bytes read as 0;
all uses are bounds-checked before slicing, mirroring Rust panics-on-OOB). -/
def sliceD (s : List Nat) (start n : Nat) : List Nat :=
  (List.range n).map fun k => s.getD (start + k) 0

/-- Overwrite `s[start .. start+bs.length)` with `bs`, keeping the length of
`s` (models `slice::copy_from_slice` into a sub-slice). -/
def writeRange (s : List Nat) (start : Nat) (bs : List Nat) : List Nat :=
  (List.range s.length).map fun i =>
    if start ≤ i ∧ i < start + bs.length then bs.getD (i - start) 0 else s.getD i 0

/-- Overwrite `s[lo .. hi)` with the corresponding bytes of `o`, keeping the
length of `s` (models `s[lo..hi].copy_from_slice(&o[lo..hi])`). -/
def overwriteFrom (s o : List Nat) (lo hi : Nat) : List Nat :=
  (List.range s.length).map fun i =>
    if lo ≤ i ∧ i < hi then o.getD i 0 else s.getD i 0

/-! ## Permissions (`fugue-state/src/flat.rs`)

Two permission bits per byte packed into 64-bit words:
`PERM_SCALE = (64 << 3) >> 1 / 8 = 32` bytes per word, read bit at offset 1,
write bit at offset 0 within each 2-bit group. -/

inductive Access
  | read
  | write
  | readWrite
deriving DecidableEq, Repr

def PERM_READ_OFF : Nat := 1
def PERM_WRITE_OFF : Nat := 0
def PERM_READ_WRITE_OFF : Nat := 0
def PERM_READ_MASK : Nat := 0xAAAAAAAAAAAAAAAA
def PERM_WRITE_MASK : Nat := 0x5555555555555555
def PERM_SCALE : Nat := 32
def U64_MAX : Nat := 0xFFFFFFFFFFFFFFFF

/-- The check mask computed identically in `is_marked`, `set_byte` and
`clear_byte`: two bits per byte, `bit = (addr % 32) << 1`. -/
def checkMask (addr : Nat) (access : Access) : Nat :=
  let bit := (addr % PERM_SCALE) <<< 1
  match access with
  | .readWrite => 3 <<< (bit + PERM_READ_WRITE_OFF)
  | .read => 1 <<< (bit + PERM_READ_OFF)
  | .write => 1 <<< (bit + PERM_WRITE_OFF)

structure Permissions where
  bitsmap : List Nat
deriving DecidableEq, Repr

namespace Permissions

def new_with (size : Nat) (mask : Nat) : Permissions :=
  ⟨List.replicate (1 + size / PERM_SCALE) mask⟩

def new (size : Nat) : Permissions :=
  new_with size (PERM_READ_MASK ||| PERM_WRITE_MASK)

def is_marked (p : Permissions) (addr : Nat) (access : Access) : Bool :=
  let index := addr / PERM_SCALE
  let check := checkMask addr access
  (p.bitsmap.getD index 0) &&& check == check

def all_marked (p : Permissions) (addr size : Nat) (access : Access) : Bool :=
  (List.range size).all fun k => p.is_marked (addr + k) access

def all_readable (p : Permissions) (addr size : Nat) : Bool :=
  p.all_marked addr size .read

def all_writable (p : Permissions) (addr size : Nat) : Bool :=
  p.all_marked addr size .write

def all_readable_and_writable (p : Permissions) (addr size : Nat) : Bool :=
  p.all_marked addr size .readWrite

def set_byte (p : Permissions) (addr : Nat) (access : Access) : Permissions :=
  let index := addr / PERM_SCALE
  let check := checkMask addr access
  ⟨p.bitsmap.set index ((p.bitsmap.getD index 0) ||| check)⟩

def clear_byte (p : Permissions) (addr : Nat) (access : Access) : Permissions :=
  let index := addr / PERM_SCALE
  let check := checkMask addr access
  ⟨p.bitsmap.set index ((p.bitsmap.getD index 0) &&& (U64_MAX ^^^ check))⟩

def set_region (p : Permissions) (addr size : Nat) (access : Access) : Permissions :=
  (List.range size).foldl (fun q k => q.set_byte (addr + k) access) p

def clear_region (p : Permissions) (addr size : Nat) (access : Access) : Permissions :=
  (List.range size).foldl (fun q k => q.clear_byte (addr + k) access) p

end Permissions

/-! ## Dirty-block tracking (`DirtyBacking`, `fugue-state/src/flat.rs`)

Block granularity is 64 bytes.  Note `Block::bit`/`Block::index` divide by
`size_of::<Block>() = 8`, exactly as the source does. -/

def BLOCK_SIZE : Nat := 64

def Block.bit (b : Nat) : Nat := b % 8

def Block.index (b : Nat) : Nat := b / 8

structure DirtyBacking where
  indices : List Nat
  bitsmap : List Nat
deriving DecidableEq, Repr

namespace DirtyBacking

def new (size : Nat) : DirtyBacking :=
  let backing_size := 1 + size / BLOCK_SIZE
  ⟨[], List.replicate (1 + backing_size / 8) 0⟩

def fork (d : DirtyBacking) : DirtyBacking :=
  ⟨[], List.replicate d.bitsmap.length 0⟩

def dirty (d : DirtyBacking) (block : Nat) : DirtyBacking :=
  let index := Block.index block
  let check := 1 <<< Block.bit block
  if (d.bitsmap.getD index 0) &&& check == 0 then
    { indices := d.indices ++ [block],
      bitsmap := d.bitsmap.set index ((d.bitsmap.getD index 0) ||| check) }
  else
    d

def dirty_region (d : DirtyBacking) (start size : Nat) : DirtyBacking :=
  let sblock := start / BLOCK_SIZE
  let eblock := (start + size) / BLOCK_SIZE
  (List.range (eblock - sblock + 1)).foldl (fun acc k => acc.dirty (sblock + k)) d

end DirtyBacking

/-! ## FlatState (`fugue-state/src/flat.rs`)

Mutating methods take `&mut self` in Rust; they are embedded as functions
returning `(Except FlatError α) × FlatState`, the second component being the
receiver after the call. -/

inductive FlatError
  | accessViolation (address : Nat) (size : Nat) (access : Access)
  | oobRead (address : Nat) (size : Nat)
  | oobWrite (address : Nat) (size : Nat)
deriving DecidableEq, Repr

structure FlatState where
  backing : List Nat
  dirty : DirtyBacking
  permissions : Permissions
deriving DecidableEq, Repr

namespace FlatState

def new (size : Nat) : FlatState :=
  ⟨List.replicate size 0, DirtyBacking.new size, Permissions.new size⟩

def read_only (size : Nat) : FlatState :=
  ⟨List.replicate size 0, DirtyBacking.new size, Permissions.new_with size PERM_READ_MASK⟩

def from_vec (bytes : List Nat) : FlatState :=
  ⟨bytes, DirtyBacking.new bytes.length, Permissions.new bytes.length⟩

def len (f : FlatState) : Nat := f.backing.length

def fork (f : FlatState) : FlatState :=
  { backing := f.backing, dirty := f.dirty.fork, permissions := f.permissions }

/-- `FlatState::restore`: for every block in the receiver's dirty index list,
zero the whole bitmap word holding that block's bit and copy the block's
bytes (clipped to the backing length) from `other`; finally clone `other`'s
permissions.  The source does not clear `indices`. -/
def restore (f other : FlatState) : FlatState :=
  let step := fun (st : List Nat × List Nat) (block : Nat) =>
    (overwriteFrom st.1 other.backing (block * BLOCK_SIZE)
        (min st.1.length ((block + 1) * BLOCK_SIZE)),
     st.2.set (Block.index block) 0)
  let r := f.dirty.indices.foldl step (f.backing, f.dirty.bitsmap)
  { backing := r.1,
    dirty := { indices := f.dirty.indices, bitsmap := r.2 },
    permissions := other.permissions }

def get_bytes (f : FlatState) (address size : Nat) :
    (Except FlatError (List Nat)) × FlatState :=
  if address > f.len ∨ address + size > f.len then
    (.error (.oobRead address size), f)
  else if ¬ f.permissions.all_readable address size then
    (.error (.accessViolation address size .read), f)
  else
    (.ok (sliceD f.backing address size), f)

def view_bytes (f : FlatState) (address size : Nat) :
    (Except FlatError (List Nat)) × FlatState :=
  if address > f.len ∨ address + size > f.len then
    (.error (.oobRead address size), f)
  else if ¬ f.permissions.all_readable address size then
    (.error (.accessViolation address size .read), f)
  else
    (.ok (sliceD f.backing address size), f)

/-- `view_bytes_mut` checks bounds (reporting `OOBRead`), requires R+W on the
whole range, marks the range dirty and hands out the mutable view. -/
def view_bytes_mut (f : FlatState) (address size : Nat) :
    (Except FlatError (List Nat)) × FlatState :=
  if address > f.len ∨ address + size > f.len then
    (.error (.oobRead address size), f)
  else if ¬ f.permissions.all_readable_and_writable address size then
    (.error (.accessViolation address size .readWrite), f)
  else
    (.ok (sliceD f.backing address size),
     { f with dirty := f.dirty.dirty_region address size })

/-- Writing `bs` through the slice returned by `view_bytes_mut`
(`values.copy_from_slice(bs)` in the callers). -/
def view_mut_write (f : FlatState) (address : Nat) (bs : List Nat) :
    (Except FlatError Unit) × FlatState :=
  if address > f.len ∨ address + bs.length > f.len then
    (.error (.oobRead address bs.length), f)
  else if ¬ f.permissions.all_readable_and_writable address bs.length then
    (.error (.accessViolation address bs.length .readWrite), f)
  else
    (.ok (),
     { f with backing := writeRange f.backing address bs,
              dirty := f.dirty.dirty_region address bs.length })

def set_bytes (f : FlatState) (address : Nat) (bs : List Nat) :
    (Except FlatError Unit) × FlatState :=
  if address > f.len ∨ address + bs.length > f.len then
    (.error (.oobWrite address bs.length), f)
  else if ¬ f.permissions.all_writable address bs.length then
    (.error (.accessViolation address bs.length .write), f)
  else
    (.ok (),
     { f with backing := writeRange f.backing address bs,
              dirty := f.dirty.dirty_region address bs.length })

def copy_bytes (f : FlatState) (src dst size : Nat) :
    (Except FlatError Unit) × FlatState :=
  if src > f.len ∨ src + size > f.len then
    (.error (.oobRead src size), f)
  else if ¬ f.permissions.all_readable src size then
    (.error (.accessViolation src size .read), f)
  else if dst > f.len ∨ dst + size > f.len then
    (.error (.oobWrite dst size), f)
  else if ¬ f.permissions.all_writable dst size then
    (.error (.accessViolation dst size .write), f)
  else
    (.ok (),
     { f with backing := writeRange f.backing dst (sliceD f.backing src size),
              dirty := f.dirty.dirty_region dst size })

end FlatState

/-! ## ChunkList (`fugue-state/src/chunked.rs`)

The heap bookkeeping list.  Rust's `for i in 0..self.0.len()` scans with
early return are embedded as index recursions; `Vec::insert`/`Vec::remove`
become `List.insertIdx`/`List.eraseIdx`.  Out-of-range accesses are guarded
by the same conditions as the source. -/

inductive ChunkStatus
  | taken (offset size : Nat)
  | free (offset size : Nat)
deriving DecidableEq, Repr

namespace ChunkStatus

def is_free : ChunkStatus → Bool
  | .free _ _ => true
  | .taken _ _ => false

def is_taken : ChunkStatus → Bool
  | .free _ _ => false
  | .taken _ _ => true

def offset : ChunkStatus → Nat
  | .free o _ | .taken o _ => o

def size : ChunkStatus → Nat
  | .free _ s | .taken _ s => s

end ChunkStatus

/-- Default chunk used for guarded `getD` list reads (never observable: every
read is dominated by an index-in-bounds test, where Rust would panic). -/
def dummyChunk : ChunkStatus := .free 0 0

namespace ChunkList

def new (size : Nat) : List ChunkStatus := [.free 0 size]

/-- `ChunkList::allocate`, scanning from index `i`.  The `fuel` argument only
drives structural recursion; the wrapper passes `l.length`, which dominates
the loop bound `i < l.length`, so the fuel case never decides the result. -/
def allocateFrom (l : List ChunkStatus) (size : Nat) : Nat → Nat → Option (Nat × List ChunkStatus)
  | _, 0 => none
  | i, fuel + 1 =>
    if i < l.length then
      let c := l.getD i dummyChunk
      if c.is_free then
        if c.size = size then
          some (c.offset, l.set i (.taken c.offset size))
        else if c.size > size then
          some (c.offset,
            (l.set i (.taken c.offset size)).insertIdx (i + 1)
              (.free (c.offset + size) (c.size - size)))
        else
          allocateFrom l size (i + 1) fuel
      else
        allocateFrom l size (i + 1) fuel
    else
      none

def allocate (l : List ChunkStatus) (size : Nat) : Option (Nat × List ChunkStatus) :=
  allocateFrom l size 0 l.length

/-- `ChunkList::deallocate`, scanning from index `i`.  Returns the freed
chunk's recorded size and the updated list. -/
def deallocateFrom (l : List ChunkStatus) (offset : Nat) : Nat → Nat → Option (Nat × List ChunkStatus)
  | _, 0 => none
  | i, fuel + 1 =>
    if i < l.length then
    let c := l.getD i dummyChunk
    if c.is_taken ∧ c.offset = offset then
      let old_size := c.size
      -- merge the free chunk on the right, if any
      let mergeRight := i < l.length - 1 ∧ (l.getD (i + 1) dummyChunk).is_free
      let size1 := if mergeRight then old_size + (l.getD (i + 1) dummyChunk).size else old_size
      let l1 := if mergeRight then l.eraseIdx (i + 1) else l
      -- merge the free chunk on the left, if any
      let mergeLeft := 0 < i ∧ (l1.getD (i - 1) dummyChunk).is_free
      let offset2 := if mergeLeft then (l1.getD (i - 1) dummyChunk).offset else offset
      let size2 := if mergeLeft then size1 + (l1.getD (i - 1) dummyChunk).size else size1
      let spos := if mergeLeft then i - 1 else i
      let l2 := if mergeLeft then l1.eraseIdx i else l1
      some (old_size, l2.set spos (.free offset2 size2))
    else
      deallocateFrom l offset (i + 1) fuel
    else
      none

def deallocate (l : List ChunkStatus) (offset : Nat) : Option (Nat × List ChunkStatus) :=
  deallocateFrom l offset 0 l.length

/-- `ChunkList::reallocate`, scanning from index `i`.  Returns
`(new_offset, old_size, list)`.  The growth paths are transcribed exactly,
including the `remove` index arithmetic of the source. -/
def reallocateFrom (l : List ChunkStatus) (offset new_size : Nat) :
    Nat → Nat → Option (Nat × Nat × List ChunkStatus)
  | _, 0 => none
  | i, fuel + 1 =>
    if i < l.length then
    let c := l.getD i dummyChunk
    if c.is_taken ∧ c.offset = offset then
      let old_size := c.size
      if new_size = old_size then
        some (offset, old_size, l)
      else if new_size < old_size then
        let l1 := l.set i (.taken offset new_size)
        let diff := old_size - new_size
        if i < l.length - 1 ∧ (l1.getD (i + 1) dummyChunk).is_free then
          let upd_offset := (l1.getD (i + 1) dummyChunk).offset - diff
          let upd_size := (l1.getD (i + 1) dummyChunk).size + diff
          some (offset, old_size, l1.set (i + 1) (.free upd_offset upd_size))
        else
          some (offset, old_size, l1.insertIdx (i + 1) (.free (offset + new_size) diff))
      else
        -- try to absorb the free chunk on the right
        let mergeRight := i < l.length - 1 ∧ (l.getD (i + 1) dummyChunk).is_free
        let size1 := if mergeRight then old_size + (l.getD (i + 1) dummyChunk).size else old_size
        let epos := if mergeRight then i + 1 else i
        if size1 > new_size then
          some (offset, old_size,
            (l.set i (.taken offset new_size)).set epos
              (.free (offset + new_size) (size1 - new_size)))
        else if size1 = new_size then
          some (offset, old_size, (l.set i (.taken offset new_size)).eraseIdx epos)
        else
          -- try to absorb the free chunk on the left
          let mergeLeft := 0 < i ∧ (l.getD (i - 1) dummyChunk).is_free
          let offset2 := if mergeLeft then (l.getD (i - 1) dummyChunk).offset else offset
          let size2 := if mergeLeft then size1 + (l.getD (i - 1) dummyChunk).size else size1
          let spos := if mergeLeft then i - 1 else i
          if size2 > new_size then
            let l1 := (l.set spos (.taken offset2 new_size)).set (spos + 1)
              (.free (offset2 + new_size) (size2 - new_size))
            some (offset2, old_size, l1.eraseIdx (i + 1))
          else if size2 = new_size then
            let l1 := (l.set spos (.taken offset2 new_size)).eraseIdx i
            some (offset2, old_size, l1.eraseIdx (i + 1))
          else
            -- all else fails: allocate elsewhere, then free the old chunk
            match allocate l new_size with
            | some (new_offset, l1) =>
              let l2 := match deallocate l1 offset with
                | some (_, l') => l'
                | none => l1
              some (new_offset, old_size, l2)
            | none => none
    else
      reallocateFrom l offset new_size (i + 1) fuel
    else
      none

def reallocate (l : List ChunkStatus) (offset new_size : Nat) :
    Option (Nat × Nat × List ChunkStatus) :=
  reallocateFrom l offset new_size 0 l.length

end ChunkList

/-! ## ChunkState (`fugue-state/src/chunked.rs`)

A single-region heap allocator over a read-only-by-default `FlatState`.
The `IntervalSet` of live regions is modelled as a list of inclusive
intervals `(lo, hi)` in absolute addresses; `find` is a first-match scan and
`find_all` a filter (live regions are pairwise disjoint in every reachable
state, so first-match agrees with the interval tree). -/

inductive ChunkError
  | backing (e : FlatError)
  | notEnoughFreeSpace (size : Nat)
  | accessUnmanaged (address size : Nat)
  | freeUnmanaged (address : Nat)
  | reallocateUnmanaged (address : Nat)
  | heapOverflow (address size : Nat)
deriving DecidableEq, Repr

/-- `Error::backing`: rebase a flat error's address by the chunk base. -/
def ChunkError.rebase (base : Nat) : FlatError → ChunkError
  | .oobRead address size => .backing (.oobRead (address + base) size)
  | .oobWrite address size => .backing (.oobWrite (address + base) size)
  | .accessViolation address size access =>
    .backing (.accessViolation (address + base) size access)

/-- Inclusive intervals intersect. -/
def intersects (r q : Nat × Nat) : Bool :=
  r.1 ≤ q.2 ∧ q.1 ≤ r.2

structure ChunkState where
  base_address : Nat
  chunks : List ChunkStatus
  regions : List (Nat × Nat)
  backing : FlatState
deriving DecidableEq, Repr

namespace ChunkState

def new (base_address size : Nat) : ChunkState :=
  ⟨base_address, ChunkList.new size, [], FlatState.read_only size⟩

def len (s : ChunkState) : Nat := s.backing.len

/-- `IntervalSet::find` for a point address. -/
def findRegion (s : ChunkState) (address : Nat) : Option (Nat × Nat) :=
  s.regions.find? (fun r => r.1 ≤ address ∧ address ≤ r.2)

def translate_checked (s : ChunkState) (address size : Nat) : Except ChunkError Nat :=
  let found := s.regions.filter (fun r => intersects r (address, address + size - 1))
  if found.isEmpty then
    .error (.accessUnmanaged address size)
  else if found.length > 1 then
    .error (.heapOverflow address size)
  else
    .ok (address - s.base_address)

/-- `ChunkState::allocate` (that is, `allocate_with` with the no-op initializer):
take `size + 1` bytes from the chunk list (the extra byte is the red zone),
mark `[offset, offset+size)` R+W, clear the write bit on the red-zone byte,
record the live region, and hand out a mutable view (which marks dirty). -/
def allocate (s : ChunkState) (size : Nat) : (Except ChunkError Nat) × ChunkState :=
  match ChunkList.allocate s.chunks (size + 1) with
  | none => (.error (.notEnoughFreeSpace size), s)
  | some (offset, chunks') =>
    let address := s.base_address + offset
    let perms := (s.backing.permissions.set_region offset size .readWrite).clear_byte
      (offset + size) .write
    let regions' := s.regions ++ [(address, address + size - 1)]
    let s1 : ChunkState :=
      { s with chunks := chunks', regions := regions',
               backing := { s.backing with permissions := perms } }
    match s1.backing.view_bytes_mut offset size with
    | (.error e, b') => (.error (.backing e), { s1 with backing := b' })
    | (.ok _, b') => (.ok address, { s1 with backing := b' })

def deallocate (s : ChunkState) (address : Nat) : (Except ChunkError Unit) × ChunkState :=
  match s.findRegion address with
  | none => (.error (.freeUnmanaged address), s)
  | some region =>
    if region.1 ≠ address then
      (.error (.freeUnmanaged address), s)
    else
      let offset := address - s.base_address
      match ChunkList.deallocate s.chunks offset with
      | none => (.error (.freeUnmanaged address), s)
      | some (_, chunks') =>
        let size := 1 + (region.2 - region.1)
        let perms := s.backing.permissions.clear_region offset size .write
        (.ok (),
         { s with chunks := chunks',
                  backing := { s.backing with permissions := perms },
                  regions := s.regions.erase region })

def reallocate (s : ChunkState) (address size : Nat) : (Except ChunkError Nat) × ChunkState :=
  match s.findRegion address with
  | none => (.error (.reallocateUnmanaged address), s)
  | some region =>
    if region.1 ≠ address then
      (.error (.reallocateUnmanaged address), s)
    else
      let old_offset := address - s.base_address
      let old_size := region.2 - region.1 + 1
      if ¬ s.backing.permissions.all_readable old_offset old_size then
        (.error (.backing (.accessViolation address size .read)), s)
      else
        match ChunkList.reallocate s.chunks old_offset (size + 1) with
        | none => (.error (.notEnoughFreeSpace size), s)
        | some (offset, _, chunks') =>
          let new_address := s.base_address + offset
          let perms := (s.backing.permissions.set_region offset size .readWrite).clear_byte
            (offset + size) .write
          let s1 : ChunkState :=
            { s with chunks := chunks', backing := { s.backing with permissions := perms } }
          -- copy if moved (and poison the old range against use-after-realloc)
          if old_offset ≠ offset then
            match s1.backing.copy_bytes old_offset offset old_size with
            | (.error e, b') => (.error (ChunkError.rebase s.base_address e), { s1 with backing := b' })
            | (.ok _, b') =>
              let perms' := b'.permissions.clear_region old_offset old_size .write
              let regions' := (s.regions.erase region) ++ [(new_address, new_address + size - 1)]
              (.ok new_address,
               { s1 with backing := { b' with permissions := perms' }, regions := regions' })
          else
            let regions' := (s.regions.erase region) ++ [(new_address, new_address + size - 1)]
            (.ok new_address, { s1 with regions := regions' })

def get_values (s : ChunkState) (address size : Nat) : Except ChunkError (List Nat) :=
  match s.translate_checked address size with
  | .error e => .error e
  | .ok off =>
    match s.backing.get_bytes off size with
    | (.error e, _) => .error (ChunkError.rebase s.base_address e)
    | (.ok bs, _) => .ok bs

def view_values (s : ChunkState) (address size : Nat) : Except ChunkError (List Nat) :=
  match s.translate_checked address size with
  | .error e => .error e
  | .ok off =>
    match s.backing.view_bytes off size with
    | (.error e, _) => .error (ChunkError.rebase s.base_address e)
    | (.ok bs, _) => .ok bs

def view_values_mut (s : ChunkState) (address size : Nat) :
    (Except ChunkError (List Nat)) × ChunkState :=
  match s.translate_checked address size with
  | .error e => (.error e, s)
  | .ok off =>
    match s.backing.view_bytes_mut off size with
    | (.error e, b') => (.error (ChunkError.rebase s.base_address e), { s with backing := b' })
    | (.ok bs, b') => (.ok bs, { s with backing := b' })

def set_values (s : ChunkState) (address : Nat) (bs : List Nat) :
    (Except ChunkError Unit) × ChunkState :=
  match s.translate_checked address bs.length with
  | .error e => (.error e, s)
  | .ok off =>
    match s.backing.set_bytes off bs with
    | (.error e, b') => (.error (ChunkError.rebase s.base_address e), { s with backing := b' })
    | (.ok _, b') => (.ok (), { s with backing := b' })

def copy_values (s : ChunkState) (src dst size : Nat) :
    (Except ChunkError Unit) × ChunkState :=
  match s.translate_checked src size with
  | .error e => (.error e, s)
  | .ok from_off =>
    match s.translate_checked dst size with
    | .error e => (.error e, s)
    | .ok to_off =>
      match s.backing.copy_bytes from_off to_off size with
      | (.error e, b') => (.error (ChunkError.rebase s.base_address e), { s with backing := b' })
      | (.ok _, b') => (.ok (), { s with backing := b' })

def fork (s : ChunkState) : ChunkState :=
  { s with backing := s.backing.fork }

def restore (s other : ChunkState) : ChunkState :=
  { base_address := other.base_address,
    chunks := other.chunks,
    regions := other.regions,
    backing := s.backing.restore other.backing }

end ChunkState

/-! ## StepState and branching (`fuguex-machine/src/types.rs`)

`Branch::Local` carries an `isize`; a negative offset larger than the current
position panics in the source, embedded as `none`.  The micro-op payload type
is irrelevant to the cursor logic, so `StepState` is parametric in it. -/

inductive Branch
  | next
  | toLocal (offset : Int)
  | toGlobal (address : Nat)
deriving DecidableEq, Repr

inductive BranchOutcome
  | isLocal
  | isGlobal (address : Nat)
deriving DecidableEq, Repr

structure StepState (Op : Type) where
  address : Nat
  length : Nat
  operations : List Op
  position : Nat
deriving DecidableEq, Repr

def StepState.fallthrough {Op : Type} (s : StepState Op) : Nat :=
  s.address + s.length

def StepState.branch {Op : Type} (s : StepState Op) (action : Branch) :
    Option (StepState Op × BranchOutcome) :=
  match action with
  | .toGlobal a => some (s, .isGlobal a)
  | .next =>
    let s' : StepState Op := { s with position := s.position + 1 }
    if s'.position < s.operations.length then some (s', .isLocal)
    else some (s', .isGlobal s.fallthrough)
  | .toLocal offset =>
    if offset < 0 then
      let abs := offset.natAbs
      if abs ≤ s.position then
        let s' : StepState Op := { s with position := s.position - abs }
        if s'.position < s.operations.length then some (s', .isLocal)
        else some (s', .isGlobal s.fallthrough)
      else
        none
    else
      let s' : StepState Op := { s with position := s.position + offset.toNat }
      if s'.position < s.operations.length then some (s', .isLocal)
      else some (s', .isGlobal s.fallthrough)

/-! ## Claim-support definitions -/

/-- The spec's ChunkList invariant, first clause: chunks tile `[0, N)`
contiguously — each chunk starts where the previous one ended, starting at 0
and ending at `N` (no gaps, no overlaps). -/
def contiguousFrom (N : Nat) : Nat → List ChunkStatus → Bool
  | acc, [] => acc == N
  | acc, c :: t => (c.offset == acc) && contiguousFrom N (acc + c.size) t

/-- The spec's ChunkList invariant, remaining clauses: offsets strictly
increasing and no two adjacent chunks both free. -/
def adjacentOK : List ChunkStatus → Bool
  | [] => true
  | [_] => true
  | a :: b :: t =>
    (decide (a.offset < b.offset) && !(a.is_free && b.is_free)) && adjacentOK (b :: t)

/-- The invariant claimed for `ChunkList` after any operation sequence. -/
def chunksInvariant (N : Nat) (l : List ChunkStatus) : Bool :=
  contiguousFrom N 0 l && adjacentOK l

/-- A heap operation on a bare `ChunkList`. -/
inductive ChunkOp
  | alloc (n : Nat)
  | dealloc (off : Nat)
  | realloc (off n : Nat)
deriving DecidableEq, Repr

/-- Run a sequence of `ChunkList` operations, failing if any fails. -/
def applyChunkOps (l : List ChunkStatus) : List ChunkOp → Option (List ChunkStatus)
  | [] => some l
  | .alloc n :: rest => (ChunkList.allocate l n).bind fun r => applyChunkOps r.2 rest
  | .dealloc o :: rest => (ChunkList.deallocate l o).bind fun r => applyChunkOps r.2 rest
  | .realloc o n :: rest => (ChunkList.reallocate l o n).bind fun r => applyChunkOps r.2.2 rest

/-- The containment reading of claim C3: `[a, a+n-1]` lies inside exactly one
live region. -/
def containedInExactlyOneRegion (s : ChunkState) (a n : Nat) : Bool :=
  s.regions.countP (fun r => r.1 ≤ a && a + n - 1 ≤ r.2) == 1

/-- Whether a chunk-level result failed specifically with a permission
`AccessViolation` (claim C4's asserted failure mode). -/
def resultIsAccessViolation {α : Type} : Except ChunkError α → Bool
  | .error (.backing (.accessViolation _ _ _)) => true
  | _ => false

/-- Scenario S2/S3 base address. -/
def heapBase : Nat := 0x40000000

/-- ChunkState of size 0x1000 at `heapBase` right after `allocate(16)`,
which returns address `heapBase` (allocation A). -/
def heapA : ChunkState := ((ChunkState.new heapBase 0x1000).allocate 16).2

/-- Scenario S3: after `allocate(16) → A`, `allocate(16) → B`. -/
def c5s2 : ChunkState := (heapA.allocate 16).2

/-- Scenario S3: address of allocation B (the red zone makes chunks 17 bytes). -/
def c5B : Nat := heapBase + 17

/-- Scenario S3: after `deallocate(A)`. -/
def c5s3 : ChunkState := (c5s2.deallocate heapBase).2

/-! Explicit record forms of the scenario states (proved equal to the above
in `heapA_eq`, `c5s2_eq`, `c5s3_eq`): the 0x1000-byte backing stays the
untouched `List.replicate`, permissions/dirty keep their defining operation
chains. -/

def perms0 : Permissions := (FlatState.read_only 0x1000).permissions

def permsAfterA : Permissions := (perms0.set_region 0 16 .readWrite).clear_byte 16 .write

def permsAfterB : Permissions := (permsAfterA.set_region 17 16 .readWrite).clear_byte 33 .write

def permsAfterFreeA : Permissions := permsAfterB.clear_region 0 16 .write

def dirty0 : DirtyBacking := DirtyBacking.new 0x1000

def dirtyAfterA : DirtyBacking := dirty0.dirty_region 0 16

def dirtyAfterB : DirtyBacking := dirtyAfterA.dirty_region 17 16

def heapAExplicit : ChunkState :=
  ⟨heapBase, [.taken 0 17, .free 17 4079], [(heapBase, heapBase + 15)],
   ⟨List.replicate 0x1000 0, dirtyAfterA, permsAfterA⟩⟩

def c5s2Explicit : ChunkState :=
  ⟨heapBase, [.taken 0 17, .taken 17 17, .free 34 4062],
   [(heapBase, heapBase + 15), (c5B, c5B + 15)],
   ⟨List.replicate 0x1000 0, dirtyAfterB, permsAfterB⟩⟩

def c5s3Explicit : ChunkState :=
  ⟨heapBase, [.free 0 17, .taken 17 17, .free 34 4062], [(c5B, c5B + 15)],
   ⟨List.replicate 0x1000 0, dirtyAfterB, permsAfterFreeA⟩⟩



/-! ## Write operations and dirty-coverage (claim C1 support)

`WriteOp` packages the mutating byte-level `FlatState` operations; claim C1
quantifies over arbitrary sequences of them performed on a fork. -/

inductive WriteOp
  | set (address : Nat) (bs : List Nat)
  | copy (src dst size : Nat)
  | viewMut (address : Nat) (bs : List Nat)
deriving DecidableEq, Repr

def applyWrite (f : FlatState) : WriteOp → FlatState
  | .set a bs => (f.set_bytes a bs).2
  | .copy src dst n => (f.copy_bytes src dst n).2
  | .viewMut a bs => (f.view_mut_write a bs).2

def applyWrites (f : FlatState) (ops : List WriteOp) : FlatState :=
  ops.foldl applyWrite f

/-- Dirty-bitmap soundness: a block whose bitmap bit is set occurs in the
index list (`dirty` only skips the append when the bit is already set). -/
def bitsOK (d : DirtyBacking) : Prop :=
  ∀ blk, ((d.bitsmap.getD (Block.index blk) 0).testBit (Block.bit blk) = true) →
    blk ∈ d.indices

/-- The restore invariant relating a forked-and-written child to its parent:
equal backing lengths, every differing byte lies in a block recorded in the
child's dirty index list, and the child's dirty bitmap is sound. -/
def FlatCov (parent child : FlatState) : Prop :=
  child.backing.length = parent.backing.length ∧
  (∀ i, i < child.backing.length →
    child.backing.getD i 0 ≠ parent.backing.getD i 0 →
    ∃ b ∈ child.dirty.indices, b * BLOCK_SIZE ≤ i ∧ i < (b + 1) * BLOCK_SIZE) ∧
  bitsOK child.dirty


/-! ## Segments, PagedState and PCodeState (`fuguex-state/src/paged.rs`,
`register.rs`, `unique.rs`, `pcode.rs`)

The interval tree of segments is modelled as a list of entries keyed by the
inclusive interval `(lo, hi)`; `find` is a first-match scan and `find_exact`
an exact key match (intervals are pairwise disjoint in reachable states).
`RegisterState` and `UniqueState` are thin wrappers delegating every state
operation to their inner `FlatState`, so registers and temporaries are
embedded as `FlatState` directly. -/

inductive PagedError
  | unmappedAddress (address size : Nat)
  | overlappedAccess (address size : Nat)
  | chunked (e : ChunkError)
  | backing (address : Nat) (e : FlatError)
deriving DecidableEq, Repr

inductive Segment
  | staticSeg (name : String) (offset : Nat)
  | mapping (name : String) (backing : ChunkState)
deriving DecidableEq, Repr

namespace Segment

def fork : Segment → Segment
  | .staticSeg n o => .staticSeg n o
  | .mapping n b => .mapping n b.fork

/-- `Segment::restore`; the panics on incompatible segments become `none`. -/
def restore : Segment → Segment → Option Segment
  | .staticSeg n o, .staticSeg rn ro =>
    if n ≠ rn ∨ o ≠ ro then none else some (.staticSeg n o)
  | .mapping n b, .mapping rn rb =>
    if n ≠ rn ∨ b.base_address ≠ rb.base_address ∨ b.len ≠ rb.len then none
    else some (.mapping n (b.restore rb))
  | .staticSeg _ _, .mapping _ _ => none
  | .mapping _ _, .staticSeg _ _ => none

end Segment

structure PagedState where
  segments : List ((Nat × Nat) × Segment)
  inner : FlatState
deriving DecidableEq, Repr

namespace PagedState

def fork (p : PagedState) : PagedState :=
  ⟨p.segments.map (fun e => (e.1, e.2.fork)), p.inner.fork⟩

/-- `IntervalTree::find` for a point: the first entry whose interval
contains the address, as an index. -/
def findSegIdx (p : PagedState) (address : Nat) : Option Nat :=
  p.segments.findIdx? (fun e => e.1.1 ≤ address ∧ address ≤ e.1.2)

def find_exact (others : List ((Nat × Nat) × Segment)) (key : Nat × Nat) :
    Option ((Nat × Nat) × Segment) :=
  others.find? (fun e => e.1 = key)

/-- The segment `filter_map` of `PagedState::restore`, with a possible
segment-restore panic propagated as `none`. -/
def restoreSegs (others : List ((Nat × Nat) × Segment)) :
    List ((Nat × Nat) × Segment) → Option (List ((Nat × Nat) × Segment))
  | [] => some []
  | e :: t =>
    match find_exact others e.1 with
    | none => restoreSegs others t
    | some vo =>
      match e.2.restore vo.2 with
      | none => none
      | some v' => (restoreSegs others t).map (fun t' => (e.1, v') :: t')

def restore (p other : PagedState) : Option PagedState :=
  match restoreSegs other.segments p.segments with
  | none => none
  | some segs' => some ⟨segs', p.inner.restore other.inner⟩

/-- `PagedState::set_values` through `with_flat_mut`: find the segment at
the address, bounds-check against the interval end, then write through the
mapping chunk's flat backing (after `translate_checked`) or the shared inner
flat (rebased by the static offset). -/
def set_values (p : PagedState) (address : Nat) (bs : List Nat) :
    (Except PagedError Unit) × PagedState :=
  match p.findSegIdx address with
  | none => (.error (.unmappedAddress address bs.length), p)
  | some j =>
    let e := p.segments.getD j ((0, 0), .staticSeg "" 0)
    if address + bs.length - 1 > e.1.2 then
      (.error (.overlappedAccess address bs.length), p)
    else
      match e.2 with
      | .mapping name b =>
        match b.translate_checked address bs.length with
        | .error ce => (.error (.chunked ce), p)
        | .ok translated =>
          let r := b.backing.set_bytes translated bs
          (r.1.mapError (fun fe => .backing translated fe),
           { p with segments :=
               (p.segments.set j (e.1, .mapping name { b with backing := r.2 })) })
      | .staticSeg _ offset =>
        let addr2 := (address - e.1.1) + offset
        let r := p.inner.set_bytes addr2 bs
        (r.1.mapError (fun fe => .backing addr2 fe),
         { p with inner := r.2 })

end PagedState

structure PCodeState where
  memory : PagedState
  registers : FlatState
  temporaries : FlatState
deriving DecidableEq, Repr

namespace PCodeState

def fork (s : PCodeState) : PCodeState :=
  ⟨s.memory.fork, s.registers.fork, s.temporaries.fork⟩

def restore (s other : PCodeState) : Option PCodeState :=
  match s.memory.restore other.memory with
  | none => none
  | some m => some ⟨m, s.registers.restore other.registers,
      s.temporaries.restore other.temporaries⟩

end PCodeState

/-- A write against the composite state: registers and temporaries write
through their flat backings, memory through the paged dispatch. -/
inductive PWriteOp
  | mem (address : Nat) (bs : List Nat)
  | reg (address : Nat) (bs : List Nat)
  | tmp (address : Nat) (bs : List Nat)
deriving DecidableEq, Repr

def applyPWrite (s : PCodeState) : PWriteOp → PCodeState
  | .mem a bs => { s with memory := (s.memory.set_values a bs).2 }
  | .reg a bs => { s with registers := (s.registers.set_bytes a bs).2 }
  | .tmp a bs => { s with temporaries := (s.temporaries.set_bytes a bs).2 }

def applyPWrites (s : PCodeState) (ops : List PWriteOp) : PCodeState :=
  ops.foldl applyPWrite s

/-- Byte-for-byte content equality of flat states: backing bytes and
permission bitmap (dirty tracking is bookkeeping, not content). -/
def flatContentEq (a b : FlatState) : Prop :=
  a.backing = b.backing ∧ a.permissions = b.permissions

def chunkContentEq (a b : ChunkState) : Prop :=
  a.base_address = b.base_address ∧ a.chunks = b.chunks ∧ a.regions = b.regions ∧
  flatContentEq a.backing b.backing

def segContentEq : Segment → Segment → Prop
  | .staticSeg n o, .staticSeg rn ro => n = rn ∧ o = ro
  | .mapping n b, .mapping rn rb => n = rn ∧ chunkContentEq b rb
  | .staticSeg _ _, .mapping _ _ => False
  | .mapping _ _, .staticSeg _ _ => False

/-- Per-segment restore invariant of a forked-and-written child segment
against its parent: same shape (kind, name, base, length), and the child
chunk's flat is dirty-covered with respect to the parent's. -/
def segCov : Segment → Segment → Prop
  | .staticSeg n o, .staticSeg rn ro => n = rn ∧ o = ro
  | .mapping n b, .mapping rn rb =>
    n = rn ∧ b.base_address = rb.base_address ∧ b.len = rb.len ∧
    FlatCov rb.backing b.backing
  | .staticSeg _ _, .mapping _ _ => False
  | .mapping _ _, .staticSeg _ _ => False

def segEntryCov (c p : (Nat × Nat) × Segment) : Prop :=
  c.1 = p.1 ∧ segCov c.2 p.2

def segEntryRestored (s p : (Nat × Nat) × Segment) : Prop :=
  s.1 = p.1 ∧ segContentEq s.2 p.2

def PagedCov (parent child : PagedState) : Prop :=
  FlatCov parent.inner child.inner ∧
  List.Forall₂ segEntryCov child.segments parent.segments

def PCodeCov (parent child : PCodeState) : Prop :=
  PagedCov parent.memory child.memory ∧
  FlatCov parent.registers child.registers ∧
  FlatCov parent.temporaries child.temporaries


/-- Concrete composite state for the C1 witness: one static RAM segment over
a 4-byte inner flat, 4-byte register and temporary files. -/
def c1P : PCodeState :=
  ⟨⟨[((0x100, 0x103), .staticSeg "ram" 0)], FlatState.new 4⟩,
   FlatState.new 4, FlatState.new 4⟩


/-! ## The concrete interpreter (`fuguex-concrete/src/interpreter.rs`)

Operands, hooks and the operand access paths of `ConcreteContext`.  Hooks
are modelled as records of state-transforming callbacks; every hook
invocation is additionally recorded in an event trace so that claims about
invocation counts and ordering can be stated.  Rust panics
(`assert!`/`panic!`/slice-length mismatches) are embedded as `none`. -/

inductive Endian
  | little
  | big
deriving DecidableEq, Repr

inductive Operand
  | address (value : Nat) (size : Nat)
  | register (offset : Nat) (size : Nat)
  | var (space : Nat) (offset : Nat) (size : Nat)
  | constant (value : Nat) (size : Nat)
deriving DecidableEq, Repr

def Operand.size : Operand → Nat
  | .address _ s => s
  | .register _ s => s
  | .var _ _ s => s
  | .constant _ s => s

inductive ViolationSource
  | read
  | write
  | readVia
  | writeVia
deriving DecidableEq, Repr

inductive PCodeError
  | memory (e : PagedError)
  | register (e : FlatError)
  | temporary (e : FlatError)
deriving DecidableEq, Repr

/-- `paged::Error::access` — the address/size carried by a memory error (the
crate generation defining it is absent from the sources; the natural
projection of each variant is used, and only hook arguments depend on it). -/
def PagedError.access : PagedError → Nat × Nat
  | .unmappedAddress a s => (a, s)
  | .overlappedAccess a s => (a, s)
  | .chunked (.backing (.oobRead a s)) => (a, s)
  | .chunked (.backing (.oobWrite a s)) => (a, s)
  | .chunked (.backing (.accessViolation a s _)) => (a, s)
  | .chunked (.accessUnmanaged a s) => (a, s)
  | .chunked (.heapOverflow a s) => (a, s)
  | .chunked (.notEnoughFreeSpace s) => (0, s)
  | .chunked (.freeUnmanaged a) => (a, 0)
  | .chunked (.reallocateUnmanaged a) => (a, 0)
  | .backing a (.oobRead _ s) => (a, s)
  | .backing a (.oobWrite _ s) => (a, s)
  | .backing a (.accessViolation _ s _) => (a, s)

/-- Little-endian byte decomposition (`to_le_bytes` truncated to `k`). -/
def leBytes (v k : Nat) : List Nat :=
  (List.range k).map (fun i => (v >>> (8 * i)) % 256)

/-- The bytes handed to a `Constant` operand read: `to_le_bytes()[..size]`
or `to_be_bytes()[8-size..]`. -/
def constBytes (endian : Endian) (v k : Nat) : List Nat :=
  match endian with
  | .little => leBytes v k
  | .big => (leBytes v k).reverse

def natFromBytesLE : List Nat → Nat
  | [] => 0
  | b :: t => (b % 256) + 256 * natFromBytesLE t

/-- `u64::from_bytes::<O>` and friends. -/
def natFromBytes (endian : Endian) (bs : List Nat) : Nat :=
  match endian with
  | .little => natFromBytesLE bs
  | .big => natFromBytesLE bs.reverse

/-- `bool::from_bytes::<O>` of a one-byte buffer: nonzero is true. -/
def boolOfBytes (bs : List Nat) : Bool :=
  decide (bs.getD 0 0 % 256 ≠ 0)

/-- `fugue` `BitVec` (external crate): a width, a raw value and a signedness
flag; `toInt` interprets the value in two's complement when signed. -/
structure BV where
  val : Nat
  bits : Nat
  signed : Bool
deriving DecidableEq, Repr

def BV.from_bytes (endian : Endian) (bs : List Nat) (signed : Bool) : BV :=
  ⟨natFromBytes endian bs, 8 * bs.length, signed⟩

def BV.is_zero (b : BV) : Bool :=
  b.val % (2 ^ b.bits) == 0

def BV.toInt (b : BV) : Int :=
  let m := b.val % 2 ^ b.bits
  if b.signed ∧ 0 < b.bits ∧ 2 ^ (b.bits - 1) ≤ m then (m : Int) - 2 ^ b.bits else (m : Int)

def BV.ofInt (v : Int) (bits : Nat) (signed : Bool) : BV :=
  ⟨(v.emod (2 ^ bits)).toNat, bits, signed⟩

def BV.cast (b : BV) (bits : Nat) : BV :=
  BV.ofInt b.toInt bits b.signed

def BV.signedBV (b : BV) : BV :=
  { b with signed := true }

/-- Truncated (Rust-style) division and remainder. -/
def BV.div (u v : BV) : BV :=
  BV.ofInt (u.toInt.tdiv v.toInt) u.bits u.signed

def BV.rem (u v : BV) : BV :=
  BV.ofInt (u.toInt.tmod v.toInt) u.bits u.signed

def BV.into_bytes (b : BV) (endian : Endian) (k : Nat) : List Nat :=
  constBytes endian (b.val % 2 ^ b.bits) k

/-- `Constant { value } as isize` in `branch`. -/
def asIsize (v : Nat) : Int :=
  if v < 2 ^ 63 then (v : Int) else (v : Int) - 2 ^ 64

inductive HookAction
  | pass
  | halt (r : Nat)
deriving DecidableEq, Repr

inductive HookCBranchAction
  | pass
  | flip
  | halt (r : Nat)
deriving DecidableEq, Repr

inductive HookInvalidAction
  | pass
  | skip
  | halt (r : Nat)
  | value (v : List Nat)
deriving DecidableEq, Repr

def HookInvalidAction.is_value : HookInvalidAction → Bool
  | .value _ => true
  | _ => false

def HookInvalidAction.is_skip : HookInvalidAction → Bool
  | .skip => true
  | _ => false

def HookInvalidAction.into_value : HookInvalidAction → Option (List Nat)
  | .value v => some v
  | _ => none

structure HookOutcome (A : Type) where
  action : A
  state_changed : Bool

/-- A registered `HookConcrete`: callbacks over the composite state.  Hook
errors are drawn from `Nat`. -/
structure Hook where
  operand_read : PCodeState → Operand → Except Nat (PCodeState × HookOutcome HookAction)
  operand_write : PCodeState → Operand → List Nat →
    Except Nat (PCodeState × HookOutcome HookAction)
  invalid_access : PCodeState → Nat → Nat → ViolationSource →
    Except Nat (PCodeState × HookOutcome HookInvalidAction)
  cbranch : PCodeState → Operand → Operand →
    Except Nat (PCodeState × HookOutcome HookCBranchAction)

structure Ctx where
  state : PCodeState
  hooks : List Hook
  endian : Endian

inductive IError
  | state (e : PCodeError)
  | hook (e : Nat)
  | divisionByZero
  | unsupportedAddressSize (size : Nat)
  | unsupportedBranchDestination (space : Nat)
  | unsupportedOperandSize (size : Nat) (max : Nat)
deriving DecidableEq, Repr

inductive IOutcome
  | halt (r : Nat)
  | branch (b : Branch)
deriving DecidableEq, Repr

/-- The hook-invocation trace: which hook fired which callback, in order. -/
inductive Event
  | operandRead (h : Nat) (op : Operand)
  | operandWrite (h : Nat) (op : Operand)
  | invalidAccess (h : Nat) (address size : Nat)
  | cbranchHook (h : Nat)
deriving DecidableEq, Repr

/-- Hooks paired with their registration index. -/
def enumHooksFrom (i : Nat) : List Hook → List (Nat × Hook)
  | [] => []
  | h :: t => (i, h) :: enumHooksFrom (i + 1) t

/-- `PagedState::view_values` through `with_flat` (the read dispatch). -/
def PagedState.view_values (p : PagedState) (address n : Nat) :
    Except PagedError (List Nat) :=
  match p.findSegIdx address with
  | none => .error (.unmappedAddress address n)
  | some j =>
    let e := p.segments.getD j ((0, 0), .staticSeg "" 0)
    if address + n - 1 > e.1.2 then .error (.overlappedAccess address n)
    else
      match e.2 with
      | .mapping _ b =>
        match b.translate_checked address n with
        | .error ce => .error (.chunked ce)
        | .ok translated =>
          match (b.backing.view_bytes translated n).1 with
          | .error fe => .error (.backing translated fe)
          | .ok bs => .ok bs
      | .staticSeg _ offset =>
        match (p.inner.view_bytes ((address - e.1.1) + offset) n).1 with
        | .error fe => .error (.backing ((address - e.1.1) + offset) fe)
        | .ok bs => .ok bs

/-- `PagedState::view_values_mut` followed by writing `bs` through the view
(`values.copy_from_slice(..)` at the call sites). -/
def PagedState.view_mut_write (p : PagedState) (address : Nat) (bs : List Nat) :
    (Except PagedError Unit) × PagedState :=
  match p.findSegIdx address with
  | none => (.error (.unmappedAddress address bs.length), p)
  | some j =>
    let e := p.segments.getD j ((0, 0), .staticSeg "" 0)
    if address + bs.length - 1 > e.1.2 then
      (.error (.overlappedAccess address bs.length), p)
    else
      match e.2 with
      | .mapping name b =>
        match b.translate_checked address bs.length with
        | .error ce => (.error (.chunked ce), p)
        | .ok translated =>
          let r := b.backing.view_mut_write translated bs
          (r.1.mapError (fun fe => .backing translated fe),
           { p with segments :=
               (p.segments.set j (e.1, .mapping name { b with backing := r.2 })) })
      | .staticSeg _ offset =>
        let addr2 := (address - e.1.1) + offset
        let r := p.inner.view_mut_write addr2 bs
        (r.1.mapError (fun fe => .backing addr2 fe), { p with inner := r.2 })

/-- `PCodeState::with_operand_values`, returning the bytes seen by the
closure; `none` embeds the out-of-range constant-slice panic. -/
def PCodeState.with_operand_values (s : PCodeState) (endian : Endian) (op : Operand) :
    Option (Except PCodeError (List Nat)) :=
  match op with
  | .address v sz =>
    some (match s.memory.view_values v sz with
          | .error e => .error (.memory e)
          | .ok bs => .ok bs)
  | .constant v sz =>
    if sz > 8 then none else some (.ok (constBytes endian v sz))
  | .register off sz =>
    some (match (s.registers.view_bytes off sz).1 with
          | .error e => .error (.register e)
          | .ok bs => .ok bs)
  | .var _ off sz =>
    some (match (s.temporaries.view_bytes off sz).1 with
          | .error e => .error (.temporary e)
          | .ok bs => .ok bs)

/-- `PCodeState::with_operand_values_mut` writing `bs` through the view;
`none` embeds the `Operand::Constant` panic and slice-length mismatches. -/
def PCodeState.with_operand_values_mut (s : PCodeState) (op : Operand) (bs : List Nat) :
    Option ((Except PCodeError Unit) × PCodeState) :=
  match op with
  | .address v sz =>
    if bs.length ≠ sz then none
    else some (match s.memory.view_mut_write v bs with
               | (.error e, m) => (.error (.memory e), { s with memory := m })
               | (.ok _, m) => (.ok (), { s with memory := m }))
  | .register off sz =>
    if bs.length ≠ sz then none
    else some (match s.registers.view_mut_write off bs with
               | (.error e, f) => (.error (.register e), { s with registers := f })
               | (.ok _, f) => (.ok (), { s with registers := f }))
  | .var _ off sz =>
    if bs.length ≠ sz then none
    else some (match s.temporaries.view_mut_write off bs with
               | (.error e, f) => (.error (.temporary e), { s with temporaries := f })
               | (.ok _, f) => (.ok (), { s with temporaries := f }))
  | .constant _ _ => none

/-- The `hook_operand_read` loop at the top of `read_operand_with` and
`get_address_value`; `Halt` outcomes are discarded by the callers. -/
def runOpReadHooks : PCodeState → List (Nat × Hook) → Operand →
    (Except IError Unit) × PCodeState × List Event
  | s, [], _ => (.ok (), s, [])
  | s, (i, h) :: t, op =>
    match h.operand_read s op with
    | .error e => (.error (.hook e), s, [.operandRead i op])
    | .ok (s', _) =>
      let r := runOpReadHooks s' t op
      (r.1, r.2.1, .operandRead i op :: r.2.2)

/-- The `hook_operand_write` loop at the end of `write_operand`. -/
def runOpWriteHooks : PCodeState → List (Nat × Hook) → Operand → List Nat →
    (Except IError Unit) × PCodeState × List Event
  | s, [], _, _ => (.ok (), s, [])
  | s, (i, h) :: t, op, buf =>
    match h.operand_write s op buf with
    | .error e => (.error (.hook e), s, [.operandWrite i op])
    | .ok (s', _) =>
      let r := runOpWriteHooks s' t op buf
      (r.1, r.2.1, .operandWrite i op :: r.2.2)

/-- The invalid-access recovery loop of `read_operand_with`: the last hook
with `state_changed` or a `Value` action wins. -/
def runInvalidHooksFrom : PCodeState → List (Nat × Hook) → Nat → Nat → ViolationSource →
    Option (HookOutcome HookInvalidAction) →
    (Except IError (Option (HookOutcome HookInvalidAction))) × PCodeState × List Event
  | s, [], _, _, _, acc => (.ok acc, s, [])
  | s, (i, h) :: t, a, n, k, acc =>
    match h.invalid_access s a n k with
    | .error e => (.error (.hook e), s, [.invalidAccess i a n])
    | .ok (s', out) =>
      let acc' := if out.state_changed || out.action.is_value then some out else acc
      let r := runInvalidHooksFrom s' t a n k acc'
      (r.1, r.2.1, .invalidAccess i a n :: r.2.2)

/-- The invalid-access recovery loop of `write_operand`: `state_changed` and
`skipped` flags accumulate with `|=`; the source is always `Write`. -/
def runInvalidWriteHooks : PCodeState → List (Nat × Hook) → Nat → Nat → Bool → Bool →
    (Except IError (Bool × Bool)) × PCodeState × List Event
  | s, [], _, _, sc, sk => (.ok (sc, sk), s, [])
  | s, (i, h) :: t, a, n, sc, sk =>
    match h.invalid_access s a n .write with
    | .error e => (.error (.hook e), s, [.invalidAccess i a n])
    | .ok (s', out) =>
      let r := runInvalidWriteHooks s' t a n (sc || out.state_changed)
        (sk || out.action.is_skip)
      (r.1, r.2.1, .invalidAccess i a n :: r.2.2)

/-- `ConcreteContext::read_operand_with`, returning the bytes seen by `f`. -/
def read_operand_with (c : Ctx) (op : Operand) (kind : ViolationSource) :
    Option ((Except IError (List Nat)) × Ctx × List Event) :=
  let hr := runOpReadHooks c.state (enumHooksFrom 0 c.hooks) op
  match hr.1 with
  | .error e => some (.error e, { c with state := hr.2.1 }, hr.2.2)
  | .ok _ =>
    let s1 := hr.2.1
    match s1.with_operand_values c.endian op with
    | none => none
    | some (.ok bs) => some (.ok bs, { c with state := s1 }, hr.2.2)
    | some (.error pe) =>
      match pe with
      | .memory me =>
        let a := me.access
        let ir := runInvalidHooksFrom s1 (enumHooksFrom 0 c.hooks) a.1 a.2 kind none
        match ir.1 with
        | .error e => some (.error e, { c with state := ir.2.1 }, hr.2.2 ++ ir.2.2)
        | .ok state_change =>
          let s2 := ir.2.1
          let evs := hr.2.2 ++ ir.2.2
          match state_change with
          | none => some (.error (.state pe), { c with state := s2 }, evs)
          | some out =>
            match out.action.into_value with
            | some v =>
              some (.ok ((List.range op.size).map
                  (fun j => if j < v.length then v.getD j 0 else 0)),
                { c with state := s2 }, evs)
            | none =>
              match s2.with_operand_values c.endian op with
              | none => none
              | some (.ok bs) => some (.ok bs, { c with state := s2 }, evs)
              | some (.error pe2) =>
                some (.error (.state pe2), { c with state := s2 }, evs)
      | _ => some (.error (.state pe), { c with state := s1 }, hr.2.2)

/-- `ConcreteContext::write_operand`. -/
def write_operand (c : Ctx) (op : Operand) (buf : List Nat) :
    Option ((Except IError Unit) × Ctx × List Event) :=
  match c.state.with_operand_values_mut op buf with
  | none => none
  | some (res, s1) =>
    match res with
    | .ok _ =>
      let wr := runOpWriteHooks s1 (enumHooksFrom 0 c.hooks) op buf
      some (wr.1, { c with state := wr.2.1 }, wr.2.2)
    | .error pe =>
      match pe with
      | .memory me =>
        let a := me.access
        let ir := runInvalidWriteHooks s1 (enumHooksFrom 0 c.hooks) a.1 a.2 false false
        match ir.1 with
        | .error e => some (.error e, { c with state := ir.2.1 }, ir.2.2)
        | .ok (state_changed, skipped) =>
          let s2 := ir.2.1
          if state_changed then
            match s2.with_operand_values_mut op buf with
            | none => none
            | some (res2, s3) =>
              match res2 with
              | .ok _ =>
                let wr := runOpWriteHooks s3 (enumHooksFrom 0 c.hooks) op buf
                some (wr.1, { c with state := wr.2.1 }, ir.2.2 ++ wr.2.2)
              | .error pe2 =>
                if skipped then
                  let wr := runOpWriteHooks s3 (enumHooksFrom 0 c.hooks) op buf
                  some (wr.1, { c with state := wr.2.1 }, ir.2.2 ++ wr.2.2)
                else
                  some (.error (.state pe2), { c with state := s3 }, ir.2.2)
          else if skipped then
            let wr := runOpWriteHooks s2 (enumHooksFrom 0 c.hooks) op buf
            some (wr.1, { c with state := wr.2.1 }, ir.2.2 ++ wr.2.2)
          else
            some (.error (.state pe), { c with state := s2 }, ir.2.2)
      | _ => some (.error (.state pe), { c with state := s1 }, [])

/-- `ConcreteContext::get_address_value`: its own `hook_operand_read` loop,
then a size-dispatched `read_operand_with` (whose loop fires again). -/
def get_address_value (c : Ctx) (pointer : Operand) (source : ViolationSource) :
    Option ((Except IError Nat) × Ctx × List Event) :=
  let psize := pointer.size
  let hr := runOpReadHooks c.state (enumHooksFrom 0 c.hooks) pointer
  match hr.1 with
  | .error e => some (.error e, { c with state := hr.2.1 }, hr.2.2)
  | .ok _ =>
    let c1 := { c with state := hr.2.1 }
    if psize = 8 ∨ psize = 4 ∨ psize = 2 ∨ psize = 1 then
      match read_operand_with c1 pointer source with
      | none => none
      | some (res, c2, evs2) =>
        match res with
        | .error e => some (.error e, c2, hr.2.2 ++ evs2)
        | .ok bs => some (.ok (natFromBytes c.endian bs), c2, hr.2.2 ++ evs2)
    else
      some (.error (.unsupportedAddressSize psize), c1, hr.2.2)

/-- `ConcreteContext::branch` destination dispatch. -/
def branchDispatch (dest : Operand) : Except IError Branch :=
  match dest with
  | .constant v _ => .ok (.toLocal (asIsize v))
  | .address v _ => .ok (.toGlobal v)
  | .register _ _ => .error (.unsupportedBranchDestination 0)
  | .var sp _ _ => .error (.unsupportedBranchDestination sp)

/-- `PCodeState::set_operand` for a boolean (the cbranch write-back). -/
def set_operand_bool (c : Ctx) (op : Operand) (v : Bool) :
    Option ((Except IError Unit) × Ctx) :=
  match c.state.with_operand_values_mut op [if v then 1 else 0] with
  | none => none
  | some (res, s') =>
    some (match res with
          | .error pe => (.error (.state pe), { c with state := s' })
          | .ok _ => (.ok (), { c with state := s' }))

/-- The `hook_cbranch` loop: remember a requested flip, halt immediately. -/
def runCBranchHooks : PCodeState → List (Nat × Hook) → Operand → Operand → Bool →
    (Except IError (Option Nat × Bool)) × PCodeState × List Event
  | s, [], _, _, fl => (.ok (none, fl), s, [])
  | s, (i, h) :: t, d, cn, fl =>
    match h.cbranch s d cn with
    | .error e => (.error (.hook e), s, [.cbranchHook i])
    | .ok (s', out) =>
      match out.action with
      | .halt r => (.ok (some r, fl), s', [.cbranchHook i])
      | .pass =>
        let r := runCBranchHooks s' t d cn fl
        (r.1, r.2.1, .cbranchHook i :: r.2.2)
      | .flip =>
        let r := runCBranchHooks s' t d cn true
        (r.1, r.2.1, .cbranchHook i :: r.2.2)

/-- `ConcreteContext::cbranch`; `none` embeds the `condition.size() == 1`
assertion. -/
def cbranch (c : Ctx) (dest cond : Operand) :
    Option ((Except IError IOutcome) × Ctx × List Event) :=
  if cond.size ≠ 1 then none
  else
    let hr := runCBranchHooks c.state (enumHooksFrom 0 c.hooks) dest cond false
    match hr.1 with
    | .error e => some (.error e, { c with state := hr.2.1 }, hr.2.2)
    | .ok (some r, _) => some (.ok (.halt r), { c with state := hr.2.1 }, hr.2.2)
    | .ok (none, flip) =>
      let c1 := { c with state := hr.2.1 }
      match read_operand_with c1 cond .read with
      | none => none
      | some (res, c2, evs2) =>
        match res with
        | .error e => some (.error e, c2, hr.2.2 ++ evs2)
        | .ok buf =>
          let v := boolOfBytes buf
          if flip then
            match set_operand_bool c2 cond (!v) with
            | none => none
            | some (.error e, c3) => some (.error e, c3, hr.2.2 ++ evs2)
            | some (.ok _, c3) =>
              if !v then
                match branchDispatch dest with
                | .error e => some (.error e, c3, hr.2.2 ++ evs2)
                | .ok b => some (.ok (.branch b), c3, hr.2.2 ++ evs2)
              else
                some (.ok (.branch .next), c3, hr.2.2 ++ evs2)
          else
            if v then
              match branchDispatch dest with
              | .error e => some (.error e, c2, hr.2.2 ++ evs2)
              | .ok b => some (.ok (.branch b), c2, hr.2.2 ++ evs2)
            else
              some (.ok (.branch .next), c2, hr.2.2 ++ evs2)

/-- `ToSignedBytes::expand_as` for a `BitVec` result. -/
def expand_as (c : Ctx) (bv : BV) (dest : Operand) (signed : Bool) (opsz : Nat) :
    Option ((Except IError Unit) × Ctx × List Event) :=
  let size := dest.size
  let dbits := size <<< 3
  let target0 := if signed then bv.signedBV else bv
  let target := if target0.bits ≠ dbits then target0.cast dbits else target0
  if size > opsz then some (.error (.unsupportedOperandSize size opsz), c, [])
  else
    write_operand c dest (target.into_bytes c.endian size)

/-- `ConcreteContext::lift_int2` with an arithmetic closure `op`. -/
def lift_int2 (c : Ctx) (opsz : Nat) (op : BV → BV → Except IError BV)
    (dest lhs rhs : Operand) (signed : Bool) :
    Option ((Except IError IOutcome) × Ctx × List Event) :=
  if lhs.size > opsz then some (.error (.unsupportedOperandSize lhs.size opsz), c, [])
  else if rhs.size > opsz then some (.error (.unsupportedOperandSize rhs.size opsz), c, [])
  else
    match read_operand_with c lhs .read with
    | none => none
    | some (.error e, c1, evl) => some (.error e, c1, evl)
    | some (.ok lbuf, c1, evl) =>
      match read_operand_with c1 rhs .read with
      | none => none
      | some (.error e, c2, evr) => some (.error e, c2, evl ++ evr)
      | some (.ok rbuf, c2, evr) =>
        let lhs_val := BV.from_bytes c.endian lbuf signed
        let rhs_val0 := BV.from_bytes c.endian rbuf signed
        let rhs_val := if lhs.size ≠ rhs.size then rhs_val0.cast lhs_val.bits else rhs_val0
        match op lhs_val rhs_val with
        | .error e => some (.error e, c2, evl ++ evr)
        | .ok res =>
          match expand_as c2 res dest signed opsz with
          | none => none
          | some (.error e, c3, evw) => some (.error e, c3, evl ++ evr ++ evw)
          | some (.ok _, c3, evw) => some (.ok (.branch .next), c3, evl ++ evr ++ evw)

/-- The division/remainder closures of `int_div`/`int_sdiv`/`int_rem`/
`int_srem`. -/
def divOp : BV → BV → Except IError BV := fun u v =>
  if v.is_zero then .error .divisionByZero else .ok (BV.div u v)

def remOp : BV → BV → Except IError BV := fun u v =>
  if v.is_zero then .error .divisionByZero else .ok (BV.rem u v)

def int_div (c : Ctx) (opsz : Nat) (dest lhs rhs : Operand) :
    Option ((Except IError IOutcome) × Ctx × List Event) :=
  lift_int2 c opsz divOp dest lhs rhs false

def int_sdiv (c : Ctx) (opsz : Nat) (dest lhs rhs : Operand) :
    Option ((Except IError IOutcome) × Ctx × List Event) :=
  lift_int2 c opsz divOp dest lhs rhs true

def int_rem (c : Ctx) (opsz : Nat) (dest lhs rhs : Operand) :
    Option ((Except IError IOutcome) × Ctx × List Event) :=
  lift_int2 c opsz remOp dest lhs rhs false

def int_srem (c : Ctx) (opsz : Nat) (dest lhs rhs : Operand) :
    Option ((Except IError IOutcome) × Ctx × List Event) :=
  lift_int2 c opsz remOp dest lhs rhs true


/-- Concrete context for the C9 witness: a 16-byte register file, no hooks.
Registers are zero-initialised, so every divisor read is zero. -/
def c9State : PCodeState :=
  ⟨⟨[], FlatState.new 0⟩, FlatState.new 16, FlatState.new 0⟩

def c9Ctx : Ctx := ⟨c9State, [], .little⟩


/-- A hook whose callbacks all pass without touching the state (for the C7
witness and counterexample). -/
def passHook : Hook :=
  ⟨fun s _ => .ok (s, ⟨.pass, false⟩),
   fun s _ _ => .ok (s, ⟨.pass, false⟩),
   fun s _ _ _ => .ok (s, ⟨.pass, false⟩),
   fun s _ _ => .ok (s, ⟨.pass, false⟩)⟩

/-- Context with one registered pass-through hook over the zeroed register
file. -/
def c7Ctx : Ctx := ⟨c9State, [passHook], .little⟩

/-- `c7Ctx` after writing `[1, 2]` through register offset 0. -/
def c7Written : Ctx :=
  ⟨{ c9State with registers := (c9State.registers.view_mut_write 0 [1, 2]).2 },
   [passHook], .little⟩


/-- A hook whose cbranch callback requests `Flip` and whose other callbacks
pass (for the C6 witness). -/
def flipHook : Hook :=
  ⟨fun s _ => .ok (s, ⟨.pass, false⟩),
   fun s _ _ => .ok (s, ⟨.pass, false⟩),
   fun s _ _ _ => .ok (s, ⟨.pass, false⟩),
   fun s _ _ => .ok (s, ⟨.flip, false⟩)⟩

/-- Context with one flip hook over the zeroed register file. -/
def c6Ctx : Ctx := ⟨c9State, [flipHook], .little⟩

/-- `c6Ctx` after the flipped condition byte `1` is written back. -/
def c6Written : Ctx :=
  ⟨{ c9State with registers := (c9State.registers.view_mut_write 0 [1]).2 },
   [flipHook], .little⟩

/-- Concrete bytes stored at B in the S3 counterexample and witness. -/
def bytes16 : List Nat := [1, 2, 3, 4, 5, 6, 7, 8, 9, 10, 11, 12, 13, 14, 15, 16]

/-! # Theorems

Helper lemmas come first; each claim then gets exactly one theorem (plus a
witness or counterexample where required). -/

@[simp] theorem sliceD_length (s : List Nat) (start n : Nat) :
    (sliceD s start n).length = n := by
  simp [sliceD]

@[simp] theorem writeRange_length (s : List Nat) (start : Nat) (bs : List Nat) :
    (writeRange s start bs).length = s.length := by
  simp [writeRange]

@[simp] theorem overwriteFrom_length (s o : List Nat) (lo hi : Nat) :
    (overwriteFrom s o lo hi).length = s.length := by
  simp [overwriteFrom]

theorem sliceD_getD (s : List Nat) (start n k : Nat) (hk : k < n) :
    (sliceD s start n).getD k 0 = s.getD (start + k) 0 := by
  simp [sliceD, List.getD_eq_getElem?_getD, List.getElem?_map, List.getElem?_range, hk]

theorem writeRange_getD (s : List Nat) (start : Nat) (bs : List Nat) (i : Nat)
    (hi : i < s.length) :
    (writeRange s start bs).getD i 0 =
      if start ≤ i ∧ i < start + bs.length then bs.getD (i - start) 0 else s.getD i 0 := by
  simp [writeRange, List.getD_eq_getElem?_getD, List.getElem?_map, List.getElem?_range, hi]

theorem overwriteFrom_getD (s o : List Nat) (lo hi i : Nat) (h : i < s.length) :
    (overwriteFrom s o lo hi).getD i 0 =
      if lo ≤ i ∧ i < hi then o.getD i 0 else s.getD i 0 := by
  simp [overwriteFrom, List.getD_eq_getElem?_getD, List.getElem?_map, List.getElem?_range, h]

theorem getD_eq_of_ge_length (s : List Nat) (i : Nat) (h : s.length ≤ i) :
    s.getD i 0 = 0 := by
  simp [List.getD_eq_getElem?_getD, List.getElem?_eq_none (by omega : s.length ≤ i)]

/-- Two byte buffers of the same length with equal `getD` reads are equal. -/
theorem list_ext_getD (s t : List Nat) (hlen : s.length = t.length)
    (h : ∀ i, i < s.length → s.getD i 0 = t.getD i 0) : s = t := by
  apply List.ext_getElem hlen
  intro i h1 h2
  have := h i h1
  simpa [List.getD_eq_getElem?_getD, List.getElem?_eq_getElem, h1, h2] using this

/-- Reading back a freshly written slice returns exactly the written bytes. -/
theorem sliceD_writeRange_self (s : List Nat) (start : Nat) (bs : List Nat)
    (h : start + bs.length ≤ s.length) :
    sliceD (writeRange s start bs) start bs.length = bs := by
  apply list_ext_getD
  · simp
  · intro i hi
    simp only [sliceD_length] at hi
    rw [sliceD_getD _ _ _ _ hi]
    rw [writeRange_getD _ _ _ _ (by omega)]
    rw [if_pos (show start ≤ start + i ∧ start + i < start + bs.length by omega)]
    have he : start + i - start = i := by omega
    rw [he]

/-! ## ChunkState shape lemmas (generic, then the S2/S3 scenarios) -/

theorem read_only_len (n : Nat) : (FlatState.read_only n).len = n := by
  unfold FlatState.read_only FlatState.len
  simp

theorem chunk_allocate_shape (s : ChunkState) (n off : Nat) (chunks' : List ChunkStatus)
    (hA : ChunkList.allocate s.chunks (n + 1) = some (off, chunks'))
    (hb : off + n ≤ s.backing.len)
    (hp : (((s.backing.permissions.set_region off n .readWrite).clear_byte (off + n)
        .write)).all_readable_and_writable off n = true) :
    s.allocate n = (.ok (s.base_address + off),
      { base_address := s.base_address,
        chunks := chunks',
        regions := s.regions ++ [(s.base_address + off, s.base_address + off + n - 1)],
        backing := { backing := s.backing.backing,
                     dirty := s.backing.dirty.dirty_region off n,
                     permissions := (s.backing.permissions.set_region off n
                       .readWrite).clear_byte (off + n) .write } }) := by
  unfold ChunkState.allocate
  rw [hA]
  unfold FlatState.view_bytes_mut
  dsimp only
  rw [if_neg (by
    unfold FlatState.len at hb ⊢
    dsimp only
    omega)]
  rw [if_neg (by simpa using hp)]

theorem chunk_deallocate_shape (s : ChunkState) (addr : Nat) (r : Nat × Nat)
    (old : Nat) (chunks' : List ChunkStatus)
    (hf : s.findRegion addr = some r)
    (he : r.1 = addr)
    (hd : ChunkList.deallocate s.chunks (addr - s.base_address) = some (old, chunks')) :
    s.deallocate addr = (.ok (),
      { s with chunks := chunks',
               backing := { s.backing with permissions :=
                 (s.backing.permissions.clear_region (addr - s.base_address)
                   (1 + (r.2 - r.1)) .write) },
               regions := s.regions.erase r }) := by
  unfold ChunkState.deallocate
  rw [hf]
  dsimp only
  rw [if_neg (by simp [he])]
  rw [hd]

theorem chunk_set_values_err (s : ChunkState) (addr : Nat) (bs : List Nat) (e : ChunkError)
    (ht : s.translate_checked addr bs.length = .error e) :
    s.set_values addr bs = (.error e, s) := by
  unfold ChunkState.set_values
  rw [ht]

theorem chunk_set_values_ok (s : ChunkState) (addr off : Nat) (bs : List Nat)
    (ht : s.translate_checked addr bs.length = .ok off)
    (hb : off + bs.length ≤ s.backing.len)
    (hw : s.backing.permissions.all_writable off bs.length = true) :
    s.set_values addr bs = (.ok (),
      { s with backing := { backing := writeRange s.backing.backing off bs,
                            dirty := s.backing.dirty.dirty_region off bs.length,
                            permissions := s.backing.permissions } }) := by
  unfold ChunkState.set_values
  rw [ht]
  unfold FlatState.set_bytes
  dsimp only
  rw [if_neg (by unfold FlatState.len at hb ⊢; try dsimp only
                 omega)]
  rw [if_neg (by simpa using hw)]

theorem chunk_view_values_ok (s : ChunkState) (addr off n : Nat)
    (ht : s.translate_checked addr n = .ok off)
    (hb : off + n ≤ s.backing.len)
    (hr : s.backing.permissions.all_readable off n = true) :
    s.view_values addr n = .ok (sliceD s.backing.backing off n) := by
  unfold ChunkState.view_values
  rw [ht]
  unfold FlatState.view_bytes
  dsimp only
  rw [if_neg (by unfold FlatState.len at hb ⊢; try dsimp only
                 omega)]
  rw [if_neg (by simpa using hr)]

/-- Rust note: every derived value in the conclusion is pinned by an
equation hypothesis so that instances stay free of `Nat` arithmetic applied
to structure projections (which the kernel cannot reduce efficiently). -/
theorem chunk_reallocate_inplace_shape (s : ChunkState) (addr n off sz old : Nat)
    (r : Nat × Nat) (chunks' : List ChunkStatus) (regs' : List (Nat × Nat))
    (p' : Permissions)
    (hf : s.findRegion addr = some r)
    (he : r.1 = addr)
    (hoff : addr - s.base_address = off)
    (hsz : r.2 - r.1 + 1 = sz)
    (hr : s.backing.permissions.all_readable off sz = true)
    (hc : ChunkList.reallocate s.chunks off (n + 1) = some (off, old, chunks'))
    (haddr : s.base_address + off = addr)
    (hregs : (s.regions.erase r) ++ [(addr, addr + n - 1)] = regs')
    (hp : ((s.backing.permissions.set_region off n .readWrite).clear_byte (off + n)
        .write) = p') :
    s.reallocate addr n = (.ok addr,
      { s with chunks := chunks',
               backing := { s.backing with permissions := p' },
               regions := regs' }) := by
  unfold ChunkState.reallocate
  rw [hf]
  dsimp only
  rw [if_neg (by simp [he])]
  rw [hoff, hsz]
  rw [if_neg (by simpa using hr)]
  rw [hc]
  dsimp only
  rw [if_neg (by simp)]
  rw [haddr, hregs, hp]

theorem translate_congr (s : ChunkState) (regions : List (Nat × Nat)) (base a n : Nat)
    (h1 : s.regions = regions) (h2 : s.base_address = base) :
    s.translate_checked a n =
      (let found := regions.filter (fun r => intersects r (a, a + n - 1))
       if found.isEmpty then Except.error (.accessUnmanaged a n)
       else if found.length > 1 then Except.error (.heapOverflow a n)
       else Except.ok (a - base)) := by
  unfold ChunkState.translate_checked
  rw [h1, h2]


/-- Case analysis of `translate_checked` by the number of live regions
intersecting the queried range. -/
theorem translate_cases (s : ChunkState) (a n : Nat) :
    ((s.regions.countP (fun r => intersects r (a, a + n - 1))) = 0 →
      s.translate_checked a n = .error (.accessUnmanaged a n)) ∧
    ((s.regions.countP (fun r => intersects r (a, a + n - 1))) = 1 →
      s.translate_checked a n = .ok (a - s.base_address)) ∧
    (2 ≤ (s.regions.countP (fun r => intersects r (a, a + n - 1))) →
      s.translate_checked a n = .error (.heapOverflow a n)) := by
  have hcp : (s.regions.countP (fun r => intersects r (a, a + n - 1)))
      = (s.regions.filter (fun r => intersects r (a, a + n - 1))).length :=
    List.countP_eq_length_filter _ _
  unfold ChunkState.translate_checked
  refine ⟨?_, ?_, ?_⟩ <;> intro hk <;> rw [hcp] at hk
  · have hnil : (s.regions.filter (fun r => intersects r (a, a + n - 1))) = [] :=
      List.length_eq_zero.mp hk
    rw [if_pos (by rw [hnil]; rfl)]
  · have hne : ((s.regions.filter (fun r => intersects r (a, a + n - 1))).isEmpty)
        = false := by
      cases hF : s.regions.filter (fun r => intersects r (a, a + n - 1)) with
      | nil => rw [hF] at hk; simp at hk
      | cons x t => rfl
    rw [if_neg (by simp [hne])]
    rw [if_neg (by omega)]
  · have hne : ((s.regions.filter (fun r => intersects r (a, a + n - 1))).isEmpty)
        = false := by
      cases hF : s.regions.filter (fun r => intersects r (a, a + n - 1)) with
      | nil => rw [hF] at hk; simp at hk
      | cons x t => rfl
    rw [if_neg (by simp [hne])]
    rw [if_pos (by omega)]

theorem chunk_new_backing (b n : Nat) : (ChunkState.new b n).backing = FlatState.read_only n := rfl

theorem heapA_eq : heapA = heapAExplicit := by
  have h := chunk_allocate_shape (ChunkState.new heapBase 0x1000) 16 0
    [.taken 0 17, .free 17 4079]
    (by decide)
    (by rw [chunk_new_backing, read_only_len]; omega)
    (by decide)
  unfold heapA
  rw [h]
  rfl

theorem c5s2_eq : c5s2 = c5s2Explicit := by
  have h := chunk_allocate_shape heapAExplicit 16 17
    [.taken 0 17, .taken 17 17, .free 34 4062]
    (by decide)
    (by show 17 + 16 ≤ (List.replicate 0x1000 0).length
        rw [List.length_replicate]
        omega)
    (by decide)
  unfold c5s2
  rw [heapA_eq, h]
  rfl

theorem c5s3_eq : c5s3 = c5s3Explicit := by
  have h := chunk_deallocate_shape c5s2Explicit heapBase (heapBase, heapBase + 15) 17
    [.free 0 17, .taken 17 17, .free 34 4062]
    (by decide) (by decide) (by decide)
  unfold c5s3
  rw [c5s2_eq, h]
  rfl

theorem c5_write_eq (bs : List Nat) (h : bs.length = 16) :
    c5s3.set_values c5B bs = (.ok (),
      ChunkState.mk heapBase [.free 0 17, .taken 17 17, .free 34 4062] [(c5B, c5B + 15)]
        (FlatState.mk (writeRange (List.replicate 0x1000 0) 17 bs)
          (dirtyAfterB.dirty_region 17 bs.length) permsAfterFreeA)) := by
  have ht : c5s3Explicit.translate_checked c5B bs.length = .ok 17 := by rw [h]; decide
  have hb : 17 + bs.length ≤ c5s3Explicit.backing.len := by
    rw [h]
    show 33 ≤ (List.replicate 0x1000 0).length
    rw [List.length_replicate]
    omega
  have hw : c5s3Explicit.backing.permissions.all_writable 17 bs.length = true := by
    rw [h]; decide
  rw [c5s3_eq, chunk_set_values_ok c5s3Explicit c5B 17 bs ht hb hw]
  rfl

theorem c5_realloc_shape (w : List Nat) (d : DirtyBacking) :
    (ChunkState.mk heapBase [.free 0 17, .taken 17 17, .free 34 4062] [(c5B, c5B + 15)]
      (FlatState.mk w d permsAfterFreeA)).reallocate c5B 64
    = (.ok c5B,
       ChunkState.mk heapBase [.free 0 17, .taken 17 65, .free 82 4014] [(c5B, c5B + 63)]
         (FlatState.mk w d
           ((permsAfterFreeA.set_region 17 64 .readWrite).clear_byte 81 .write))) := by
  exact chunk_reallocate_inplace_shape _ c5B 64 17 16 17 (c5B, c5B + 15)
    [.free 0 17, .taken 17 65, .free 82 4014]
    [(c5B, c5B + 63)]
    ((permsAfterFreeA.set_region 17 64 .readWrite).clear_byte 81 .write)
    (by show ([(c5B, c5B + 15)] : List (Nat × Nat)).find?
          (fun r => r.1 ≤ c5B ∧ c5B ≤ r.2) = some (c5B, c5B + 15)
        decide)
    rfl
    (by show c5B - heapBase = 17
        decide)
    (by show c5B + 15 - c5B + 1 = 16
        omega)
    (by show permsAfterFreeA.all_readable 17 16 = true
        decide)
    (by show ChunkList.reallocate [.free 0 17, .taken 17 17, .free 34 4062] 17 65
          = some (17, 17, [.free 0 17, .taken 17 65, .free 82 4014])
        decide)
    (by show heapBase + 17 = c5B
        decide)
    (by show (([(c5B, c5B + 15)] : List (Nat × Nat)).erase (c5B, c5B + 15))
          ++ [(c5B, c5B + 64 - 1)] = [(c5B, c5B + 63)]
        decide)
    rfl

theorem c5_view_shape (w : List Nat) (d : DirtyBacking) (hlen : 17 + 16 ≤ w.length) :
    (ChunkState.mk heapBase [.free 0 17, .taken 17 65, .free 82 4014] [(c5B, c5B + 63)]
      (FlatState.mk w d
        ((permsAfterFreeA.set_region 17 64 .readWrite).clear_byte 81 .write))).view_values
      c5B 16
    = .ok (sliceD w 17 16) := by
  have hcount : ((ChunkState.mk heapBase [.free 0 17, .taken 17 65, .free 82 4014]
      [(c5B, c5B + 63)] (FlatState.mk w d ((permsAfterFreeA.set_region 17 64
        .readWrite).clear_byte 81 .write))).regions.countP
      (fun r => intersects r (c5B, c5B + 16 - 1))) = 1 := by
    show (([(c5B, c5B + 63)] : List (Nat × Nat)).countP
      (fun r => intersects r (c5B, c5B + 16 - 1))) = 1
    decide
  have ht := (translate_cases _ c5B 16).2.1 hcount
  have hoff : c5B - (ChunkState.mk heapBase [.free 0 17, .taken 17 65, .free 82 4014]
      [(c5B, c5B + 63)] (FlatState.mk w d ((permsAfterFreeA.set_region 17 64
        .readWrite).clear_byte 81 .write))).base_address = 17 := by
    show c5B - heapBase = 17
    decide
  rw [hoff] at ht
  refine chunk_view_values_ok _ c5B 17 16 ht ?_ ?_
  · show 17 + 16 ≤ w.length
    exact hlen
  · show ((permsAfterFreeA.set_region 17 64 .readWrite).clear_byte 81 .write).all_readable
      17 16 = true
    decide

/-! ## Claim C8 — StepState.branch on Local offsets -/

/-- **C8.** For every `StepState` and local offset `δ`: if `position + δ` is
negative the call aborts (panics, embedded as `none`); if `position + δ` is
at least `ops.len()` it yields `Global(fallthrough())` with
`fallthrough() = address + length`; and only when `0 ≤ position + δ <
ops.len()` does it yield `Local`, with the cursor set to `position + δ`.
In particular a `Local` outcome is never produced out of range. -/
theorem claim_C8_branch_local (Op : Type) (s : StepState Op) (δ : Int) :
    ((s.position : Int) + δ < 0 → s.branch (.toLocal δ) = none) ∧
    (0 ≤ (s.position : Int) + δ → (s.operations.length : Int) ≤ (s.position : Int) + δ →
      s.branch (.toLocal δ) =
        some ({ s with position := ((s.position : Int) + δ).toNat },
              .isGlobal (s.address + s.length))) ∧
    (0 ≤ (s.position : Int) + δ → (s.position : Int) + δ < (s.operations.length : Int) →
      s.branch (.toLocal δ) =
        some ({ s with position := ((s.position : Int) + δ).toNat }, .isLocal)) := by
  refine ⟨?_, ?_, ?_⟩
  · intro h
    have hδ : δ < 0 := by omega
    have habs : ¬ δ.natAbs ≤ s.position := by omega
    simp [StepState.branch, hδ, habs]
  · intro h0 hge
    by_cases hδ : δ < 0
    · have habs : δ.natAbs ≤ s.position := by omega
      have hpos : s.position - δ.natAbs = ((s.position : Int) + δ).toNat := by omega
      have hnl : ¬ s.position - δ.natAbs < s.operations.length := by omega
      simp [StepState.branch, hδ, habs, hnl, StepState.fallthrough, hpos] <;> omega
    · have hpos : s.position + δ.toNat = ((s.position : Int) + δ).toNat := by omega
      have hnl : ¬ s.position + δ.toNat < s.operations.length := by omega
      simp [StepState.branch, hδ, hnl, StepState.fallthrough, hpos] <;> omega
  · intro h0 hlt
    by_cases hδ : δ < 0
    · have habs : δ.natAbs ≤ s.position := by omega
      have hpos : s.position - δ.natAbs = ((s.position : Int) + δ).toNat := by omega
      have hl : s.position - δ.natAbs < s.operations.length := by omega
      simp [StepState.branch, hδ, habs, hl, hpos] <;> omega
    · have hpos : s.position + δ.toNat = ((s.position : Int) + δ).toNat := by omega
      have hl : s.position + δ.toNat < s.operations.length := by omega
      simp [StepState.branch, hδ, hl, hpos] <;> omega

/-- Witness for C8 at a concrete block: 2 micro-ops, cursor 1, block at
0x1000 of length 4: offset −3 aborts, offset 5 exits to the fallthrough
0x1004, offset −1 stays local at position 0. -/
theorem claim_C8_branch_local_witness :
    (StepState.mk 0x1000 4 [10, 20] 1).branch (.toLocal (-3)) = none ∧
    (StepState.mk 0x1000 4 [10, 20] 1).branch (.toLocal 5) =
      some (StepState.mk 0x1000 4 [10, 20] 6, .isGlobal 0x1004) ∧
    (StepState.mk 0x1000 4 [10, 20] 1).branch (.toLocal (-1)) =
      some (StepState.mk 0x1000 4 [10, 20] 0, .isLocal) := by
  refine ⟨?_, ?_, ?_⟩
  · exact (claim_C8_branch_local Nat (StepState.mk 0x1000 4 [10, 20] 1) (-3)).1 (by decide)
  · have h := (claim_C8_branch_local Nat (StepState.mk 0x1000 4 [10, 20] 1) 5).2.1
      (by decide) (by decide)
    simpa using h
  · have h := (claim_C8_branch_local Nat (StepState.mk 0x1000 4 [10, 20] 1) (-1)).2.2
      (by decide) (by decide)
    simpa using h

/-! ## Claim C10 — failing FlatState operations leave the state unchanged -/

theorem flat_get_bytes_error (f : FlatState) (a n : Nat) (e : FlatError)
    (h : (f.get_bytes a n).1 = .error e) : (f.get_bytes a n).2 = f := by
  unfold FlatState.get_bytes at h ⊢
  repeat' split at h
  all_goals simp_all
  all_goals (repeat' split)
  all_goals rfl

theorem flat_view_bytes_error (f : FlatState) (a n : Nat) (e : FlatError)
    (h : (f.view_bytes a n).1 = .error e) : (f.view_bytes a n).2 = f := by
  unfold FlatState.view_bytes at h ⊢
  repeat' split at h
  all_goals simp_all
  all_goals (repeat' split)
  all_goals rfl

theorem flat_view_bytes_mut_error (f : FlatState) (a n : Nat) (e : FlatError)
    (h : (f.view_bytes_mut a n).1 = .error e) : (f.view_bytes_mut a n).2 = f := by
  unfold FlatState.view_bytes_mut at h ⊢
  repeat' split at h
  all_goals simp_all
  all_goals (repeat' split)
  all_goals rfl

theorem flat_set_bytes_error (f : FlatState) (a : Nat) (bs : List Nat) (e : FlatError)
    (h : (f.set_bytes a bs).1 = .error e) : (f.set_bytes a bs).2 = f := by
  unfold FlatState.set_bytes at h ⊢
  repeat' split at h
  all_goals simp_all
  all_goals (repeat' split)
  all_goals rfl

theorem flat_copy_bytes_error (f : FlatState) (src dst n : Nat) (e : FlatError)
    (h : (f.copy_bytes src dst n).1 = .error e) : (f.copy_bytes src dst n).2 = f := by
  unfold FlatState.copy_bytes at h ⊢
  repeat' split at h
  all_goals simp_all
  all_goals (repeat' split)
  all_goals rfl

/-- **C10.** Every FlatState operation that returns an error leaves the
receiver exactly as it was: backing bytes, permission bitmap and dirty set
included (all bounds and permission checks complete before any mutation). -/
theorem claim_C10_flat_error_no_mutation (f : FlatState) (a src dst n : Nat)
    (bs : List Nat) :
    (∀ e, (f.get_bytes a n).1 = .error e → (f.get_bytes a n).2 = f) ∧
    (∀ e, (f.view_bytes a n).1 = .error e → (f.view_bytes a n).2 = f) ∧
    (∀ e, (f.view_bytes_mut a n).1 = .error e → (f.view_bytes_mut a n).2 = f) ∧
    (∀ e, (f.set_bytes a bs).1 = .error e → (f.set_bytes a bs).2 = f) ∧
    (∀ e, (f.copy_bytes src dst n).1 = .error e → (f.copy_bytes src dst n).2 = f) :=
  ⟨fun e h => flat_get_bytes_error f a n e h,
   fun e h => flat_view_bytes_error f a n e h,
   fun e h => flat_view_bytes_mut_error f a n e h,
   fun e h => flat_set_bytes_error f a bs e h,
   fun e h => flat_copy_bytes_error f src dst n e h⟩

/-- Witness for C10: a 4-byte memory rejects an out-of-bounds 1-byte write at
offset 0x1000 (scenario S1's failing case) and is left intact. -/
theorem claim_C10_flat_error_no_mutation_witness :
    ((FlatState.new 4).set_bytes 0x1000 [0]).1 = .error (.oobWrite 0x1000 1) ∧
    ((FlatState.new 4).set_bytes 0x1000 [0]).2 = FlatState.new 4 :=
  ⟨by decide,
   (claim_C10_flat_error_no_mutation (FlatState.new 4) 0x1000 0 0 1 [0]).2.2.2.1
     (.oobWrite 0x1000 1) (by decide)⟩

/-! ## Claim C2 — the ChunkList partition invariant (code bug)

`ChunkList::reallocate`'s grow-into-left-free-neighbour path executes
`self.0.remove(i + 1)` even when the chunk at `i + 1` is a live `Taken`
chunk.  Starting from `new(100)`: allocate 10 three times (chunks at 0, 10,
20), free the first, then `reallocate(10, 15)`.  The left merge produces
`[Taken(0,15), Free(15,5), Free(30,70)]` — the taken chunk at offset 20 is
destroyed, the bytes `[20,30)` vanish from the union, and two free chunks
become adjacent. -/

/-- **C2.** The claimed invariant (chunks tile `[0,N)` with strictly
increasing offsets and no two adjacent frees) holds right up to the
`reallocate(10, 15)` call and is then broken by it: the resulting list drops
the live chunk `[20,30)` entirely.  This refutes invariant preservation and
exhibits the code bug at a concrete input. -/
theorem claim_C2_chunklist_invariant_broken :
    applyChunkOps (ChunkList.new 100) [.alloc 10, .alloc 10, .alloc 10, .dealloc 0]
      = some [.free 0 10, .taken 10 10, .taken 20 10, .free 30 70] ∧
    chunksInvariant 100 [.free 0 10, .taken 10 10, .taken 20 10, .free 30 70] = true ∧
    ChunkList.reallocate [.free 0 10, .taken 10 10, .taken 20 10, .free 30 70] 10 15
      = some (0, 10, [.taken 0 15, .free 15 5, .free 30 70]) ∧
    chunksInvariant 100 [.taken 0 15, .free 15 5, .free 30 70] = false := by
  refine ⟨by decide, by decide, by decide, by decide⟩


/-! ## Claim C3 — translate_checked: containment vs intersection (corrected) -/

/-- Counterexample to C3 as stated: in the S2 state (one live allocation
`[heapBase, heapBase+15]`), `translate_checked(heapBase+10, 20)` succeeds with
offset 10 even though `[heapBase+10, heapBase+29]` is **not** contained in any
single live region — `find_all` tests intersection, not containment. -/
theorem claim_C3_translate_counterexample :
    heapAExplicit.translate_checked (heapBase + 10) 20 = .ok 10 ∧
    containedInExactlyOneRegion heapAExplicit (heapBase + 10) 20 = false ∧
    heapA = heapAExplicit :=
  ⟨by decide, by decide, heapA_eq⟩

/-- **C3 (amended).** `translate_checked(a, n)` keys on the number of live
regions *intersecting* `[a, a+n-1]` (not containing it): zero intersecting
regions fail with `AccessUnmanaged`, exactly one succeeds returning
`a - base_address`, two or more fail with `HeapOverflow`. -/
theorem claim_C3_translate_intersection (s : ChunkState) (a n : Nat) :
    ((s.regions.countP (fun r => intersects r (a, a + n - 1))) = 0 →
      s.translate_checked a n = .error (.accessUnmanaged a n)) ∧
    ((s.regions.countP (fun r => intersects r (a, a + n - 1))) = 1 →
      s.translate_checked a n = .ok (a - s.base_address)) ∧
    (2 ≤ (s.regions.countP (fun r => intersects r (a, a + n - 1))) →
      s.translate_checked a n = .error (.heapOverflow a n)) :=
  translate_cases s a n

/-- Witness for the amended C3 at the S2 state: the 16-byte range at the
live allocation's base intersects exactly one region and translates to
offset 0. -/
theorem claim_C3_translate_intersection_witness :
    heapAExplicit.translate_checked heapBase 16
      = .ok (heapBase - heapAExplicit.base_address) ∧
    (heapAExplicit.regions.countP
      (fun r => intersects r (heapBase, heapBase + 16 - 1))) = 1 :=
  ⟨(claim_C3_translate_intersection heapAExplicit heapBase 16).2.1 (by decide),
   by decide⟩

/-! ## Claim C4 — the red-zone write (corrected: AccessUnmanaged, not
AccessViolation) -/

/-- Counterexample to C4 as stated: in scenario S2 (`allocate(16)` returned
`heapBase` on a fresh 0x1000-byte ChunkState), writing one byte at the
red-zone address `heapBase + 16` fails with `AccessUnmanaged` — a heap
fault, not the permission `AccessViolation` the claim names — and the state
is byte-for-byte unchanged. -/
theorem claim_C4_redzone_counterexample :
    (heapA.set_values (heapBase + 16) [0]).1
      = .error (.accessUnmanaged (heapBase + 16) 1) ∧
    (heapA.set_values (heapBase + 16) [0]).2 = heapA ∧
    resultIsAccessViolation (heapA.set_values (heapBase + 16) [0]).1 = false := by
  have ht : heapA.translate_checked (heapBase + 16) ([0] : List Nat).length
      = .error (.accessUnmanaged (heapBase + 16) 1) := by
    rw [heapA_eq]; decide
  have h := chunk_set_values_err heapA (heapBase + 16) [0] _ ht
  refine ⟨?_, ?_, ?_⟩
  · rw [h]
  · rw [h]
  · rw [h]
    rfl

/-! ## Claim C5 — reallocate(B, 64) after freeing A (corrected: returns B) -/

/-- Counterexample to C5 as stated: after `allocate(16) → A`,
`allocate(16) → B = A+17`, `deallocate(A)` and storing 16 bytes at B,
`reallocate(B, 64)` succeeds **in place** (the free chunk to the right is
large enough), returning exactly B — the claim asserts the result must
differ from B. -/
theorem claim_C5_realloc_counterexample :
    ((c5s3.set_values c5B bytes16).2.reallocate c5B 64).1 = .ok c5B := by
  rw [c5_write_eq bytes16 rfl]
  dsimp only
  rw [c5_realloc_shape]

/-- **C5 (amended).** In the S3 scenario, for any 16 bytes stored at B,
`reallocate(B, 64)` succeeds and returns exactly B (in-place extension via
the right free neighbour), and the first 16 bytes at the returned address
equal the bytes stored at B before the reallocation. -/
theorem claim_C5_realloc_in_place (bs : List Nat) (h : bs.length = 16) :
    (c5s3.set_values c5B bs).1 = .ok () ∧
    ((c5s3.set_values c5B bs).2.reallocate c5B 64).1 = .ok c5B ∧
    ((c5s3.set_values c5B bs).2.reallocate c5B 64).2.view_values c5B 16 = .ok bs := by
  have hv := c5_view_shape (writeRange (List.replicate 0x1000 0) 17 bs)
    (dirtyAfterB.dirty_region 17 bs.length)
    (by rw [writeRange_length, List.length_replicate]; omega)
  refine ⟨?_, ?_, ?_⟩
  · rw [c5_write_eq bs h]
  · rw [c5_write_eq bs h]
    dsimp only
    rw [c5_realloc_shape]
  · rw [c5_write_eq bs h]
    dsimp only
    rw [c5_realloc_shape]
    dsimp only
    rw [hv]
    rw [← h, sliceD_writeRange_self (List.replicate 0x1000 0) 17 bs
      (by rw [List.length_replicate]; omega)]

/-- Witness for the amended C5 with the concrete bytes 1..16. -/
theorem claim_C5_realloc_in_place_witness :
    (c5s3.set_values c5B bytes16).1 = .ok () ∧
    ((c5s3.set_values c5B bytes16).2.reallocate c5B 64).1 = .ok c5B ∧
    ((c5s3.set_values c5B bytes16).2.reallocate c5B 64).2.view_values c5B 16
      = .ok bytes16 :=
  claim_C5_realloc_in_place bytes16 (by decide)


/-! ## Permission-bitmap bit lemmas (supporting the amended C4) -/

theorem and_mask_eq_iff (x m : Nat) :
    (x &&& m = m) ↔ ∀ i, m.testBit i = true → x.testBit i = true := by
  constructor
  · intro h i hm
    have hb : (x &&& m).testBit i = m.testBit i := by rw [h]
    rw [Nat.testBit_and, hm] at hb
    simpa using hb
  · intro h
    apply Nat.eq_of_testBit_eq
    intro i
    rw [Nat.testBit_and]
    cases hm : m.testBit i with
    | false => simp
    | true => simp [h i hm]

theorem testBit_one_shiftLeft (k i : Nat) :
    ((1 <<< k).testBit i = true) ↔ i = k := by
  rw [Nat.testBit_shiftLeft, show (1 : Nat) = 2 ^ 1 - 1 by norm_num,
    Nat.testBit_two_pow_sub_one]
  simp only [Bool.and_eq_true, decide_eq_true_eq, ge_iff_le]
  omega

theorem testBit_three_shiftLeft (k i : Nat) :
    ((3 <<< k).testBit i = true) ↔ (i = k ∨ i = k + 1) := by
  rw [Nat.testBit_shiftLeft, show (3 : Nat) = 2 ^ 2 - 1 by norm_num,
    Nat.testBit_two_pow_sub_one]
  simp only [Bool.and_eq_true, decide_eq_true_eq, ge_iff_le]
  omega

theorem checkMask_write (a : Nat) :
    checkMask a .write = 1 <<< (2 * (a % PERM_SCALE)) := rfl

theorem checkMask_read (a : Nat) :
    checkMask a .read = 1 <<< (2 * (a % PERM_SCALE) + 1) := rfl

theorem checkMask_rw (a : Nat) :
    checkMask a .readWrite = 3 <<< (2 * (a % PERM_SCALE)) := rfl

theorem checkMask_testBit_write (a i : Nat) :
    ((checkMask a .write).testBit i = true) ↔ i = 2 * (a % PERM_SCALE) := by
  rw [checkMask_write, testBit_one_shiftLeft]

theorem checkMask_testBit_read (a i : Nat) :
    ((checkMask a .read).testBit i = true) ↔ i = 2 * (a % PERM_SCALE) + 1 := by
  rw [checkMask_read, testBit_one_shiftLeft]

theorem checkMask_testBit_rw (a i : Nat) :
    ((checkMask a .readWrite).testBit i = true) ↔
      (i = 2 * (a % PERM_SCALE) ∨ i = 2 * (a % PERM_SCALE) + 1) := by
  rw [checkMask_rw, testBit_three_shiftLeft]

/-- Every bit of a `checkMask` sits at position `2*(a%32)` or `2*(a%32)+1`,
in particular below 64. -/
theorem checkMask_bits (a : Nat) (acc : Access) (i : Nat)
    (h : (checkMask a acc).testBit i = true) :
    2 * (a % PERM_SCALE) ≤ i ∧ i ≤ 2 * (a % PERM_SCALE) + 1 ∧ i < 64 := by
  have h32 : PERM_SCALE = 32 := rfl
  have hm : a % PERM_SCALE < PERM_SCALE := Nat.mod_lt a (by rw [h32]; omega)
  cases acc with
  | write => rw [checkMask_testBit_write] at h; omega
  | read => rw [checkMask_testBit_read] at h; omega
  | readWrite => rw [checkMask_testBit_rw] at h; omega

/-- Check masks of bytes with different positions inside a word touch
disjoint bit positions. -/
theorem checkMask_disjoint (a b : Nat) (acc1 acc2 : Access) (i : Nat)
    (hne : a % PERM_SCALE ≠ b % PERM_SCALE)
    (ha : (checkMask a acc1).testBit i = true) :
    (checkMask b acc2).testBit i = false := by
  rcases Bool.eq_false_or_eq_true ((checkMask b acc2).testBit i) with h | h
  · have h1 := checkMask_bits a acc1 i ha
    have h2 := checkMask_bits b acc2 i h
    omega
  · exact h

theorem getD_set_self (l : List Nat) (i v : Nat) (h : i < l.length) :
    (l.set i v).getD i 0 = v := by
  rw [List.getD_eq_getElem?_getD, List.getElem?_set_self h]
  rfl

theorem getD_set_other (l : List Nat) (i j v : Nat) (h : i ≠ j) :
    (l.set i v).getD j 0 = l.getD j 0 := by
  rw [List.getD_eq_getElem?_getD, List.getD_eq_getElem?_getD, List.getElem?_set_ne h]

theorem set_byte_bitsmap_length (p : Permissions) (a : Nat) (acc : Access) :
    (p.set_byte a acc).bitsmap.length = p.bitsmap.length := by
  unfold Permissions.set_byte
  simp

/-- `set_byte a ReadWrite` marks byte `a` for every access kind, provided the
word holding `a`'s bits exists in the bitmap. -/
theorem is_marked_set_byte_self (p : Permissions) (a : Nat) (acc : Access)
    (h : a / PERM_SCALE < p.bitsmap.length) :
    ((p.set_byte a .readWrite).is_marked a acc) = true := by
  unfold Permissions.is_marked Permissions.set_byte
  dsimp only
  rw [getD_set_self _ _ _ h, beq_iff_eq, and_mask_eq_iff]
  intro i hi
  rw [Nat.testBit_or]
  have hrw : (checkMask a .readWrite).testBit i = true := by
    rw [checkMask_testBit_rw]
    cases acc with
    | write => exact Or.inl ((checkMask_testBit_write a i).mp hi)
    | read => exact Or.inr ((checkMask_testBit_read a i).mp hi)
    | readWrite => exact (checkMask_testBit_rw a i).mp hi
  rw [hrw]
  simp

/-- `set_byte` on byte `b` leaves every other byte's marks unchanged. -/
theorem is_marked_set_byte_other (p : Permissions) (a b : Nat) (acc1 acc2 : Access)
    (hne : a ≠ b) :
    ((p.set_byte b acc2).is_marked a acc1) = p.is_marked a acc1 := by
  unfold Permissions.is_marked Permissions.set_byte
  dsimp only
  by_cases hw : a / PERM_SCALE = b / PERM_SCALE
  · have hmod : a % PERM_SCALE ≠ b % PERM_SCALE := by
      intro he
      apply hne
      have ha := Nat.div_add_mod a 32
      have hb := Nat.div_add_mod b 32
      have h32 : PERM_SCALE = 32 := rfl
      rw [h32] at hw he
      omega
    by_cases hl : b / PERM_SCALE < p.bitsmap.length
    · rw [hw, getD_set_self _ _ _ hl]
      have hand : (p.bitsmap.getD (b / PERM_SCALE) 0 ||| checkMask b acc2) &&& checkMask a acc1
          = p.bitsmap.getD (b / PERM_SCALE) 0 &&& checkMask a acc1 := by
        apply Nat.eq_of_testBit_eq
        intro i
        rw [Nat.testBit_and, Nat.testBit_and, Nat.testBit_or]
        cases hca : (checkMask a acc1).testBit i with
        | false => simp
        | true =>
          rw [checkMask_disjoint a b acc1 acc2 i hmod hca]
          simp
      rw [hand]
    · have hga : ((p.bitsmap.set (b / PERM_SCALE)
          (p.bitsmap.getD (b / PERM_SCALE) 0 ||| checkMask b acc2)).getD (a / PERM_SCALE) 0)
          = 0 :=
        getD_eq_of_ge_length _ _ (by rw [List.length_set]; omega)
      have hgb : p.bitsmap.getD (a / PERM_SCALE) 0 = 0 :=
        getD_eq_of_ge_length _ _ (by omega)
      rw [hga, hgb]
  · rw [getD_set_other _ _ _ _ (Ne.symm hw)]

/-- `clear_byte` on byte `b` leaves every other byte's marks unchanged. -/
theorem is_marked_clear_byte_other (p : Permissions) (a b : Nat) (acc1 acc2 : Access)
    (hne : a ≠ b) :
    ((p.clear_byte b acc2).is_marked a acc1) = p.is_marked a acc1 := by
  unfold Permissions.is_marked Permissions.clear_byte
  dsimp only
  by_cases hw : a / PERM_SCALE = b / PERM_SCALE
  · have hmod : a % PERM_SCALE ≠ b % PERM_SCALE := by
      intro he
      apply hne
      have ha := Nat.div_add_mod a 32
      have hb := Nat.div_add_mod b 32
      have h32 : PERM_SCALE = 32 := rfl
      rw [h32] at hw he
      omega
    by_cases hl : b / PERM_SCALE < p.bitsmap.length
    · rw [hw, getD_set_self _ _ _ hl]
      have hand : (p.bitsmap.getD (b / PERM_SCALE) 0 &&& (U64_MAX ^^^ checkMask b acc2))
            &&& checkMask a acc1
          = p.bitsmap.getD (b / PERM_SCALE) 0 &&& checkMask a acc1 := by
        apply Nat.eq_of_testBit_eq
        intro i
        rw [Nat.testBit_and, Nat.testBit_and, Nat.testBit_and, Nat.testBit_xor]
        cases hca : (checkMask a acc1).testBit i with
        | false => simp
        | true =>
          have hcb := checkMask_disjoint a b acc1 acc2 i hmod hca
          have hi64 : i < 64 := (checkMask_bits a acc1 i hca).2.2
          have hmax : U64_MAX.testBit i = true := by
            have hval : U64_MAX = 2 ^ 64 - 1 := by norm_num [U64_MAX]
            rw [hval, Nat.testBit_two_pow_sub_one]
            simpa using hi64
          rw [hcb, hmax]
          simp
      rw [hand]
    · have hga : ((p.bitsmap.set (b / PERM_SCALE)
          (p.bitsmap.getD (b / PERM_SCALE) 0 &&& (U64_MAX ^^^ checkMask b acc2))).getD
            (a / PERM_SCALE) 0) = 0 :=
        getD_eq_of_ge_length _ _ (by rw [List.length_set]; omega)
      have hgb : p.bitsmap.getD (a / PERM_SCALE) 0 = 0 :=
        getD_eq_of_ge_length _ _ (by omega)
      rw [hga, hgb]
  · rw [getD_set_other _ _ _ _ (Ne.symm hw)]

theorem set_region_succ (p : Permissions) (off n : Nat) (acc : Access) :
    p.set_region off (n + 1) acc = (p.set_region off n acc).set_byte (off + n) acc := by
  unfold Permissions.set_region
  rw [List.range_succ, List.foldl_append]
  rfl

theorem set_region_bitsmap_length (p : Permissions) (off n : Nat) (acc : Access) :
    (p.set_region off n acc).bitsmap.length = p.bitsmap.length := by
  induction n with
  | zero => rfl
  | succ n ih => rw [set_region_succ, set_byte_bitsmap_length, ih]

/-- After `set_region off n ReadWrite`, every byte of `[off, off+n)` whose
permission word exists is marked for every access kind. -/
theorem set_region_marks (p : Permissions) (off n : Nat) (acc : Access) (a : Nat)
    (hlen : a / PERM_SCALE < p.bitsmap.length) :
    off ≤ a → a < off + n → ((p.set_region off n .readWrite).is_marked a acc) = true := by
  induction n with
  | zero => intro _ h; omega
  | succ n ih =>
    intro hlo hhi
    rw [set_region_succ]
    by_cases ha : a = off + n
    · subst ha
      exact is_marked_set_byte_self _ _ _ (by rw [set_region_bitsmap_length]; exact hlen)
    · rw [is_marked_set_byte_other _ _ _ _ _ ha]
      exact ih hlo (by omega)

/-! ## ChunkList.allocate returns the offset of a free chunk -/

theorem allocateFrom_succ (l : List ChunkStatus) (sz i fuel : Nat) :
    ChunkList.allocateFrom l sz i (fuel + 1) =
      (if i < l.length then
        if (l.getD i dummyChunk).is_free then
          if (l.getD i dummyChunk).size = sz then
            some ((l.getD i dummyChunk).offset,
              l.set i (.taken (l.getD i dummyChunk).offset sz))
          else if (l.getD i dummyChunk).size > sz then
            some ((l.getD i dummyChunk).offset,
              (l.set i (.taken (l.getD i dummyChunk).offset sz)).insertIdx (i + 1)
                (.free ((l.getD i dummyChunk).offset + sz)
                  ((l.getD i dummyChunk).size - sz)))
          else ChunkList.allocateFrom l sz (i + 1) fuel
        else ChunkList.allocateFrom l sz (i + 1) fuel
      else none) := rfl

theorem getD_chunk_mem (l : List ChunkStatus) (i : Nat) (h : i < l.length) :
    l.getD i dummyChunk ∈ l := by
  rw [List.getD_eq_getElem l dummyChunk h]
  exact List.getElem_mem h

/-- A successful `ChunkList.allocate` scan found a free chunk of size at
least `sz` at the returned offset. -/
theorem allocateFrom_free_mem (l : List ChunkStatus) (sz : Nat) :
    ∀ fuel i off l', ChunkList.allocateFrom l sz i fuel = some (off, l') →
      ∃ fsz, sz ≤ fsz ∧ ChunkStatus.free off fsz ∈ l := by
  intro fuel
  induction fuel with
  | zero =>
    intro i off l' h
    exact absurd h (by simp [ChunkList.allocateFrom])
  | succ fuel ih =>
    intro i off l' h
    rw [allocateFrom_succ] at h
    by_cases hi : i < l.length
    · rw [if_pos hi] at h
      have hmem := getD_chunk_mem l i hi
      cases hc : l.getD i dummyChunk with
      | taken o s =>
        rw [hc] at h hmem
        simp only [ChunkStatus.is_free, Bool.false_eq_true, if_false] at h
        exact ih (i + 1) off l' h
      | free o s =>
        rw [hc] at h hmem
        simp only [ChunkStatus.is_free, ChunkStatus.offset, ChunkStatus.size,
          if_true] at h
        by_cases hs : s = sz
        · rw [if_pos hs] at h
          have h2 := Option.some.inj h
          have ho : o = off := congrArg Prod.fst h2
          exact ⟨s, by omega, ho ▸ hmem⟩
        · rw [if_neg hs] at h
          by_cases hgt : s > sz
          · rw [if_pos hgt] at h
            have h2 := Option.some.inj h
            have ho : o = off := congrArg Prod.fst h2
            exact ⟨s, by omega, ho ▸ hmem⟩
          · rw [if_neg hgt] at h
            exact ih (i + 1) off l' h
    · rw [if_neg hi] at h
      exact absurd h (by simp)

theorem allocate_free_mem (l : List ChunkStatus) (sz off : Nat) (l' : List ChunkStatus)
    (h : ChunkList.allocate l sz = some (off, l')) :
    ∃ fsz, sz ≤ fsz ∧ ChunkStatus.free off fsz ∈ l :=
  allocateFrom_free_mem l sz l.length 0 off l' h

/-- Well-formedness of a `ChunkState` heap, as maintained by the allocator:
the backing holds `N` bytes, the permission bitmap has its construction
length, every free chunk lies inside `[0, N)`, and no live region overlaps a
free chunk's extent (live regions only cover taken chunks).  Every reachable
state satisfies it; the fresh state witnesses it. -/
def ChunkInv (N : Nat) (s : ChunkState) : Prop :=
  s.backing.backing.length = N ∧
  s.backing.permissions.bitsmap.length = 1 + N / PERM_SCALE ∧
  (∀ off fsz, ChunkStatus.free off fsz ∈ s.chunks → off + fsz ≤ N) ∧
  (∀ r ∈ s.regions, ∀ off fsz, ChunkStatus.free off fsz ∈ s.chunks →
    r.2 < s.base_address + off ∨ s.base_address + off + fsz ≤ r.1)

theorem heapA_alloc :
    (ChunkState.new heapBase 0x1000).allocate 16 = (.ok heapBase, heapAExplicit) := by
  have h := chunk_allocate_shape (ChunkState.new heapBase 0x1000) 16 0
    [.taken 0 17, .free 17 4079]
    (by decide)
    (by rw [chunk_new_backing, read_only_len]; omega)
    (by decide)
  rw [h]
  rfl

/-- **C4 (amended).** For any well-formed heap and any `allocate(n)` that
returns address `A` (with `n ≥ 1`), writing one byte at the red-zone address
`A + n` fails with `AccessUnmanaged` (the red-zone byte belongs to no live
region) and leaves the state byte-for-byte unchanged, while writing any `n`
bytes at `A` succeeds. -/
theorem claim_C4_redzone_access (N : Nat) (s : ChunkState) (n A : Nat) (s' : ChunkState)
    (hn : 1 ≤ n) (hinv : ChunkInv N s)
    (halloc : s.allocate n = (.ok A, s')) :
    (∀ v : Nat, (s'.set_values (A + n) [v]).1
        = .error (.accessUnmanaged (A + n) 1) ∧
      (s'.set_values (A + n) [v]).2 = s') ∧
    (∀ bs : List Nat, bs.length = n → (s'.set_values A bs).1 = .ok ()) := by
  obtain ⟨hlenN, hplen, hfree, hreg⟩ := hinv
  rcases hA : ChunkList.allocate s.chunks (n + 1) with _ | ⟨off, chunks'⟩
  · exfalso
    unfold ChunkState.allocate at halloc
    rw [hA] at halloc
    have h2 : (Except.error (ChunkError.notEnoughFreeSpace n), s)
        = ((Except.ok A : Except ChunkError Nat), s') := halloc
    exact absurd (congrArg Prod.fst h2) (by simp)
  · obtain ⟨fsz, hfsz, hmem⟩ := allocate_free_mem _ _ _ _ hA
    have hoffN : off + fsz ≤ N := hfree off fsz hmem
    have hN : s.backing.len = N := hlenN
    have hb : off + n ≤ s.backing.len := by rw [hN]; omega
    have hmark : ∀ acc : Access, ∀ k, k < n →
        (((s.backing.permissions.set_region off n .readWrite).clear_byte (off + n)
          .write).is_marked (off + k) acc) = true := by
      intro acc k hk
      rw [is_marked_clear_byte_other _ _ _ _ _ (by omega : off + k ≠ off + n)]
      refine set_region_marks _ _ _ _ _ ?_ (by omega) (by omega)
      rw [hplen]
      have h2 : (off + k) / PERM_SCALE ≤ N / PERM_SCALE :=
        Nat.div_le_div_right (by omega)
      omega
    have hp : (((s.backing.permissions.set_region off n .readWrite).clear_byte (off + n)
        .write).all_readable_and_writable off n) = true := by
      unfold Permissions.all_readable_and_writable Permissions.all_marked
      rw [List.all_eq_true]
      intro k hk
      rw [List.mem_range] at hk
      exact hmark .readWrite k hk
    have hshape := chunk_allocate_shape s n off chunks' hA hb hp
    rw [hshape, Prod.mk.injEq] at halloc
    obtain ⟨hA1, hs'⟩ := halloc
    have hA2 : s.base_address + off = A := by simpa using hA1
    subst hA2
    have hregs : s'.regions
        = s.regions ++ [(s.base_address + off, s.base_address + off + n - 1)] := by
      rw [← hs']
    have hbase : s'.base_address = s.base_address := by rw [← hs']
    have hperm : s'.backing.permissions
        = (s.backing.permissions.set_region off n .readWrite).clear_byte (off + n)
          .write := by
      rw [← hs']
    have hlen' : s'.backing.len = N := by rw [← hs']; exact hlenN
    constructor
    · intro v
      have hq0 : (s.regions.countP (fun r =>
          intersects r (s.base_address + off + n, s.base_address + off + n + 1 - 1))) = 0 := by
        rw [List.countP_eq_zero]
        intro r hr
        have hd := hreg r hr off fsz hmem
        simp only [intersects, decide_eq_true_eq]
        omega
      have hcount : (s'.regions.countP (fun r =>
          intersects r (s.base_address + off + n, s.base_address + off + n + 1 - 1))) = 0 := by
        rw [hregs, List.countP_append, hq0, List.countP_cons, List.countP_nil]
        rw [if_neg (by simp only [intersects, decide_eq_true_eq]; omega)]
      have ht := (translate_cases s' (s.base_address + off + n) 1).1 hcount
      have herr := chunk_set_values_err s' (s.base_address + off + n) [v]
        (.accessUnmanaged (s.base_address + off + n) 1) ht
      constructor
      · rw [herr]
      · rw [herr]
    · intro bs hbs
      have hq0 : (s.regions.countP (fun r =>
          intersects r (s.base_address + off, s.base_address + off + n - 1))) = 0 := by
        rw [List.countP_eq_zero]
        intro r hr
        have hd := hreg r hr off fsz hmem
        simp only [intersects, decide_eq_true_eq]
        omega
      have hcount1 : (s'.regions.countP (fun r =>
          intersects r (s.base_address + off, s.base_address + off + n - 1))) = 1 := by
        rw [hregs, List.countP_append, hq0, List.countP_cons, List.countP_nil]
        rw [if_pos (by simp only [intersects, decide_eq_true_eq]; omega)]
      have ht := (translate_cases s' (s.base_address + off) n).2.1 hcount1
      rw [hbase] at ht
      have hoffeq : s.base_address + off - s.base_address = off := by omega
      rw [hoffeq] at ht
      have ht2 : s'.translate_checked (s.base_address + off) bs.length = .ok off := by
        rw [hbs]; exact ht
      have hb2 : off + bs.length ≤ s'.backing.len := by rw [hbs, hlen']; omega
      have hw2 : (s'.backing.permissions.all_writable off bs.length) = true := by
        rw [hbs, hperm]
        unfold Permissions.all_writable Permissions.all_marked
        rw [List.all_eq_true]
        intro k hk
        rw [List.mem_range] at hk
        exact hmark .write k hk
      have hok := chunk_set_values_ok s' (s.base_address + off) off bs ht2 hb2 hw2
      rw [hok]

/-- Witness for the amended C4 in scenario S2: the fresh 0x1000-byte heap is
well-formed, `allocate(16)` returns `heapBase`, writing one byte at the
red-zone address `heapBase+16` fails with `AccessUnmanaged` leaving the state
unchanged, and writing 16 bytes at `heapBase` succeeds. -/
theorem claim_C4_redzone_access_witness :
    ((heapAExplicit.set_values (heapBase + 16) [7]).1
        = .error (.accessUnmanaged (heapBase + 16) 1) ∧
      (heapAExplicit.set_values (heapBase + 16) [7]).2 = heapAExplicit) ∧
    (heapAExplicit.set_values heapBase bytes16).1 = .ok () := by
  have hinv : ChunkInv 0x1000 (ChunkState.new heapBase 0x1000) := by
    refine ⟨?_, ?_, ?_, ?_⟩
    · show (List.replicate 0x1000 (0 : Nat)).length = 0x1000
      rw [List.length_replicate]
    · show (List.replicate (1 + 0x1000 / PERM_SCALE) PERM_READ_MASK).length
        = 1 + 0x1000 / PERM_SCALE
      rw [List.length_replicate]
    · intro off fsz hm
      have hm2 : ChunkStatus.free off fsz ∈ [ChunkStatus.free 0 0x1000] := hm
      rw [List.mem_singleton] at hm2
      injection hm2 with h1 h2
      omega
    · intro r hr off fsz _
      exact absurd hr (List.not_mem_nil r)
  have h := claim_C4_redzone_access 0x1000 (ChunkState.new heapBase 0x1000) 16 heapBase
    heapAExplicit (by omega) hinv heapA_alloc
  exact ⟨h.1 7, h.2 bytes16 (by decide)⟩


/-! ## Claim C1 support — dirty blocks cover every modified byte, and
`restore` copies exactly the dirty blocks back -/

theorem and_one_shiftLeft_eq_zero_iff (w b : Nat) :
    (w &&& (1 <<< b) = 0) ↔ w.testBit b = false := by
  constructor
  · intro h
    rcases Bool.eq_false_or_eq_true (w.testBit b) with hb | hb
    · exfalso
      have h1 : (1 <<< b).testBit b = true := (testBit_one_shiftLeft b b).mpr rfl
      have h2 : (w &&& (1 <<< b)).testBit b = true := by
        rw [Nat.testBit_and, hb, h1]
        rfl
      rw [h] at h2
      simp [Nat.zero_testBit] at h2
    · exact hb
  · intro h
    apply Nat.eq_of_testBit_eq
    intro i
    rw [Nat.testBit_and, Nat.zero_testBit]
    by_cases hib : i = b
    · subst hib
      rw [h]
      rfl
    · have h1 : (1 <<< b).testBit i = false := by
        rcases Bool.eq_false_or_eq_true ((1 <<< b).testBit i) with h2 | h2
        · exact absurd ((testBit_one_shiftLeft b i).mp h2) hib
        · exact h2
      rw [h1]
      simp

theorem getD_replicate_zero (k i : Nat) : (List.replicate k (0 : Nat)).getD i 0 = 0 := by
  by_cases h : i < k
  · rw [List.getD_eq_getElem _ _ (by simpa using h)]
    simp
  · exact getD_eq_of_ge_length _ _ (by simp; omega)

theorem dirty_indices_mono (d : DirtyBacking) (blk b : Nat) (h : b ∈ d.indices) :
    b ∈ (d.dirty blk).indices := by
  unfold DirtyBacking.dirty
  dsimp only
  split
  · exact List.mem_append_left _ h
  · exact h

theorem dirty_mem (d : DirtyBacking) (blk : Nat) (h : bitsOK d) :
    blk ∈ (d.dirty blk).indices := by
  unfold DirtyBacking.dirty
  dsimp only
  split
  · simp
  · rename_i hc
    have hne : (d.bitsmap.getD (Block.index blk) 0) &&& (1 <<< Block.bit blk) ≠ 0 :=
      fun h0 => hc (beq_iff_eq.mpr h0)
    rcases Bool.eq_false_or_eq_true
        ((d.bitsmap.getD (Block.index blk) 0).testBit (Block.bit blk)) with hb | hb
    · exact h blk hb
    · exact absurd ((and_one_shiftLeft_eq_zero_iff _ _).mpr hb) hne

theorem dirty_bitsOK (d : DirtyBacking) (blk : Nat) (h : bitsOK d) :
    bitsOK (d.dirty blk) := by
  unfold DirtyBacking.dirty
  dsimp only
  split
  · intro b hb
    dsimp only at hb ⊢
    by_cases hw : Block.index b = Block.index blk
    · by_cases hl : Block.index blk < d.bitsmap.length
      · rw [hw, getD_set_self _ _ _ hl, Nat.testBit_or] at hb
        rcases (Bool.or_eq_true _ _).mp hb with h1 | h1
        · exact List.mem_append_left _ (h b (by rw [hw]; exact h1))
        · have hbit := (testBit_one_shiftLeft _ _).mp h1
          have hb2 : b = blk := by
            have h1' := Nat.div_add_mod b 8
            have h2' := Nat.div_add_mod blk 8
            unfold Block.index at hw
            unfold Block.bit at hbit
            omega
          subst hb2
          simp
      · rw [hw, getD_eq_of_ge_length _ _ (by rw [List.length_set]; omega)] at hb
        simp [Nat.zero_testBit] at hb
    · rw [getD_set_other _ _ _ _ (fun he => hw he.symm)] at hb
      exact List.mem_append_left _ (h b hb)
  · exact h

theorem foldl_dirty_bitsOK (g : Nat → Nat) :
    ∀ (ks : List Nat) (d : DirtyBacking), bitsOK d →
      bitsOK (ks.foldl (fun acc j => acc.dirty (g j)) d) := by
  intro ks
  induction ks with
  | nil => intro d h; exact h
  | cons k t ih => intro d h; exact ih _ (dirty_bitsOK d (g k) h)

theorem foldl_dirty_mono (g : Nat → Nat) :
    ∀ (ks : List Nat) (d : DirtyBacking) (b : Nat), b ∈ d.indices →
      b ∈ (ks.foldl (fun acc j => acc.dirty (g j)) d).indices := by
  intro ks
  induction ks with
  | nil => intro d b h; exact h
  | cons k t ih => intro d b h; exact ih _ b (dirty_indices_mono d (g k) b h)

theorem foldl_dirty_covers (g : Nat → Nat) :
    ∀ (ks : List Nat) (d : DirtyBacking) (k : Nat), bitsOK d → k ∈ ks →
      g k ∈ (ks.foldl (fun acc j => acc.dirty (g j)) d).indices := by
  intro ks
  induction ks with
  | nil => intro d k _ hk; exact absurd hk (List.not_mem_nil k)
  | cons k0 t ih =>
    intro d k hOK hk
    rcases List.mem_cons.mp hk with he | ht
    · subst he
      exact foldl_dirty_mono g t _ _ (dirty_mem d (g k) hOK)
    · exact ih _ k (dirty_bitsOK d (g k0) hOK) ht

theorem dirty_region_bitsOK (d : DirtyBacking) (start size : Nat) (h : bitsOK d) :
    bitsOK (d.dirty_region start size) := by
  unfold DirtyBacking.dirty_region
  dsimp only
  exact foldl_dirty_bitsOK (fun k => start / BLOCK_SIZE + k) _ d h

theorem dirty_region_mono (d : DirtyBacking) (start size b : Nat) (h : b ∈ d.indices) :
    b ∈ (d.dirty_region start size).indices := by
  unfold DirtyBacking.dirty_region
  dsimp only
  exact foldl_dirty_mono (fun k => start / BLOCK_SIZE + k) _ d b h

theorem dirty_region_covers (d : DirtyBacking) (start size i : Nat) (h : bitsOK d)
    (h1 : start ≤ i) (h2 : i < start + size) :
    i / BLOCK_SIZE ∈ (d.dirty_region start size).indices := by
  unfold DirtyBacking.dirty_region
  dsimp only
  have hmem : i / BLOCK_SIZE - start / BLOCK_SIZE
      ∈ List.range ((start + size) / BLOCK_SIZE - start / BLOCK_SIZE + 1) := by
    rw [List.mem_range]
    have hs : start / BLOCK_SIZE ≤ i / BLOCK_SIZE := Nat.div_le_div_right h1
    have he : i / BLOCK_SIZE ≤ (start + size) / BLOCK_SIZE := Nat.div_le_div_right (by omega)
    omega
  have hcov := foldl_dirty_covers (fun k => start / BLOCK_SIZE + k) _ d _ h hmem
  have heq : start / BLOCK_SIZE + (i / BLOCK_SIZE - start / BLOCK_SIZE) = i / BLOCK_SIZE := by
    have hs : start / BLOCK_SIZE ≤ i / BLOCK_SIZE := Nat.div_le_div_right h1
    omega
  rw [← heq]
  exact hcov

/-- Every byte sits inside its own 64-byte block. -/
theorem block_bounds (i : Nat) :
    (i / BLOCK_SIZE) * BLOCK_SIZE ≤ i ∧ i < (i / BLOCK_SIZE + 1) * BLOCK_SIZE := by
  have h := Nat.div_add_mod i 64
  have h2 : i % 64 < 64 := Nat.mod_lt _ (by omega)
  have hB : BLOCK_SIZE = 64 := rfl
  rw [hB]
  omega

theorem restore_fold_length (other : List Nat) :
    ∀ (idxs : List Nat) (w bm : List Nat),
      ((idxs.foldl (fun (st : List Nat × List Nat) (block : Nat) =>
          (overwriteFrom st.1 other (block * BLOCK_SIZE)
            (min st.1.length ((block + 1) * BLOCK_SIZE)),
           st.2.set (Block.index block) 0)) (w, bm)).1).length = w.length := by
  intro idxs
  induction idxs with
  | nil => intro w bm; rfl
  | cons b t ih =>
    intro w bm
    rw [List.foldl_cons]
    dsimp only
    rw [ih]
    simp

theorem restore_fold_getD (other : List Nat) :
    ∀ (idxs : List Nat) (w bm : List Nat) (i : Nat), i < w.length →
      ((idxs.foldl (fun (st : List Nat × List Nat) (block : Nat) =>
          (overwriteFrom st.1 other (block * BLOCK_SIZE)
            (min st.1.length ((block + 1) * BLOCK_SIZE)),
           st.2.set (Block.index block) 0)) (w, bm)).1.getD i 0)
        = if ∃ b ∈ idxs, b * BLOCK_SIZE ≤ i ∧ i < (b + 1) * BLOCK_SIZE
          then other.getD i 0 else w.getD i 0 := by
  intro idxs
  induction idxs with
  | nil =>
    intro w bm i hi
    rw [if_neg]
    · rfl
    · rintro ⟨b, hb, -⟩
      exact List.not_mem_nil b hb
  | cons b0 t ih =>
    intro w bm i hi
    rw [List.foldl_cons]
    dsimp only
    rw [ih _ _ i (by simpa using hi)]
    by_cases hb0 : b0 * BLOCK_SIZE ≤ i ∧ i < (b0 + 1) * BLOCK_SIZE
    · by_cases ht : ∃ b ∈ t, b * BLOCK_SIZE ≤ i ∧ i < (b + 1) * BLOCK_SIZE
      · rw [if_pos ht, if_pos ⟨b0, List.mem_cons_self b0 t, hb0⟩]
      · rw [if_neg ht, if_pos ⟨b0, List.mem_cons_self b0 t, hb0⟩]
        rw [overwriteFrom_getD _ _ _ _ _ hi]
        rw [if_pos ⟨hb0.1, lt_min_iff.mpr ⟨hi, hb0.2⟩⟩]
    · have hw' : (overwriteFrom w other (b0 * BLOCK_SIZE)
          (min w.length ((b0 + 1) * BLOCK_SIZE))).getD i 0 = w.getD i 0 := by
        rw [overwriteFrom_getD _ _ _ _ _ hi]
        rw [if_neg (by
          rintro ⟨hc1, hc2⟩
          exact hb0 ⟨hc1, lt_of_lt_of_le hc2 (min_le_right _ _)⟩)]
      by_cases ht : ∃ b ∈ t, b * BLOCK_SIZE ≤ i ∧ i < (b + 1) * BLOCK_SIZE
      · rcases ht with ⟨b, hbt, hcond⟩
        rw [if_pos ⟨b, hbt, hcond⟩, if_pos ⟨b, List.mem_cons_of_mem b0 hbt, hcond⟩]
      · have hcons : ¬ ∃ b ∈ b0 :: t, b * BLOCK_SIZE ≤ i ∧ i < (b + 1) * BLOCK_SIZE := by
          rintro ⟨b, hbc, hcond⟩
          rcases List.mem_cons.mp hbc with rfl | hbt
          · exact hb0 hcond
          · exact ht ⟨b, hbt, hcond⟩
        rw [if_neg ht, if_neg hcons]
        exact hw'

/-- `restore` rebuilds the parent's bytes whenever every differing byte lies
in a recorded dirty block. -/
theorem restore_backing (f other : FlatState)
    (hlen : f.backing.length = other.backing.length)
    (hcov : ∀ i, i < f.backing.length →
      f.backing.getD i 0 ≠ other.backing.getD i 0 →
      ∃ b ∈ f.dirty.indices, b * BLOCK_SIZE ≤ i ∧ i < (b + 1) * BLOCK_SIZE) :
    (f.restore other).backing = other.backing := by
  have hl : (f.restore other).backing.length = other.backing.length := by
    unfold FlatState.restore
    dsimp only
    rw [restore_fold_length]
    exact hlen
  apply list_ext_getD _ _ hl
  intro i hi
  rw [hl] at hi
  have hif : i < f.backing.length := by omega
  show ((f.restore other).backing.getD i 0) = other.backing.getD i 0
  unfold FlatState.restore
  dsimp only
  rw [restore_fold_getD other.backing f.dirty.indices f.backing f.dirty.bitsmap i hif]
  split
  · rfl
  · rename_i hno
    by_contra hne
    exact hno (hcov i hif hne)

theorem restore_permissions (f other : FlatState) :
    (f.restore other).permissions = other.permissions := rfl

theorem flatCov_write (parent child : FlatState) (a len : Nat) (bs' : List Nat)
    (hl : bs'.length = len) (h : FlatCov parent child) :
    FlatCov parent { child with backing := writeRange child.backing a bs',
                                dirty := child.dirty.dirty_region a len } := by
  obtain ⟨h1, h2, h3⟩ := h
  refine ⟨?_, ?_, ?_⟩
  · dsimp only
    rw [writeRange_length]
    exact h1
  · intro i hi hne
    dsimp only at hi hne ⊢
    rw [writeRange_length] at hi
    by_cases hin : a ≤ i ∧ i < a + len
    · exact ⟨i / BLOCK_SIZE, dirty_region_covers _ _ _ _ h3 hin.1 hin.2,
        (block_bounds i).1, (block_bounds i).2⟩
    · rw [writeRange_getD _ _ _ _ hi, if_neg (by rw [hl]; exact hin)] at hne
      obtain ⟨b, hb, hcond⟩ := h2 i hi hne
      exact ⟨b, dirty_region_mono _ _ _ _ hb, hcond⟩
  · dsimp only
    exact dirty_region_bitsOK _ _ _ h3

theorem flatCov_set_bytes (parent child : FlatState) (a : Nat) (bs : List Nat)
    (h : FlatCov parent child) : FlatCov parent (child.set_bytes a bs).2 := by
  unfold FlatState.set_bytes
  split
  · exact h
  · split
    · exact h
    · exact flatCov_write parent child a bs.length bs rfl h

theorem flatCov_view_mut_write (parent child : FlatState) (a : Nat) (bs : List Nat)
    (h : FlatCov parent child) : FlatCov parent (child.view_mut_write a bs).2 := by
  unfold FlatState.view_mut_write
  split
  · exact h
  · split
    · exact h
    · exact flatCov_write parent child a bs.length bs rfl h

theorem flatCov_copy_bytes (parent child : FlatState) (src dst n : Nat)
    (h : FlatCov parent child) : FlatCov parent (child.copy_bytes src dst n).2 := by
  unfold FlatState.copy_bytes
  split
  · exact h
  · split
    · exact h
    · split
      · exact h
      · split
        · exact h
        · exact flatCov_write parent child dst n (sliceD child.backing src n)
            (sliceD_length _ _ _) h

theorem flatCov_applyWrite (parent child : FlatState) (op : WriteOp)
    (h : FlatCov parent child) : FlatCov parent (applyWrite child op) := by
  cases op with
  | set a bs => exact flatCov_set_bytes parent child a bs h
  | copy src dst n => exact flatCov_copy_bytes parent child src dst n h
  | viewMut a bs => exact flatCov_view_mut_write parent child a bs h

theorem flatCov_applyWrites (parent : FlatState) (ops : List WriteOp) :
    ∀ child, FlatCov parent child → FlatCov parent (applyWrites child ops) := by
  induction ops with
  | nil => intro child h; exact h
  | cons op t ih =>
    intro child h
    show FlatCov parent (applyWrites (applyWrite child op) t)
    exact ih _ (flatCov_applyWrite parent child op h)

theorem flatCov_fork (f : FlatState) : FlatCov f f.fork := by
  refine ⟨rfl, ?_, ?_⟩
  · intro i hi hne
    exact absurd rfl hne
  · intro blk hb
    rw [show f.fork.dirty.bitsmap = List.replicate f.dirty.bitsmap.length 0 from rfl] at hb
    rw [getD_replicate_zero] at hb
    simp [Nat.zero_testBit] at hb

/-- FlatState half of claim C1: fork, write arbitrarily, restore — the
backing bytes and permissions match the pre-fork snapshot. -/
theorem flat_restore_after_writes (f : FlatState) (ops : List WriteOp) :
    ((applyWrites f.fork ops).restore f).backing = f.backing ∧
    ((applyWrites f.fork ops).restore f).permissions = f.permissions := by
  obtain ⟨h1, h2, h3⟩ := flatCov_applyWrites f ops f.fork (flatCov_fork f)
  exact ⟨restore_backing _ f h1 h2, restore_permissions _ f⟩


/-! ## Claim C1 — the composite PCodeState layer -/

theorem segCov_fork (s : Segment) : segCov s.fork s := by
  cases s with
  | staticSeg n o => exact ⟨rfl, rfl⟩
  | mapping n b => exact ⟨rfl, rfl, rfl, flatCov_fork b.backing⟩

theorem forall₂_fork_segments :
    ∀ segs : List ((Nat × Nat) × Segment),
      List.Forall₂ segEntryCov (segs.map (fun e => (e.1, e.2.fork))) segs := by
  intro segs
  induction segs with
  | nil => exact List.Forall₂.nil
  | cons e t ih => exact List.Forall₂.cons ⟨rfl, segCov_fork e.2⟩ ih

theorem pagedCov_fork (p : PagedState) : PagedCov p p.fork :=
  ⟨flatCov_fork p.inner, forall₂_fork_segments p.segments⟩

theorem pcodeCov_fork (s : PCodeState) : PCodeCov s s.fork :=
  ⟨pagedCov_fork s.memory, flatCov_fork s.registers, flatCov_fork s.temporaries⟩

theorem forall₂_getD {R : ((Nat × Nat) × Segment) → ((Nat × Nat) × Segment) → Prop} :
    ∀ (cs ps : List ((Nat × Nat) × Segment)), List.Forall₂ R cs ps →
      ∀ j d, j < cs.length → R (cs.getD j d) (ps.getD j d) := by
  intro cs ps h
  induction h with
  | nil => intro j d hj; simp at hj
  | cons hR hF ih =>
    intro j d hj
    cases j with
    | zero => exact hR
    | succ j => exact ih j d (by simpa using hj)

theorem forall₂_set_left {R : ((Nat × Nat) × Segment) → ((Nat × Nat) × Segment) → Prop} :
    ∀ (cs ps : List ((Nat × Nat) × Segment)), List.Forall₂ R cs ps →
      ∀ j x d, j < cs.length → R x (ps.getD j d) → List.Forall₂ R (cs.set j x) ps := by
  intro cs ps h
  induction h with
  | nil => intro j x d hj _; simp at hj
  | cons hR hF ih =>
    intro j x d hj hx
    cases j with
    | zero => exact List.Forall₂.cons hx hF
    | succ j => exact List.Forall₂.cons hR (ih j x d (by simpa using hj) hx)

theorem pagedCov_set_values (parent child : PagedState) (a : Nat) (bs : List Nat)
    (h : PagedCov parent child) : PagedCov parent (child.set_values a bs).2 := by
  obtain ⟨hin, hsegs⟩ := h
  unfold PagedState.set_values
  rcases hidx : child.findSegIdx a with _ | j
  · exact ⟨hin, hsegs⟩
  · dsimp only
    have hj : j < child.segments.length :=
      (List.findIdx?_eq_some_iff_findIdx_eq.mp hidx).1
    split
    · exact ⟨hin, hsegs⟩
    · have hRj := forall₂_getD child.segments parent.segments hsegs j
        ((0, 0), Segment.staticSeg "" 0) hj
      rcases hcs : (child.segments.getD j ((0, 0), Segment.staticSeg "" 0)).2 with ⟨n, o⟩ | ⟨n, b⟩
      · dsimp only
        exact ⟨flatCov_set_bytes parent.inner child.inner _ bs hin, hsegs⟩
      · dsimp only
        rcases htr : b.translate_checked a bs.length with ce | translated
        · exact ⟨hin, hsegs⟩
        · dsimp only
          refine ⟨hin, ?_⟩
          obtain ⟨hkey, hcov2⟩ := hRj
          rw [hcs] at hcov2
          rcases hps : (parent.segments.getD j ((0, 0), Segment.staticSeg "" 0)).2
            with ⟨pn, po⟩ | ⟨pn, pb⟩
          · rw [hps] at hcov2
            exact hcov2.elim
          · rw [hps] at hcov2
            obtain ⟨hname, hbase, hlen, hfc⟩ := hcov2
            have hflat := flatCov_set_bytes pb.backing b.backing translated bs hfc
            apply forall₂_set_left child.segments parent.segments hsegs j _
              ((0, 0), Segment.staticSeg "" 0) hj
            refine ⟨hkey, ?_⟩
            rw [hps]
            exact ⟨hname, hbase, hflat.1, hflat⟩
  
theorem find_exact_self :
    ∀ (ps : List ((Nat × Nat) × Segment)), (ps.map (fun e => e.1)).Nodup →
      ∀ e ∈ ps, PagedState.find_exact ps e.1 = some e := by
  intro ps
  induction ps with
  | nil => intro _ e he; exact absurd he (List.not_mem_nil e)
  | cons p pt ih =>
    intro hnodup e he
    rcases List.mem_cons.mp he with rfl | het
    · unfold PagedState.find_exact
      exact List.find?_cons_of_pos _ (by simp)
    · rw [List.map_cons] at hnodup
      have hn := List.nodup_cons.mp hnodup
      have hne : ¬ (p.1 = e.1) := by
        intro hq
        exact hn.1 (by rw [hq]; exact List.mem_map_of_mem (fun x => x.1) het)
      unfold PagedState.find_exact
      rw [List.find?_cons_of_neg _ (by simpa using hne)]
      exact ih hn.2 e het

theorem restoreSegs_nil (others : List ((Nat × Nat) × Segment)) :
    PagedState.restoreSegs others [] = some [] := rfl

theorem restoreSegs_cons (others : List ((Nat × Nat) × Segment))
    (e : (Nat × Nat) × Segment) (t : List ((Nat × Nat) × Segment)) :
    PagedState.restoreSegs others (e :: t) =
      (match PagedState.find_exact others e.1 with
       | none => PagedState.restoreSegs others t
       | some vo =>
         match e.2.restore vo.2 with
         | none => none
         | some v' => (PagedState.restoreSegs others t).map (fun t' => (e.1, v') :: t')) :=
  rfl

theorem restoreSegs_spec_aux (others : List ((Nat × Nat) × Segment)) :
    ∀ (cs ps : List ((Nat × Nat) × Segment)), List.Forall₂ segEntryCov cs ps →
      (∀ e ∈ ps, PagedState.find_exact others e.1 = some e) →
      ∃ segs', PagedState.restoreSegs others cs = some segs' ∧
        List.Forall₂ segEntryRestored segs' ps := by
  intro cs ps h
  induction h with
  | nil => intro _; exact ⟨[], rfl, List.Forall₂.nil⟩
  | @cons c p ct pt hR hF ih =>
    intro hfind
    obtain ⟨t', ht', hres⟩ := ih (fun e he => hfind e (List.mem_cons_of_mem p he))
    have hfe : PagedState.find_exact others c.1 = some p := by
      rw [hR.1]
      exact hfind p (List.mem_cons_self p pt)
    have hseg : ∃ v', c.2.restore p.2 = some v' ∧ segContentEq v' p.2 := by
      rcases hc2 : c.2 with ⟨n, o⟩ | ⟨n, b⟩
      · rcases hp2 : p.2 with ⟨rn, ro⟩ | ⟨rn, rb⟩
        · have hsc := hR.2
          rw [hc2, hp2] at hsc
          refine ⟨.staticSeg n o, ?_, ?_⟩
          · show (if n ≠ rn ∨ o ≠ ro then none
              else some (Segment.staticSeg n o)) = some (Segment.staticSeg n o)
            rw [if_neg (by simp [hsc.1, hsc.2])]
          · exact hsc
        · have hsc := hR.2
          rw [hc2, hp2] at hsc
          exact hsc.elim
      · rcases hp2 : p.2 with ⟨rn, ro⟩ | ⟨rn, rb⟩
        · have hsc := hR.2
          rw [hc2, hp2] at hsc
          exact hsc.elim
        · have hsc := hR.2
          rw [hc2, hp2] at hsc
          obtain ⟨hname, hbase, hlen, hfc⟩ := hsc
          refine ⟨.mapping n (b.restore rb), ?_, ?_⟩
          · show (if n ≠ rn ∨ b.base_address ≠ rb.base_address ∨ b.len ≠ rb.len then none
              else some (Segment.mapping n (b.restore rb)))
              = some (Segment.mapping n (b.restore rb))
            rw [if_neg (by simp [hname, hbase, hlen])]
          · exact ⟨hname, rfl, rfl, rfl,
              restore_backing b.backing rb.backing hfc.1 hfc.2.1,
              restore_permissions b.backing rb.backing⟩
    obtain ⟨v', hv', hcont⟩ := hseg
    refine ⟨(c.1, v') :: t', ?_, List.Forall₂.cons ⟨hR.1, hcont⟩ hres⟩
    rw [restoreSegs_cons, hfe]
    dsimp only
    rw [hv']
    dsimp only
    rw [ht']
    rfl

theorem paged_restore_covered (parent child : PagedState)
    (h : PagedCov parent child)
    (hnodup : (parent.segments.map (fun e => e.1)).Nodup) :
    ∃ m, child.restore parent = some m ∧
      m.inner.backing = parent.inner.backing ∧
      m.inner.permissions = parent.inner.permissions ∧
      List.Forall₂ segEntryRestored m.segments parent.segments := by
  obtain ⟨hin, hsegs⟩ := h
  obtain ⟨segs', hsegs', hres⟩ := restoreSegs_spec_aux parent.segments child.segments
    parent.segments hsegs (find_exact_self parent.segments hnodup)
  refine ⟨⟨segs', child.inner.restore parent.inner⟩, ?_, ?_, ?_, hres⟩
  · unfold PagedState.restore
    rw [hsegs']
  · exact restore_backing child.inner parent.inner hin.1 hin.2.1
  · exact restore_permissions child.inner parent.inner

theorem pcodeCov_applyPWrite (parent child : PCodeState) (op : PWriteOp)
    (h : PCodeCov parent child) : PCodeCov parent (applyPWrite child op) := by
  obtain ⟨hm, hr, ht⟩ := h
  cases op with
  | mem a bs => exact ⟨pagedCov_set_values parent.memory child.memory a bs hm, hr, ht⟩
  | reg a bs => exact ⟨hm, flatCov_set_bytes parent.registers child.registers a bs hr, ht⟩
  | tmp a bs =>
    exact ⟨hm, hr, flatCov_set_bytes parent.temporaries child.temporaries a bs ht⟩

theorem pcodeCov_applyPWrites (parent : PCodeState) (ops : List PWriteOp) :
    ∀ child, PCodeCov parent child → PCodeCov parent (applyPWrites child ops) := by
  induction ops with
  | nil => intro c h; exact h
  | cons op t ih =>
    intro c h
    show PCodeCov parent (applyPWrites (applyPWrite c op) t)
    exact ih _ (pcodeCov_applyPWrite parent c op h)

/-- **C1.** Fork-then-restore is the identity on contents, and for any
sequence of writes on the fork, restore rebuilds the pre-fork snapshot
byte-for-byte (backing bytes and permission bitmaps) — for a bare
`FlatState` and for the composite `PCodeState` across memory (the shared
inner flat and every mapped segment), registers and temporaries.  The empty
write sequence gives the fork-then-immediate-restore case. -/
theorem claim_C1_fork_restore (f : FlatState) (fops : List WriteOp)
    (p : PCodeState) (ops : List PWriteOp)
    (hnodup : (p.memory.segments.map (fun e => e.1)).Nodup) :
    (((applyWrites f.fork fops).restore f).backing = f.backing ∧
     ((applyWrites f.fork fops).restore f).permissions = f.permissions) ∧
    ∃ c', (applyPWrites p.fork ops).restore p = some c' ∧
      c'.registers.backing = p.registers.backing ∧
      c'.registers.permissions = p.registers.permissions ∧
      c'.temporaries.backing = p.temporaries.backing ∧
      c'.temporaries.permissions = p.temporaries.permissions ∧
      c'.memory.inner.backing = p.memory.inner.backing ∧
      c'.memory.inner.permissions = p.memory.inner.permissions ∧
      List.Forall₂ segEntryRestored c'.memory.segments p.memory.segments := by
  constructor
  · exact flat_restore_after_writes f fops
  · obtain ⟨hm, hr, ht⟩ := pcodeCov_applyPWrites p ops p.fork (pcodeCov_fork p)
    obtain ⟨m, hmem, hb, hp2, hsegs⟩ := paged_restore_covered p.memory
      (applyPWrites p.fork ops).memory hm hnodup
    refine ⟨⟨m, (applyPWrites p.fork ops).registers.restore p.registers,
        (applyPWrites p.fork ops).temporaries.restore p.temporaries⟩,
        ?_, ?_, ?_, ?_, ?_, hb, hp2, hsegs⟩
    · unfold PCodeState.restore
      rw [hmem]
    · exact restore_backing _ p.registers hr.1 hr.2.1
    · exact restore_permissions _ _
    · exact restore_backing _ p.temporaries ht.1 ht.2.1
    · exact restore_permissions _ _

/-- Witness for C1: a 4-byte flat with one write, and the concrete composite
state `c1P` with a register write and a memory write through the static RAM
segment. -/
theorem claim_C1_fork_restore_witness :
    ((applyWrites (FlatState.new 4).fork [.set 1 [5]]).restore (FlatState.new 4)).backing
        = (FlatState.new 4).backing ∧
    ∃ c', (applyPWrites c1P.fork [.reg 0 [9], .mem 0x100 [7]]).restore c1P = some c' ∧
      c'.registers.backing = c1P.registers.backing ∧
      c'.registers.permissions = c1P.registers.permissions ∧
      c'.temporaries.backing = c1P.temporaries.backing ∧
      c'.temporaries.permissions = c1P.temporaries.permissions ∧
      c'.memory.inner.backing = c1P.memory.inner.backing ∧
      c'.memory.inner.permissions = c1P.memory.inner.permissions ∧
      List.Forall₂ segEntryRestored c'.memory.segments c1P.memory.segments := by
  have h := claim_C1_fork_restore (FlatState.new 4) [.set 1 [5]] c1P
    [.reg 0 [9], .mem 0x100 [7]] (by decide)
  exact ⟨h.1.1, h.2⟩


/-! ## Claim C9 — DivisionByZero is precisely a zero divisor -/

theorem runOpReadHooks_err :
    ∀ (hs : List (Nat × Hook)) (s : PCodeState) (op : Operand) (e : IError),
      (runOpReadHooks s hs op).1 = .error e → ∃ n, e = .hook n := by
  intro hs
  induction hs with
  | nil =>
    intro s op e h
    exact absurd h (by simp [runOpReadHooks])
  | cons hd t ih =>
    intro s op e h
    obtain ⟨i, hk⟩ := hd
    rw [runOpReadHooks] at h
    rcases hh : hk.operand_read s op with e1 | ⟨s', out⟩
    · rw [hh] at h
      dsimp only at h
      injection h with h2
      exact ⟨e1, h2.symm⟩
    · rw [hh] at h
      dsimp only at h
      exact ih s' op e h

theorem runOpWriteHooks_err :
    ∀ (hs : List (Nat × Hook)) (s : PCodeState) (op : Operand) (buf : List Nat) (e : IError),
      (runOpWriteHooks s hs op buf).1 = .error e → ∃ n, e = .hook n := by
  intro hs
  induction hs with
  | nil =>
    intro s op buf e h
    exact absurd h (by simp [runOpWriteHooks])
  | cons hd t ih =>
    intro s op buf e h
    obtain ⟨i, hk⟩ := hd
    rw [runOpWriteHooks] at h
    rcases hh : hk.operand_write s op buf with e1 | ⟨s', out⟩
    · rw [hh] at h
      dsimp only at h
      injection h with h2
      exact ⟨e1, h2.symm⟩
    · rw [hh] at h
      dsimp only at h
      exact ih s' op buf e h

theorem runInvalidHooksFrom_err :
    ∀ (hs : List (Nat × Hook)) (s : PCodeState) (a n : Nat) (k : ViolationSource)
      (acc : Option (HookOutcome HookInvalidAction)) (e : IError),
      (runInvalidHooksFrom s hs a n k acc).1 = .error e → ∃ m, e = .hook m := by
  intro hs
  induction hs with
  | nil =>
    intro s a n k acc e h
    exact absurd h (by simp [runInvalidHooksFrom])
  | cons hd t ih =>
    intro s a n k acc e h
    obtain ⟨i, hk⟩ := hd
    rw [runInvalidHooksFrom] at h
    rcases hh : hk.invalid_access s a n k with e1 | ⟨s', out⟩
    · rw [hh] at h
      dsimp only at h
      injection h with h2
      exact ⟨e1, h2.symm⟩
    · rw [hh] at h
      dsimp only at h
      exact ih s' a n k _ e h

theorem runInvalidWriteHooks_err :
    ∀ (hs : List (Nat × Hook)) (s : PCodeState) (a n : Nat) (sc sk : Bool) (e : IError),
      (runInvalidWriteHooks s hs a n sc sk).1 = .error e → ∃ m, e = .hook m := by
  intro hs
  induction hs with
  | nil =>
    intro s a n sc sk e h
    exact absurd h (by simp [runInvalidWriteHooks])
  | cons hd t ih =>
    intro s a n sc sk e h
    obtain ⟨i, hk⟩ := hd
    rw [runInvalidWriteHooks] at h
    rcases hh : hk.invalid_access s a n .write with e1 | ⟨s', out⟩
    · rw [hh] at h
      dsimp only at h
      injection h with h2
      exact ⟨e1, h2.symm⟩
    · rw [hh] at h
      dsimp only at h
      exact ih s' a n _ _ e h

/-- Every error produced by `read_operand_with` is a hook or state error,
never an arithmetic one. -/
theorem read_operand_with_err (c : Ctx) (op : Operand) (k : ViolationSource)
    (e : IError) (c' : Ctx) (evs : List Event)
    (h : read_operand_with c op k = some (.error e, c', evs)) :
    (∃ n, e = .hook n) ∨ (∃ pe, e = .state pe) := by
  unfold read_operand_with at h
  dsimp only at h
  rcases h1 : (runOpReadHooks c.state (enumHooksFrom 0 c.hooks) op).1 with e1 | u
  · rw [h1] at h
    dsimp only at h
    have h2 := congrArg (fun (x : (Except IError (List Nat)) × Ctx × List Event) => x.1)
      (Option.some.inj h)
    injection h2 with h3
    exact Or.inl (by rw [← h3]; exact runOpReadHooks_err _ _ _ _ h1)
  · rw [h1] at h
    dsimp only at h
    rcases h2 : ((runOpReadHooks c.state (enumHooksFrom 0 c.hooks) op).2.1).with_operand_values
        c.endian op with _ | res
    · rw [h2] at h
      exact absurd h (by simp)
    · rw [h2] at h
      rcases res with pe | bs
      case ok =>
        dsimp only at h
        have h3 := congrArg (fun (x : (Except IError (List Nat)) × Ctx × List Event) => x.1)
          (Option.some.inj h)
        exact absurd h3 (by simp)
      case error =>
        rcases pe with me | fe | fe
        case register =>
          dsimp only at h
          have h3 := congrArg (fun (x : (Except IError (List Nat)) × Ctx × List Event) => x.1)
            (Option.some.inj h)
          injection h3 with h4
          exact Or.inr ⟨_, h4.symm⟩
        case temporary =>
          dsimp only at h
          have h3 := congrArg (fun (x : (Except IError (List Nat)) × Ctx × List Event) => x.1)
            (Option.some.inj h)
          injection h3 with h4
          exact Or.inr ⟨_, h4.symm⟩
        case memory =>
          dsimp only at h
          rcases h3 : (runInvalidHooksFrom
              ((runOpReadHooks c.state (enumHooksFrom 0 c.hooks) op).2.1)
              (enumHooksFrom 0 c.hooks) (PagedError.access me).1 (PagedError.access me).2
              k none).1 with e2 | sc
          · rw [h3] at h
            dsimp only at h
            have h4 := congrArg (fun (x : (Except IError (List Nat)) × Ctx × List Event) => x.1)
              (Option.some.inj h)
            injection h4 with h5
            exact Or.inl (by rw [← h5]; exact runInvalidHooksFrom_err _ _ _ _ _ _ _ h3)
          · rw [h3] at h
            dsimp only at h
            rcases sc with _ | out
            · dsimp only at h
              have h4 := congrArg (fun (x : (Except IError (List Nat)) × Ctx × List Event) => x.1)
                (Option.some.inj h)
              injection h4 with h5
              exact Or.inr ⟨_, h5.symm⟩
            · dsimp only at h
              rcases h4 : out.action.into_value with _ | v
              · rw [h4] at h
                dsimp only at h
                rcases h5 : (runInvalidHooksFrom
                    ((runOpReadHooks c.state (enumHooksFrom 0 c.hooks) op).2.1)
                    (enumHooksFrom 0 c.hooks) (PagedError.access me).1 (PagedError.access me).2
                    k none).2.1.with_operand_values c.endian op with _ | res2
                · rw [h5] at h
                  exact absurd h (by simp)
                · rw [h5] at h
                  rcases res2 with pe2 | bs2
                  case ok =>
                    dsimp only at h
                    have h6 := congrArg
                      (fun (x : (Except IError (List Nat)) × Ctx × List Event) => x.1)
                      (Option.some.inj h)
                    exact absurd h6 (by simp)
                  case error =>
                    dsimp only at h
                    have h6 := congrArg
                      (fun (x : (Except IError (List Nat)) × Ctx × List Event) => x.1)
                      (Option.some.inj h)
                    injection h6 with h7
                    exact Or.inr ⟨_, h7.symm⟩
              · rw [h4] at h
                dsimp only at h
                have h5 := congrArg (fun (x : (Except IError (List Nat)) × Ctx × List Event) => x.1)
                  (Option.some.inj h)
                exact absurd h5 (by simp)


/-- Every error produced by `write_operand` is a hook or state error. -/
theorem write_operand_err (c : Ctx) (op : Operand) (buf : List Nat)
    (e : IError) (c' : Ctx) (evs : List Event)
    (h : write_operand c op buf = some (.error e, c', evs)) :
    (∃ n, e = .hook n) ∨ (∃ pe, e = .state pe) := by
  unfold write_operand at h
  rcases h1 : c.state.with_operand_values_mut op buf with _ | ⟨res, s1⟩
  · rw [h1] at h
    exact absurd h (by simp)
  · rw [h1] at h
    dsimp only at h
    rcases res with pe | u
    case ok =>
      dsimp only at h
      have h2 := congrArg (fun (x : (Except IError Unit) × Ctx × List Event) => x.1)
        (Option.some.inj h)
      dsimp only at h2
      exact Or.inl (by
        obtain ⟨n, hn⟩ := runOpWriteHooks_err _ _ _ _ _ h2
        exact ⟨n, hn⟩)
    case error =>
      rcases pe with me | fe | fe
      case register =>
        dsimp only at h
        have h2 := congrArg (fun (x : (Except IError Unit) × Ctx × List Event) => x.1)
          (Option.some.inj h)
        injection h2 with h3
        exact Or.inr ⟨_, h3.symm⟩
      case temporary =>
        dsimp only at h
        have h2 := congrArg (fun (x : (Except IError Unit) × Ctx × List Event) => x.1)
          (Option.some.inj h)
        injection h2 with h3
        exact Or.inr ⟨_, h3.symm⟩
      case memory =>
        dsimp only at h
        rcases h2 : (runInvalidWriteHooks s1 (enumHooksFrom 0 c.hooks)
            (PagedError.access me).1 (PagedError.access me).2 false false).1 with e2 | flags
        · rw [h2] at h
          dsimp only at h
          have h3 := congrArg (fun (x : (Except IError Unit) × Ctx × List Event) => x.1)
            (Option.some.inj h)
          injection h3 with h4
          exact Or.inl (by rw [← h4]; exact runInvalidWriteHooks_err _ _ _ _ _ _ _ h2)
        · rw [h2] at h
          dsimp only at h
          obtain ⟨sc, sk⟩ := flags
          by_cases hsc : sc = true
          · rw [hsc] at h
            rw [if_pos rfl] at h
            rcases h3 : (runInvalidWriteHooks s1 (enumHooksFrom 0 c.hooks)
                (PagedError.access me).1 (PagedError.access me).2 false
                false).2.1.with_operand_values_mut op buf with _ | ⟨res2, s3⟩
            · rw [h3] at h
              exact absurd h (by simp)
            · rw [h3] at h
              dsimp only at h
              rcases res2 with pe2 | u2
              · dsimp only at h
                by_cases hsk : sk = true
                · rw [hsk, if_pos rfl] at h
                  have h4 := congrArg (fun (x : (Except IError Unit) × Ctx × List Event) => x.1)
                    (Option.some.inj h)
                  dsimp only at h4
                  exact Or.inl (runOpWriteHooks_err _ _ _ _ _ h4)
                · rw [if_neg hsk] at h
                  have h4 := congrArg (fun (x : (Except IError Unit) × Ctx × List Event) => x.1)
                    (Option.some.inj h)
                  injection h4 with h5
                  exact Or.inr ⟨_, h5.symm⟩
              · dsimp only at h
                have h4 := congrArg (fun (x : (Except IError Unit) × Ctx × List Event) => x.1)
                  (Option.some.inj h)
                dsimp only at h4
                exact Or.inl (runOpWriteHooks_err _ _ _ _ _ h4)
          · rw [if_neg hsc] at h
            by_cases hsk : sk = true
            · rw [hsk, if_pos rfl] at h
              have h3 := congrArg (fun (x : (Except IError Unit) × Ctx × List Event) => x.1)
                (Option.some.inj h)
              dsimp only at h3
              exact Or.inl (runOpWriteHooks_err _ _ _ _ _ h3)
            · rw [if_neg hsk] at h
              have h3 := congrArg (fun (x : (Except IError Unit) × Ctx × List Event) => x.1)
                (Option.some.inj h)
              injection h3 with h4
              exact Or.inr ⟨_, h4.symm⟩

/-- Errors of `expand_as`: a hook error, a state error, or the operand-size
guard — never arithmetic. -/
theorem expand_as_err (c : Ctx) (bv : BV) (dest : Operand) (signed : Bool) (opsz : Nat)
    (e : IError) (c' : Ctx) (evs : List Event)
    (h : expand_as c bv dest signed opsz = some (.error e, c', evs)) :
    (∃ n, e = .hook n) ∨ (∃ pe, e = .state pe) ∨ (∃ a b, e = .unsupportedOperandSize a b) := by
  unfold expand_as at h
  dsimp only at h
  by_cases hsz : dest.size > opsz
  · rw [if_pos hsz] at h
    have h2 := congrArg (fun (x : (Except IError Unit) × Ctx × List Event) => x.1)
      (Option.some.inj h)
    injection h2 with h3
    exact Or.inr (Or.inr ⟨_, _, h3.symm⟩)
  · rw [if_neg hsz] at h
    rcases write_operand_err _ _ _ _ _ _ h with h2 | h2
    · exact Or.inl h2
    · exact Or.inr (Or.inl h2)

/-- `lift_int2` never reports an arithmetic failure unless its closure
does. -/
theorem lift_int2_no_arith (c : Ctx) (opsz : Nat) (op : BV → BV → Except IError BV)
    (dest lhs rhs : Operand) (signed : Bool)
    (hop : ∀ u v, op u v ≠ .error .divisionByZero)
    (res : Except IError IOutcome) (c' : Ctx) (evs : List Event)
    (h : lift_int2 c opsz op dest lhs rhs signed = some (res, c', evs)) :
    res ≠ .error .divisionByZero := by
  intro hres
  subst hres
  unfold lift_int2 at h
  by_cases h1 : lhs.size > opsz
  · rw [if_pos h1] at h
    have h2 := congrArg (fun (x : (Except IError IOutcome) × Ctx × List Event) => x.1)
      (Option.some.inj h)
    exact absurd h2 (by simp)
  · rw [if_neg h1] at h
    by_cases h2 : rhs.size > opsz
    · rw [if_pos h2] at h
      have h3 := congrArg (fun (x : (Except IError IOutcome) × Ctx × List Event) => x.1)
        (Option.some.inj h)
      exact absurd h3 (by simp)
    · rw [if_neg h2] at h
      rcases h3 : read_operand_with c lhs .read with _ | ⟨res1, c1, ev1⟩
      · rw [h3] at h
        exact absurd h (by simp)
      · rw [h3] at h
        rcases res1 with e1 | lbuf
        · dsimp only at h
          have h4 := congrArg (fun (x : (Except IError IOutcome) × Ctx × List Event) => x.1)
            (Option.some.inj h)
          injection h4 with h5
          rcases read_operand_with_err _ _ _ _ _ _ (h5 ▸ h3) with ⟨n, hn⟩ | ⟨pe, hpe⟩
          · exact absurd hn (by simp)
          · exact absurd hpe (by simp)
        · dsimp only at h
          rcases h4 : read_operand_with c1 rhs .read with _ | ⟨res2, c2, ev2⟩
          · rw [h4] at h
            exact absurd h (by simp)
          · rw [h4] at h
            rcases res2 with e2 | rbuf
            · dsimp only at h
              have h5 := congrArg
                (fun (x : (Except IError IOutcome) × Ctx × List Event) => x.1)
                (Option.some.inj h)
              injection h5 with h6
              rcases read_operand_with_err _ _ _ _ _ _ (h6 ▸ h4) with ⟨n, hn⟩ | ⟨pe, hpe⟩
              · exact absurd hn (by simp)
              · exact absurd hpe (by simp)
            · dsimp only at h
              rcases h5 : op (BV.from_bytes c.endian lbuf signed)
                  (if lhs.size ≠ rhs.size then
                    (BV.from_bytes c.endian rbuf signed).cast
                      (BV.from_bytes c.endian lbuf signed).bits
                  else BV.from_bytes c.endian rbuf signed) with e3 | bres
              · rw [h5] at h
                dsimp only at h
                have h6 := congrArg
                  (fun (x : (Except IError IOutcome) × Ctx × List Event) => x.1)
                  (Option.some.inj h)
                injection h6 with h7
                exact hop _ _ (by rw [h5, ← h7])
              · rw [h5] at h
                dsimp only at h
                rcases h6 : expand_as c2 bres dest signed opsz with _ | ⟨res3, c3, ev3⟩
                · rw [h6] at h
                  exact absurd h (by simp)
                · rw [h6] at h
                  rcases res3 with e4 | u
                  · dsimp only at h
                    have h7 := congrArg
                      (fun (x : (Except IError IOutcome) × Ctx × List Event) => x.1)
                      (Option.some.inj h)
                    injection h7 with h8
                    rcases expand_as_err _ _ _ _ _ _ _ _ (h8 ▸ h6)
                      with ⟨n, hn⟩ | ⟨pe, hpe⟩ | ⟨a, b, hab⟩
                    · exact absurd hn (by simp)
                    · exact absurd hpe (by simp)
                    · exact absurd hab (by simp)
                  · dsimp only at h
                    have h7 := congrArg
                      (fun (x : (Except IError IOutcome) × Ctx × List Event) => x.1)
                      (Option.some.inj h)
                    exact absurd h7 (by simp)


/-- `lift_int2` after two successful operand reads: the arithmetic closure
is applied to the decoded (and width-cast) values and the result flows into
`expand_as`. -/
theorem lift_int2_trace (c c1 c2 : Ctx) (opsz : Nat) (op : BV → BV → Except IError BV)
    (dest lhs rhs : Operand) (signed : Bool) (lbuf rbuf : List Nat) (ev1 ev2 : List Event)
    (hl : ¬ lhs.size > opsz) (hr : ¬ rhs.size > opsz)
    (hread1 : read_operand_with c lhs .read = some (.ok lbuf, c1, ev1))
    (hread2 : read_operand_with c1 rhs .read = some (.ok rbuf, c2, ev2)) :
    lift_int2 c opsz op dest lhs rhs signed =
      (match op (BV.from_bytes c.endian lbuf signed)
          (if lhs.size ≠ rhs.size then
            (BV.from_bytes c.endian rbuf signed).cast (BV.from_bytes c.endian lbuf signed).bits
          else BV.from_bytes c.endian rbuf signed) with
       | .error e => some (.error e, c2, ev1 ++ ev2)
       | .ok res =>
         match expand_as c2 res dest signed opsz with
         | none => none
         | some (.error e, c3, evw) => some (.error e, c3, ev1 ++ ev2 ++ evw)
         | some (.ok _, c3, evw) => some (.ok (.branch .next), c3, ev1 ++ ev2 ++ evw)) := by
  unfold lift_int2
  rw [if_neg hl, if_neg hr, hread1]
  dsimp only
  rw [hread2]

/-- **C9.** With both operand reads succeeding, each of `IntDiv`, `IntSDiv`,
`IntRem` and `IntSRem` fails with `DivisionByZero` exactly when the divisor
— decoded with the respective signedness and width-cast to the dividend's
width when the sizes differ — is zero, and an `Outcome` free of arithmetic
errors is produced otherwise; and `lift_int2` over any closure that never
reports `DivisionByZero` (every other integer micro-op) never fails with an
arithmetic error. -/
theorem claim_C9_division_by_zero (c c1 c2 : Ctx) (opsz : Nat) (dest lhs rhs : Operand)
    (lbuf rbuf : List Nat) (ev1 ev2 : List Event)
    (hl : ¬ lhs.size > opsz) (hr : ¬ rhs.size > opsz)
    (hread1 : read_operand_with c lhs .read = some (.ok lbuf, c1, ev1))
    (hread2 : read_operand_with c1 rhs .read = some (.ok rbuf, c2, ev2)) :
    ((((if lhs.size ≠ rhs.size then
        (BV.from_bytes c.endian rbuf false).cast (BV.from_bytes c.endian lbuf false).bits
      else BV.from_bytes c.endian rbuf false)).is_zero = true →
      int_div c opsz dest lhs rhs = some (.error .divisionByZero, c2, ev1 ++ ev2) ∧
      int_rem c opsz dest lhs rhs = some (.error .divisionByZero, c2, ev1 ++ ev2)) ∧
    (((if lhs.size ≠ rhs.size then
        (BV.from_bytes c.endian rbuf true).cast (BV.from_bytes c.endian lbuf true).bits
      else BV.from_bytes c.endian rbuf true)).is_zero = true →
      int_sdiv c opsz dest lhs rhs = some (.error .divisionByZero, c2, ev1 ++ ev2) ∧
      int_srem c opsz dest lhs rhs = some (.error .divisionByZero, c2, ev1 ++ ev2))) ∧
    ((((if lhs.size ≠ rhs.size then
        (BV.from_bytes c.endian rbuf false).cast (BV.from_bytes c.endian lbuf false).bits
      else BV.from_bytes c.endian rbuf false)).is_zero = false →
      (∀ out, int_div c opsz dest lhs rhs = some out → out.1 ≠ .error .divisionByZero) ∧
      (∀ out, int_rem c opsz dest lhs rhs = some out → out.1 ≠ .error .divisionByZero)) ∧
    (((if lhs.size ≠ rhs.size then
        (BV.from_bytes c.endian rbuf true).cast (BV.from_bytes c.endian lbuf true).bits
      else BV.from_bytes c.endian rbuf true)).is_zero = false →
      (∀ out, int_sdiv c opsz dest lhs rhs = some out → out.1 ≠ .error .divisionByZero) ∧
      (∀ out, int_srem c opsz dest lhs rhs = some out → out.1 ≠ .error .divisionByZero))) ∧
    (∀ (gop : BV → BV → Except IError BV), (∀ u v, gop u v ≠ .error .divisionByZero) →
      ∀ signed out, lift_int2 c opsz gop dest lhs rhs signed = some out →
        out.1 ≠ .error .divisionByZero) := by
  have hzero : ∀ (f : BV → BV → Except IError BV) (signed : Bool),
      (∀ u v, v.is_zero = true → f u v = .error .divisionByZero) →
      ((if lhs.size ≠ rhs.size then
        (BV.from_bytes c.endian rbuf signed).cast (BV.from_bytes c.endian lbuf signed).bits
      else BV.from_bytes c.endian rbuf signed)).is_zero = true →
      lift_int2 c opsz f dest lhs rhs signed = some (.error .divisionByZero, c2, ev1 ++ ev2) := by
    intro f signed hf hz
    rw [lift_int2_trace c c1 c2 opsz f dest lhs rhs signed lbuf rbuf ev1 ev2 hl hr
      hread1 hread2]
    rw [hf _ _ hz]
  have hnonzero : ∀ (f : BV → BV → Except IError BV) (signed : Bool),
      (∀ u v, v.is_zero = false → ∃ w, f u v = .ok w) →
      ((if lhs.size ≠ rhs.size then
        (BV.from_bytes c.endian rbuf signed).cast (BV.from_bytes c.endian lbuf signed).bits
      else BV.from_bytes c.endian rbuf signed)).is_zero = false →
      ∀ out, lift_int2 c opsz f dest lhs rhs signed = some out →
        out.1 ≠ .error .divisionByZero := by
    intro f signed hf hz out hout
    rw [lift_int2_trace c c1 c2 opsz f dest lhs rhs signed lbuf rbuf ev1 ev2 hl hr
      hread1 hread2] at hout
    obtain ⟨w, hw⟩ := hf _ _ hz
    rw [hw] at hout
    dsimp only at hout
    rcases h6 : expand_as c2 w dest signed opsz with _ | ⟨res3, c3, ev3⟩
    · rw [h6] at hout
      exact absurd hout (by simp)
    · rw [h6] at hout
      rcases res3 with e4 | u
      · dsimp only at hout
        have h7 := congrArg (fun (x : (Except IError IOutcome) × Ctx × List Event) => x.1)
          (Option.some.inj hout)
        dsimp only at h7
        intro hbad
        rw [hbad] at h7
        rcases expand_as_err _ _ _ _ _ _ _ _ h6 with ⟨n, hn⟩ | ⟨pe, hpe⟩ | ⟨a, b, hab⟩
        · rw [hn] at h7
          exact absurd h7 (by simp)
        · rw [hpe] at h7
          exact absurd h7 (by simp)
        · rw [hab] at h7
          exact absurd h7 (by simp)
      · dsimp only at hout
        have h7 := congrArg (fun (x : (Except IError IOutcome) × Ctx × List Event) => x.1)
          (Option.some.inj hout)
        dsimp only at h7
        intro hbad
        rw [hbad] at h7
        exact absurd h7 (by simp)
  have hdivz : ∀ u v : BV, v.is_zero = true → divOp u v = .error .divisionByZero := by
    intro u v hv
    unfold divOp
    rw [if_pos hv]
  have hremz : ∀ u v : BV, v.is_zero = true → remOp u v = .error .divisionByZero := by
    intro u v hv
    unfold remOp
    rw [if_pos hv]
  have hdivn : ∀ u v : BV, v.is_zero = false → ∃ w, divOp u v = .ok w := by
    intro u v hv
    exact ⟨BV.div u v, by unfold divOp; rw [if_neg (by simp [hv])]⟩
  have hremn : ∀ u v : BV, v.is_zero = false → ∃ w, remOp u v = .ok w := by
    intro u v hv
    exact ⟨BV.rem u v, by unfold remOp; rw [if_neg (by simp [hv])]⟩
  refine ⟨⟨fun hz => ⟨hzero divOp false hdivz hz, hzero remOp false hremz hz⟩,
          fun hz => ⟨hzero divOp true hdivz hz, hzero remOp true hremz hz⟩⟩,
         ⟨fun hz => ⟨hnonzero divOp false hdivn hz, hnonzero remOp false hremn hz⟩,
          fun hz => ⟨hnonzero divOp true hdivn hz, hnonzero remOp true hremn hz⟩⟩,
         ?_⟩
  intro gop hgop signed out hout
  obtain ⟨res, cx, evx⟩ := out
  exact lift_int2_no_arith c opsz gop dest lhs rhs signed hgop res cx evx hout

/-- Witness for C9: on the zeroed register file, `IntDiv` and `IntSDiv` of
two 2-byte registers fail with `DivisionByZero`. -/
theorem claim_C9_division_by_zero_witness :
    int_div c9Ctx 8 (.register 4 2) (.register 0 2) (.register 2 2)
      = some (.error .divisionByZero, c9Ctx, []) ∧
    int_sdiv c9Ctx 8 (.register 4 2) (.register 0 2) (.register 2 2)
      = some (.error .divisionByZero, c9Ctx, []) := by
  have h := claim_C9_division_by_zero c9Ctx c9Ctx c9Ctx 8 (.register 4 2) (.register 0 2)
    (.register 2 2) [0, 0] [0, 0] [] [] (by decide) (by decide) rfl rfl
  exact ⟨by simpa using (h.1.1 (by decide)).1, by simpa using (h.1.2 (by decide)).1⟩


/-! ## Claim C7 — operand hook fan-out (corrected: pointer reads double-fire) -/

theorem count_range (a n : Nat) : (List.range n).count a = if a < n then 1 else 0 := by
  by_cases h : a < n
  · rw [if_pos h]
    exact List.count_eq_one_of_mem (List.nodup_range n) (List.mem_range.mpr h)
  · rw [if_neg h]
    exact List.count_eq_zero.mpr (fun hm => h (List.mem_range.mp hm))

theorem operandRead_injective (op : Operand) :
    Function.Injective (fun i => Event.operandRead i op) := by
  intro a b hab
  injection hab

theorem operandWrite_injective (op : Operand) :
    Function.Injective (fun i => Event.operandWrite i op) := by
  intro a b hab
  injection hab

theorem count_read_events (op : Operand) (n i : Nat) :
    ((List.range n).map (fun j => Event.operandRead j op)).count (Event.operandRead i op)
      = if i < n then 1 else 0 :=
  (List.count_map_of_injective (List.range n) (fun j => Event.operandRead j op)
    (operandRead_injective op) i).trans (count_range i n)

theorem count_write_events (op : Operand) (n i : Nat) :
    ((List.range n).map (fun j => Event.operandWrite j op)).count (Event.operandWrite i op)
      = if i < n then 1 else 0 :=
  (List.count_map_of_injective (List.range n) (fun j => Event.operandWrite j op)
    (operandWrite_injective op) i).trans (count_range i n)

/-- The `hook_operand_read` loop fires hooks in registration order: its
trace is an initial run of `operandRead` events, complete on success. -/
theorem runOpReadHooks_events (op : Operand) :
    ∀ (l : List Hook) (i : Nat) (s : PCodeState),
      ∃ k, k ≤ l.length ∧
        (runOpReadHooks s (enumHooksFrom i l) op).2.2
          = (List.range k).map (fun j => Event.operandRead (i + j) op) ∧
        ((runOpReadHooks s (enumHooksFrom i l) op).1 = .ok () → k = l.length) := by
  intro l
  induction l with
  | nil =>
    intro i s
    exact ⟨0, by simp, rfl, fun _ => rfl⟩
  | cons hk t ih =>
    intro i s
    rw [enumHooksFrom]
    rcases hh : hk.operand_read s op with e | ⟨s', out⟩
    · refine ⟨1, by simp, ?_, ?_⟩
      · rw [runOpReadHooks, hh]
        dsimp only
        simp [List.range_succ]
      · intro hok
        rw [runOpReadHooks, hh] at hok
        exact absurd hok (by simp)
    · obtain ⟨k, hk1, hk2, hk3⟩ := ih (i + 1) s'
      refine ⟨k + 1, by simp only [List.length_cons]; omega, ?_, ?_⟩
      · rw [runOpReadHooks, hh]
        dsimp only
        rw [hk2]
        rw [List.range_succ_eq_map, List.map_cons, List.map_map]
        congr 1
        apply List.map_congr_left
        intro j _
        show Event.operandRead (i + 1 + j) op = Event.operandRead (i + j.succ) op
        have h5 : i + 1 + j = i + j.succ := by omega
        rw [h5]
      · intro hok
        rw [runOpReadHooks, hh] at hok
        dsimp only at hok
        have := hk3 hok
        simp [this]

/-- The `hook_operand_write` loop fires hooks in registration order. -/
theorem runOpWriteHooks_events (op : Operand) (buf : List Nat) :
    ∀ (l : List Hook) (i : Nat) (s : PCodeState),
      ∃ k, k ≤ l.length ∧
        (runOpWriteHooks s (enumHooksFrom i l) op buf).2.2
          = (List.range k).map (fun j => Event.operandWrite (i + j) op) ∧
        ((runOpWriteHooks s (enumHooksFrom i l) op buf).1 = .ok () → k = l.length) := by
  intro l
  induction l with
  | nil =>
    intro i s
    exact ⟨0, by simp, rfl, fun _ => rfl⟩
  | cons hk t ih =>
    intro i s
    rw [enumHooksFrom]
    rcases hh : hk.operand_write s op buf with e | ⟨s', out⟩
    · refine ⟨1, by simp, ?_, ?_⟩
      · rw [runOpWriteHooks, hh]
        dsimp only
        simp [List.range_succ]
      · intro hok
        rw [runOpWriteHooks, hh] at hok
        exact absurd hok (by simp)
    · obtain ⟨k, hk1, hk2, hk3⟩ := ih (i + 1) s'
      refine ⟨k + 1, by simp only [List.length_cons]; omega, ?_, ?_⟩
      · rw [runOpWriteHooks, hh]
        dsimp only
        rw [hk2]
        rw [List.range_succ_eq_map, List.map_cons, List.map_map]
        congr 1
        apply List.map_congr_left
        intro j _
        show Event.operandWrite (i + 1 + j) op = Event.operandWrite (i + j.succ) op
        have h5 : i + 1 + j = i + j.succ := by omega
        rw [h5]
      · intro hok
        rw [runOpWriteHooks, hh] at hok
        dsimp only at hok
        have := hk3 hok
        simp [this]

/-- Invalid-access recovery hooks only emit `invalidAccess` events. -/
theorem runInvalidHooksFrom_events :
    ∀ (hs : List (Nat × Hook)) (s : PCodeState) (a n : Nat) (k : ViolationSource)
      (acc : Option (HookOutcome HookInvalidAction)),
      ∀ e ∈ (runInvalidHooksFrom s hs a n k acc).2.2, ∃ i x y, e = .invalidAccess i x y := by
  intro hs
  induction hs with
  | nil =>
    intro s a n k acc e he
    exact absurd he (List.not_mem_nil e)
  | cons hd t ih =>
    intro s a n k acc e he
    obtain ⟨i, hk⟩ := hd
    rw [runInvalidHooksFrom] at he
    rcases hh : hk.invalid_access s a n k with e1 | ⟨s', out⟩
    · rw [hh] at he
      dsimp only at he
      rw [List.mem_singleton] at he
      exact ⟨i, a, n, he⟩
    · rw [hh] at he
      dsimp only at he
      rcases List.mem_cons.mp he with he1 | he2
      · exact ⟨i, a, n, he1⟩
      · exact ih s' a n k _ e he2

theorem runInvalidWriteHooks_events :
    ∀ (hs : List (Nat × Hook)) (s : PCodeState) (a n : Nat) (sc sk : Bool),
      ∀ e ∈ (runInvalidWriteHooks s hs a n sc sk).2.2, ∃ i x y, e = .invalidAccess i x y := by
  intro hs
  induction hs with
  | nil =>
    intro s a n sc sk e he
    exact absurd he (List.not_mem_nil e)
  | cons hd t ih =>
    intro s a n sc sk e he
    obtain ⟨i, hk⟩ := hd
    rw [runInvalidWriteHooks] at he
    rcases hh : hk.invalid_access s a n .write with e1 | ⟨s', out⟩
    · rw [hh] at he
      dsimp only at he
      rw [List.mem_singleton] at he
      exact ⟨i, a, n, he⟩
    · rw [hh] at he
      dsimp only at he
      rcases List.mem_cons.mp he with he1 | he2
      · exact ⟨i, a, n, he1⟩
      · exact ih s' a n _ _ e he2

/-- A successful hook-read loop means its event trace is exactly one
`operandRead` per registered hook, in registration order. -/
theorem runOpReadHooks_events_ok (c : Ctx) (op : Operand)
    (hok : (runOpReadHooks c.state (enumHooksFrom 0 c.hooks) op).1 = .ok ()) :
    (runOpReadHooks c.state (enumHooksFrom 0 c.hooks) op).2.2
      = (List.range c.hooks.length).map (fun j => Event.operandRead j op) := by
  obtain ⟨k, _, h2, h3⟩ := runOpReadHooks_events op c.hooks 0 c.state
  rw [h2, h3 hok]
  apply List.map_congr_left
  intro j _
  rw [Nat.zero_add]

/-- The trace of `read_operand_with` is the (successful) hook-read loop
followed only by invalid-access recovery events. -/
theorem read_operand_with_events (c : Ctx) (op : Operand) (kind : ViolationSource)
    (res : Except IError (List Nat)) (c' : Ctx) (evs : List Event)
    (h : read_operand_with c op kind = some (res, c', evs))
    (hok : (runOpReadHooks c.state (enumHooksFrom 0 c.hooks) op).1 = .ok ()) :
    ∃ rest, evs = (runOpReadHooks c.state (enumHooksFrom 0 c.hooks) op).2.2 ++ rest ∧
      ∀ e ∈ rest, ∃ i x y, e = Event.invalidAccess i x y := by
  unfold read_operand_with at h
  dsimp only at h
  rw [hok] at h
  dsimp only at h
  rcases h2 : ((runOpReadHooks c.state (enumHooksFrom 0 c.hooks) op).2.1).with_operand_values
      c.endian op with _ | res0
  · rw [h2] at h
    exact absurd h (by simp)
  · rw [h2] at h
    rcases res0 with pe | bs
    · rcases pe with me | fe | fe
      case register =>
        dsimp only at h
        have h3 := congrArg (fun (x : (Except IError (List Nat)) × Ctx × List Event) => x.2.2)
          (Option.some.inj h)
        exact ⟨[], by simpa using h3.symm, by simp⟩
      case temporary =>
        dsimp only at h
        have h3 := congrArg (fun (x : (Except IError (List Nat)) × Ctx × List Event) => x.2.2)
          (Option.some.inj h)
        exact ⟨[], by simpa using h3.symm, by simp⟩
      case memory =>
        dsimp only at h
        rcases h3 : (runInvalidHooksFrom
            ((runOpReadHooks c.state (enumHooksFrom 0 c.hooks) op).2.1)
            (enumHooksFrom 0 c.hooks) (PagedError.access me).1 (PagedError.access me).2
            kind none) with ⟨ir1, irs, irevs⟩
        have hinv : ∀ e ∈ irevs, ∃ i x y, e = Event.invalidAccess i x y := by
          intro e he
          have := runInvalidHooksFrom_events (enumHooksFrom 0 c.hooks)
            ((runOpReadHooks c.state (enumHooksFrom 0 c.hooks) op).2.1)
            (PagedError.access me).1 (PagedError.access me).2 kind none e
          rw [h3] at this
          exact this he
        rw [h3] at h
        rcases ir1 with e1 | sc
        · dsimp only at h
          have h4 := congrArg (fun (x : (Except IError (List Nat)) × Ctx × List Event) => x.2.2)
            (Option.some.inj h)
          exact ⟨irevs, by simpa using h4.symm, hinv⟩
        · dsimp only at h
          rcases sc with _ | out
          · dsimp only at h
            have h4 := congrArg (fun (x : (Except IError (List Nat)) × Ctx × List Event) => x.2.2)
              (Option.some.inj h)
            exact ⟨irevs, by simpa using h4.symm, hinv⟩
          · dsimp only at h
            rcases h4 : out.action.into_value with _ | v
            · rw [h4] at h
              dsimp only at h
              rcases h5 : ((runInvalidHooksFrom
                  ((runOpReadHooks c.state (enumHooksFrom 0 c.hooks) op).2.1)
                  (enumHooksFrom 0 c.hooks) (PagedError.access me).1 (PagedError.access me).2
                  kind none).2.1).with_operand_values c.endian op with _ | res2
              · rw [h3] at h5
                rw [h5] at h
                exact absurd h (by simp)
              · rw [h3] at h5
                rw [h5] at h
                rcases res2 with pe2 | bs2
                · dsimp only at h
                  have h6 := congrArg
                    (fun (x : (Except IError (List Nat)) × Ctx × List Event) => x.2.2)
                    (Option.some.inj h)
                  exact ⟨irevs, by simpa using h6.symm, hinv⟩
                · dsimp only at h
                  have h6 := congrArg
                    (fun (x : (Except IError (List Nat)) × Ctx × List Event) => x.2.2)
                    (Option.some.inj h)
                  exact ⟨irevs, by simpa using h6.symm, hinv⟩
            · rw [h4] at h
              dsimp only at h
              have h5 := congrArg (fun (x : (Except IError (List Nat)) × Ctx × List Event) => x.2.2)
                (Option.some.inj h)
              exact ⟨irevs, by simpa using h5.symm, hinv⟩
    · dsimp only at h
      have h3 := congrArg (fun (x : (Except IError (List Nat)) × Ctx × List Event) => x.2.2)
        (Option.some.inj h)
      exact ⟨[], by simpa using h3.symm, by simp⟩

/-- A successful `read_operand_with` implies its hook-read loop succeeded. -/
theorem read_operand_with_ok_loop (c : Ctx) (op : Operand) (kind : ViolationSource)
    (bs : List Nat) (c' : Ctx) (evs : List Event)
    (h : read_operand_with c op kind = some (.ok bs, c', evs)) :
    (runOpReadHooks c.state (enumHooksFrom 0 c.hooks) op).1 = .ok () := by
  unfold read_operand_with at h
  dsimp only at h
  rcases h1 : (runOpReadHooks c.state (enumHooksFrom 0 c.hooks) op).1 with e | u
  · rw [h1] at h
    dsimp only at h
    have h2 := congrArg (fun (x : (Except IError (List Nat)) × Ctx × List Event) => x.1)
      (Option.some.inj h)
    exact absurd h2 (by simp)
  · cases u
    rfl


/-- A successful hook-write loop emits exactly one `operandWrite` per hook. -/
theorem runOpWriteHooks_events_ok (s : PCodeState) (hooks : List Hook) (op : Operand)
    (buf : List Nat)
    (hok : (runOpWriteHooks s (enumHooksFrom 0 hooks) op buf).1 = .ok ()) :
    (runOpWriteHooks s (enumHooksFrom 0 hooks) op buf).2.2
      = (List.range hooks.length).map (fun j => Event.operandWrite j op) := by
  obtain ⟨k, _, h2, h3⟩ := runOpWriteHooks_events op buf hooks 0 s
  rw [h2, h3 hok]
  apply List.map_congr_left
  intro j _
  rw [Nat.zero_add]

theorem count_read_invalid_zero (l : List Event)
    (hinv : ∀ e ∈ l, ∃ i x y, e = Event.invalidAccess i x y) (i : Nat) (op : Operand) :
    l.count (Event.operandRead i op) = 0 :=
  List.count_eq_zero.mpr (fun hm => by
    obtain ⟨a, x, y, he⟩ := hinv _ hm
    exact Event.noConfusion he)

theorem count_write_invalid_zero (l : List Event)
    (hinv : ∀ e ∈ l, ∃ i x y, e = Event.invalidAccess i x y) (i : Nat) (op : Operand) :
    l.count (Event.operandWrite i op) = 0 :=
  List.count_eq_zero.mpr (fun hm => by
    obtain ⟨a, x, y, he⟩ := hinv _ hm
    exact Event.noConfusion he)

/-- The trace of a successful `write_operand` is invalid-access recovery
events followed by exactly one `operandWrite` per registered hook, in
registration order (the hook loop runs after the write). -/
theorem write_operand_events (c : Ctx) (op : Operand) (buf : List Nat)
    (c' : Ctx) (evs : List Event)
    (h : write_operand c op buf = some (.ok (), c', evs)) :
    ∃ pre, evs = pre ++ (List.range c.hooks.length).map (fun j => Event.operandWrite j op) ∧
      ∀ e ∈ pre, ∃ i x y, e = Event.invalidAccess i x y := by
  unfold write_operand at h
  rcases h1 : c.state.with_operand_values_mut op buf with _ | ⟨res, s1⟩
  · rw [h1] at h
    exact absurd h (by simp)
  · rw [h1] at h
    dsimp only at h
    rcases res with pe | u
    case ok =>
      dsimp only at h
      have h2 := congrArg (fun (x : (Except IError Unit) × Ctx × List Event) => x.1)
        (Option.some.inj h)
      have h3 := congrArg (fun (x : (Except IError Unit) × Ctx × List Event) => x.2.2)
        (Option.some.inj h)
      dsimp only at h2 h3
      refine ⟨[], ?_, by simp⟩
      rw [← h3, runOpWriteHooks_events_ok s1 c.hooks op buf h2]
      simp
    case error =>
      rcases pe with me | fe | fe
      case register =>
        dsimp only at h
        have h2 := congrArg (fun (x : (Except IError Unit) × Ctx × List Event) => x.1)
          (Option.some.inj h)
        exact absurd h2 (by simp)
      case temporary =>
        dsimp only at h
        have h2 := congrArg (fun (x : (Except IError Unit) × Ctx × List Event) => x.1)
          (Option.some.inj h)
        exact absurd h2 (by simp)
      case memory =>
        dsimp only at h
        have hinv : ∀ e ∈ (runInvalidWriteHooks s1 (enumHooksFrom 0 c.hooks)
            (PagedError.access me).1 (PagedError.access me).2 false false).2.2,
            ∃ i x y, e = Event.invalidAccess i x y :=
          runInvalidWriteHooks_events _ _ _ _ _ _
        rcases h2 : (runInvalidWriteHooks s1 (enumHooksFrom 0 c.hooks)
            (PagedError.access me).1 (PagedError.access me).2 false false).1 with e2 | flags
        · rw [h2] at h
          dsimp only at h
          have h3 := congrArg (fun (x : (Except IError Unit) × Ctx × List Event) => x.1)
            (Option.some.inj h)
          exact absurd h3 (by simp)
        · rw [h2] at h
          dsimp only at h
          obtain ⟨sc, sk⟩ := flags
          by_cases hsc : sc = true
          · rw [hsc, if_pos rfl] at h
            rcases h3 : (runInvalidWriteHooks s1 (enumHooksFrom 0 c.hooks)
                (PagedError.access me).1 (PagedError.access me).2 false
                false).2.1.with_operand_values_mut op buf with _ | ⟨res2, s3⟩
            · rw [h3] at h
              exact absurd h (by simp)
            · rw [h3] at h
              dsimp only at h
              rcases res2 with pe2 | u2
              · dsimp only at h
                by_cases hsk : sk = true
                · rw [hsk, if_pos rfl] at h
                  have h4 := congrArg (fun (x : (Except IError Unit) × Ctx × List Event) => x.1)
                    (Option.some.inj h)
                  have h5 := congrArg (fun (x : (Except IError Unit) × Ctx × List Event) => x.2.2)
                    (Option.some.inj h)
                  dsimp only at h4 h5
                  refine ⟨_, ?_, hinv⟩
                  rw [← h5, runOpWriteHooks_events_ok s3 c.hooks op buf h4]
                · rw [if_neg hsk] at h
                  have h4 := congrArg (fun (x : (Except IError Unit) × Ctx × List Event) => x.1)
                    (Option.some.inj h)
                  exact absurd h4 (by simp)
              · dsimp only at h
                have h4 := congrArg (fun (x : (Except IError Unit) × Ctx × List Event) => x.1)
                  (Option.some.inj h)
                have h5 := congrArg (fun (x : (Except IError Unit) × Ctx × List Event) => x.2.2)
                  (Option.some.inj h)
                dsimp only at h4 h5
                refine ⟨_, ?_, hinv⟩
                rw [← h5, runOpWriteHooks_events_ok s3 c.hooks op buf h4]
          · rw [if_neg hsc] at h
            by_cases hsk : sk = true
            · rw [hsk, if_pos rfl] at h
              have h3 := congrArg (fun (x : (Except IError Unit) × Ctx × List Event) => x.1)
                (Option.some.inj h)
              have h4 := congrArg (fun (x : (Except IError Unit) × Ctx × List Event) => x.2.2)
                (Option.some.inj h)
              dsimp only at h3 h4
              refine ⟨_, ?_, hinv⟩
              rw [← h4, runOpWriteHooks_events_ok _ c.hooks op buf h3]
            · rw [if_neg hsk] at h
              have h3 := congrArg (fun (x : (Except IError Unit) × Ctx × List Event) => x.1)
                (Option.some.inj h)
              exact absurd h3 (by simp)


/-- **C7** (corrected). For a single operand access, every registered
hook's `operand_read` fires exactly once per read and `operand_write`
exactly once per write, in registration order (apart from invalid-access
recovery events) — but the pointer read performed by `get_address_value`
(used by load, store, ibranch, icall and return) fires every
`operand_read` hook twice: once in its own hook loop and once more inside
the nested `read_operand_with`. -/
theorem claim_C7_operand_hook_fanout
    (c : Ctx) (op ptr : Operand) (kind : ViolationSource)
    (res : Except IError (List Nat)) (cr : Ctx) (revs : List Event)
    (buf : List Nat) (cw : Ctx) (wevs : List Event)
    (v : Nat) (cg : Ctx) (gevs : List Event)
    (hr : read_operand_with c op kind = some (res, cr, revs))
    (hrok : (runOpReadHooks c.state (enumHooksFrom 0 c.hooks) op).1 = .ok ())
    (hw : write_operand c op buf = some (.ok (), cw, wevs))
    (hg : get_address_value c ptr kind = some (.ok v, cg, gevs)) :
    (∀ i, revs.count (Event.operandRead i op) = if i < c.hooks.length then 1 else 0) ∧
    ((List.range c.hooks.length).map (fun j => Event.operandRead j op)) <+: revs ∧
    (∀ i, wevs.count (Event.operandWrite i op) = if i < c.hooks.length then 1 else 0) ∧
    (∀ i, gevs.count (Event.operandRead i ptr) = if i < c.hooks.length then 2 else 0) := by
  obtain ⟨rest, hrevs, hrinv⟩ := read_operand_with_events c op kind res cr revs hr hrok
  have hloopr := runOpReadHooks_events_ok c op hrok
  obtain ⟨pre, hwevs, hwinv⟩ := write_operand_events c op buf cw wevs hw
  refine ⟨?_, ?_, ?_, ?_⟩
  · intro i
    rw [hrevs, hloopr, List.count_append, count_read_events,
      count_read_invalid_zero rest hrinv i op, Nat.add_zero]
  · rw [hrevs, hloopr]
    exact ⟨rest, rfl⟩
  · intro i
    rw [hwevs, List.count_append, count_write_events,
      count_write_invalid_zero pre hwinv i op, Nat.zero_add]
  · intro i
    unfold get_address_value at hg
    dsimp only at hg
    rcases h1 : (runOpReadHooks c.state (enumHooksFrom 0 c.hooks) ptr).1 with e | u
    · rw [h1] at hg
      dsimp only at hg
      have h2 := congrArg (fun (x : (Except IError Nat) × Ctx × List Event) => x.1)
        (Option.some.inj hg)
      exact absurd h2 (by simp)
    · rw [h1] at hg
      dsimp only at hg
      cases u
      by_cases hps : ptr.size = 8 ∨ ptr.size = 4 ∨ ptr.size = 2 ∨ ptr.size = 1
      · rw [if_pos hps] at hg
        rcases h3 : read_operand_with
            { c with state := (runOpReadHooks c.state (enumHooksFrom 0 c.hooks) ptr).2.1 }
            ptr kind with _ | ⟨res2, c2, evs2⟩
        · rw [h3] at hg
          exact absurd hg (by simp)
        · rw [h3] at hg
          rcases res2 with e2 | bs
          · dsimp only at hg
            have h4 := congrArg (fun (x : (Except IError Nat) × Ctx × List Event) => x.1)
              (Option.some.inj hg)
            exact absurd h4 (by simp)
          · dsimp only at hg
            have h4 := congrArg (fun (x : (Except IError Nat) × Ctx × List Event) => x.2.2)
              (Option.some.inj hg)
            dsimp only at h4
            have hloop2 := read_operand_with_ok_loop _ ptr kind bs c2 evs2 h3
            obtain ⟨rest2, hevs2, hinv2⟩ :=
              read_operand_with_events _ ptr kind _ c2 evs2 h3 hloop2
            have hloopg := runOpReadHooks_events_ok
              { c with state := (runOpReadHooks c.state (enumHooksFrom 0 c.hooks) ptr).2.1 }
              ptr hloop2
            have hloop1 := runOpReadHooks_events_ok c ptr h1
            dsimp only at hloopg hevs2
            rw [← h4, hevs2, hloopg, hloop1, List.count_append, List.count_append,
              count_read_events, count_read_invalid_zero rest2 hinv2 i ptr]
            by_cases hi : i < c.hooks.length
            · simp [hi]
            · simp [hi]
      · rw [if_neg hps] at hg
        have h2 := congrArg (fun (x : (Except IError Nat) × Ctx × List Event) => x.1)
          (Option.some.inj hg)
        exact absurd h2 (by simp)

/-- **C7 counterexample.** With one pass-through hook registered, reading
an 8-byte pointer operand through `get_address_value` fires the hook's
`operand_read` twice, not once: the spec's "exactly once per operand read"
fails for the pointer reads of load, store, ibranch, icall and return. -/
theorem claim_C7_counterexample :
    get_address_value c7Ctx (.register 0 8) .read
      = some (.ok 0, c7Ctx,
          [Event.operandRead 0 (.register 0 8), Event.operandRead 0 (.register 0 8)]) ∧
    List.count (Event.operandRead 0 (Operand.register 0 8))
      [Event.operandRead 0 (Operand.register 0 8),
       Event.operandRead 0 (Operand.register 0 8)] = 2 :=
  ⟨rfl, by decide⟩

/-- **C7 witness.** The amended fan-out facts at a concrete context: one
hook, a 2-byte register read and write each fire it exactly once, an
8-byte pointer read through `get_address_value` fires it twice. -/
theorem claim_C7_operand_hook_fanout_witness :
    List.count (Event.operandRead 0 (Operand.register 0 2))
      [Event.operandRead 0 (Operand.register 0 2)] = 1 ∧
    List.count (Event.operandWrite 0 (Operand.register 0 2))
      [Event.operandWrite 0 (Operand.register 0 2)] = 1 ∧
    List.count (Event.operandRead 0 (Operand.register 0 8))
      [Event.operandRead 0 (Operand.register 0 8),
       Event.operandRead 0 (Operand.register 0 8)] = 2 := by
  have h := claim_C7_operand_hook_fanout c7Ctx (.register 0 2) (.register 0 8) .read
    (.ok [0, 0]) c7Ctx [Event.operandRead 0 (.register 0 2)]
    [1, 2] c7Written [Event.operandWrite 0 (.register 0 2)]
    0 c7Ctx
    [Event.operandRead 0 (.register 0 8), Event.operandRead 0 (.register 0 8)]
    rfl rfl rfl rfl
  refine ⟨?_, ?_, ?_⟩
  · have h1 := h.1 0
    rw [h1]
    decide
  · have h2 := h.2.2.1 0
    rw [h2]
    decide
  · have h3 := h.2.2.2 0
    rw [h3]
    decide


/-! ## Claim C6 — cbranch hook protocol -/

/-- The `hook_cbranch` loop fires hooks in registration order, stopping
early only on an error or a halt; its trace is an initial run of
`cbranchHook` events, complete when no hook errored or halted. -/
theorem runCBranchHooks_events (d cn : Operand) :
    ∀ (l : List Hook) (i : Nat) (s : PCodeState) (fl : Bool),
      ∃ k, k ≤ l.length ∧
        (runCBranchHooks s (enumHooksFrom i l) d cn fl).2.2
          = (List.range k).map (fun j => Event.cbranchHook (i + j)) ∧
        (∀ fl', (runCBranchHooks s (enumHooksFrom i l) d cn fl).1 = .ok (none, fl') →
          k = l.length) := by
  intro l
  induction l with
  | nil =>
    intro i s fl
    exact ⟨0, by simp, rfl, fun _ _ => rfl⟩
  | cons hk t ih =>
    intro i s fl
    rw [enumHooksFrom]
    rcases hh : hk.cbranch s d cn with e | ⟨s', out⟩
    · refine ⟨1, by simp, ?_, ?_⟩
      · rw [runCBranchHooks, hh]
        dsimp only
        simp [List.range_succ]
      · intro fl' hok
        rw [runCBranchHooks, hh] at hok
        exact absurd hok (by simp)
    · rcases ha : out.action with _ | _ | r
      case pass =>
        obtain ⟨k, hk1, hk2, hk3⟩ := ih (i + 1) s' fl
        refine ⟨k + 1, by simp only [List.length_cons]; omega, ?_, ?_⟩
        · rw [runCBranchHooks, hh]
          dsimp only
          rw [ha]
          dsimp only
          rw [hk2]
          rw [List.range_succ_eq_map, List.map_cons, List.map_map]
          congr 1
          apply List.map_congr_left
          intro j _
          show Event.cbranchHook (i + 1 + j) = Event.cbranchHook (i + j.succ)
          have h5 : i + 1 + j = i + j.succ := by omega
          rw [h5]
        · intro fl' hok
          rw [runCBranchHooks, hh] at hok
          dsimp only at hok
          rw [ha] at hok
          dsimp only at hok
          have := hk3 fl' hok
          simp [this]
      case flip =>
        obtain ⟨k, hk1, hk2, hk3⟩ := ih (i + 1) s' true
        refine ⟨k + 1, by simp only [List.length_cons]; omega, ?_, ?_⟩
        · rw [runCBranchHooks, hh]
          dsimp only
          rw [ha]
          dsimp only
          rw [hk2]
          rw [List.range_succ_eq_map, List.map_cons, List.map_map]
          congr 1
          apply List.map_congr_left
          intro j _
          show Event.cbranchHook (i + 1 + j) = Event.cbranchHook (i + j.succ)
          have h5 : i + 1 + j = i + j.succ := by omega
          rw [h5]
        · intro fl' hok
          rw [runCBranchHooks, hh] at hok
          dsimp only at hok
          rw [ha] at hok
          dsimp only at hok
          have := hk3 fl' hok
          simp [this]
      case halt =>
        refine ⟨1, by simp, ?_, ?_⟩
        · rw [runCBranchHooks, hh]
          dsimp only
          rw [ha]
          dsimp only
          simp [List.range_succ]
        · intro fl' hok
          rw [runCBranchHooks, hh] at hok
          dsimp only at hok
          rw [ha] at hok
          exact absurd hok (by simp)

/-- **C6.** `cbranch` invokes the registered cbranch hooks in registration
order; a hook's `Halt` returns immediately without reading the condition;
with no halt, an accumulated `Flip` negates the condition byte exactly
once and writes it back before dispatch; the (possibly flipped) condition
being true takes the destination via branch dispatch and false yields
`Next`. -/
theorem claim_C6_cbranch (c : Ctx) (dest cond : Operand) (hsz : cond.size = 1) :
    (∀ r fl, (runCBranchHooks c.state (enumHooksFrom 0 c.hooks) dest cond false).1 = .ok (some r, fl) →
      cbranch c dest cond = some (.ok (.halt r),
        { c with state := (runCBranchHooks c.state (enumHooksFrom 0 c.hooks) dest cond false).2.1 }, (runCBranchHooks c.state (enumHooksFrom 0 c.hooks) dest cond false).2.2)) ∧
    (∀ buf c2 evs2 c3,
      (runCBranchHooks c.state (enumHooksFrom 0 c.hooks) dest cond false).1 = .ok (none, true) →
      read_operand_with { c with state := (runCBranchHooks c.state (enumHooksFrom 0 c.hooks) dest cond false).2.1 } cond .read
        = some (.ok buf, c2, evs2) →
      set_operand_bool c2 cond (!(boolOfBytes buf)) = some (.ok (), c3) →
      cbranch c dest cond =
        (if boolOfBytes buf then
          some (.ok (.branch .next), c3, (runCBranchHooks c.state (enumHooksFrom 0 c.hooks) dest cond false).2.2 ++ evs2)
        else
          match branchDispatch dest with
          | .error e => some (.error e, c3, (runCBranchHooks c.state (enumHooksFrom 0 c.hooks) dest cond false).2.2 ++ evs2)
          | .ok b => some (.ok (.branch b), c3, (runCBranchHooks c.state (enumHooksFrom 0 c.hooks) dest cond false).2.2 ++ evs2))) ∧
    (∀ buf c2 evs2,
      (runCBranchHooks c.state (enumHooksFrom 0 c.hooks) dest cond false).1 = .ok (none, false) →
      read_operand_with { c with state := (runCBranchHooks c.state (enumHooksFrom 0 c.hooks) dest cond false).2.1 } cond .read
        = some (.ok buf, c2, evs2) →
      cbranch c dest cond =
        (if boolOfBytes buf then
          match branchDispatch dest with
          | .error e => some (.error e, c2, (runCBranchHooks c.state (enumHooksFrom 0 c.hooks) dest cond false).2.2 ++ evs2)
          | .ok b => some (.ok (.branch b), c2, (runCBranchHooks c.state (enumHooksFrom 0 c.hooks) dest cond false).2.2 ++ evs2)
        else
          some (.ok (.branch .next), c2, (runCBranchHooks c.state (enumHooksFrom 0 c.hooks) dest cond false).2.2 ++ evs2))) ∧
    (∃ k, k ≤ c.hooks.length ∧
      (runCBranchHooks c.state (enumHooksFrom 0 c.hooks) dest cond false).2.2 = (List.range k).map (fun j => Event.cbranchHook j) ∧
      (∀ fl, (runCBranchHooks c.state (enumHooksFrom 0 c.hooks) dest cond false).1 = .ok (none, fl) → k = c.hooks.length)) := by
  have hne : ¬cond.size ≠ 1 := by rw [hsz]; simp
  refine ⟨?_, ?_, ?_, ?_⟩
  · intro r fl hloop
    unfold cbranch
    rw [if_neg hne]
    dsimp only
    rw [hloop]
  · intro buf c2 evs2 c3 hloop hread hset
    unfold cbranch
    rw [if_neg hne]
    dsimp only
    rw [hloop]
    dsimp only
    rw [hread]
    dsimp only
    rw [hset]
    dsimp only
    rcases hv : boolOfBytes buf with _ | _
    · rfl
    · rfl
  · intro buf c2 evs2 hloop hread
    unfold cbranch
    rw [if_neg hne]
    dsimp only
    rw [hloop]
    dsimp only
    rw [hread]
    dsimp only
    rcases hv : boolOfBytes buf with _ | _
    · rfl
    · rfl
  · obtain ⟨k, hk1, hk2, hk3⟩ := runCBranchHooks_events dest cond c.hooks 0 c.state false
    refine ⟨k, hk1, ?_, hk3⟩
    rw [hk2]
    apply List.map_congr_left
    intro j _
    rw [Nat.zero_add]

/-- **C6 witness.** One flip hook over a zeroed register file: the hook
fires, the condition byte 0 is flipped, the branch is taken to the
constant destination, and the stored condition byte afterwards is 1. -/
theorem claim_C6_cbranch_witness :
    cbranch c6Ctx (.constant 3 8) (.register 0 1)
      = some (.ok (.branch (.toLocal 3)), c6Written,
          [Event.cbranchHook 0, Event.operandRead 0 (.register 0 1)]) ∧
    (c6Written.state.registers.get_bytes 0 1).1 = .ok [1] := by
  have h := claim_C6_cbranch c6Ctx (.constant 3 8) (.register 0 1) rfl
  have h2 := h.2.1 [0] c6Ctx [Event.operandRead 0 (.register 0 1)] c6Written rfl rfl rfl
  refine ⟨?_, by decide⟩
  rw [h2]
  rfl

end FuguexSpec









